import Mathlib

/-!
# golem: filter construction (`utils/bsonbuilder`), query-parameter ingestion (`controllers`) and pagination (`models/mgobase`)

A shallow embedding of `utils/bsonbuilder/{comparison,operator,query}.go`, of
`Base.QueryBSON` and `Base.SortAsMultiple` in `controllers/parse.go`, of
`models/mgobase/{marker,paginater}.go` and of `utils/slice/slice.go`.

Conventions of the embedding.

* A Go `interface{}` value is a `Value`.  Go strings are Lean strings; the byte order used by
  `strings.Compare` is the code-point order of Lean's `String`.
* A Go function that can panic returns `Option _`; `none` is the panic.
* A Go `nil` slice or `nil` map result is `none` of an inner `Option`; a `nil` interface is
  `Value.null`.
* A Go `map` is an association list; `for ... range` visits it in the order of the list, and a
  statement about a map holds for every order of its list.
* A Go `int` has 64 bits: it is an `Int`, and an operation that can leave the range is followed
  by `wrap`.  A `float64` is an `F64`; conversions and divisions round to the nearest
  `float64`, ties to even.
* A loop that the code may never leave takes a number of rounds `fuel` and returns `none` when
  it is not over by then.
* `sort.Slice` is library code.  On a slice of at most 6 elements every version of the library
  runs its insertion sort, which is embedded; on a longer slice the algorithm depends on the
  version, and it is a parameter (`SliceSorter`): the steps of a procedure that sees the slice
  only through `less` and swaps.  What is proved of longer slices is proved for every such
  procedure, from the contract of `sort.Slice` (`SortsSlices`) where the order matters.
-/

namespace bsonbuilder

/-! ## Values -/

/-- A `float64`: not-a-number, the two infinities, or a finite value (the two zeros are not
distinguished; they compare equal in Go). -/
inductive F64 where
  | nan
  | ninf
  | fin (q : ℚ)
  | pinf
  deriving DecidableEq

/-- Go's `<` on `float64`: false as soon as an operand is NaN. -/
def F64.lt : F64 → F64 → Bool
  | .nan, _ => false
  | _, .nan => false
  | .ninf, .ninf => false
  | .ninf, _ => true
  | _, .ninf => false
  | .fin a, .fin b => decide (a < b)
  | .fin _, .pinf => true
  | .pinf, _ => false

/-- The dynamic values the builder is given (`interface{}`).
`int` stands for every integer type (`int`, `int8`, ..., `uint64`), `float` for `float32` and
`float64` (a `float32` is represented by the `float64` its printed form parses to), `time` for
a `time.Time` (its instant, in nanoseconds), `timePtr` for a `*time.Time`, `objectId` for a
`bson.ObjectId` (represented by its `Hex()` string), `other` for a value of any other type. -/
inductive Value where
  | null
  | int (n : Int)
  | float (f : F64)
  | str (s : String)
  | bool (b : Bool)
  | time (t : Int)
  | timePtr (t : Int)
  | objectId (hex : String)
  | other (tag : Nat)
  deriving DecidableEq

/-- IsNumeric returns true if a val is numeric. -/
def IsNumeric : Value → Bool
  | .int _ => true
  | .float _ => true
  | _ => false

/-- IsString returns true if a val is string. -/
def IsString : Value → Bool
  | .str _ => true
  | _ => false

/-- IsDateTime returns true if a val is datetime (`time.Time` or `*time.Time`). -/
def IsDateTime : Value → Bool
  | .time _ => true
  | .timePtr _ => true
  | _ => false

/-- IsObjectID returns true if a val is ObjectID. -/
def IsObjectID : Value → Bool
  | .objectId _ => true
  | _ => false

/-- IsComparable returns true if a val is comparable. -/
def IsComparable (val : Value) : Bool :=
  IsNumeric val || IsString val || IsDateTime val || IsObjectID val

/-! ## Comparison -/

/-- Number of binary digits of `n`, by halving at most `fuel` times. -/
def bitLen : Nat → Nat → Nat
  | 0, _ => 0
  | fuel + 1, n => if n = 0 then 0 else bitLen fuel (n / 2) + 1

/-- Nearest `float64` of a natural number: 53 significant bits, ties to even. -/
def roundNat (n : Nat) : Nat :=
  let bits := bitLen n n
  if bits ≤ 53 then n
  else
    let e := bits - 53
    let q := n / 2 ^ e
    let r := n % 2 ^ e
    let half := 2 ^ (e - 1)
    let q1 := if half < r ∨ (r = half ∧ q % 2 = 1) then q + 1 else q
    q1 * 2 ^ e

/-- Nearest `float64` of an integer (every Go integer is far below the overflow threshold). -/
def roundInt (n : Int) : Int :=
  if n < 0 then - (roundNat n.natAbs : Int) else (roundNat n.natAbs : Int)

/-- `strconv.ParseFloat(fmt.Sprint(v), 64)` with the error dropped, as `Sort` applies it to a
numeric value: an integer prints in decimal and parses to the nearest `float64`; a float
prints in its shortest form that parses back to itself.  (Anything else fails to parse, and
the dropped error leaves 0.) -/
def toFloat64 : Value → F64
  | .int n => .fin (roundInt n)
  | .float f => f
  | _ => .fin 0

/-- Go's `strings.Compare`: -1, 0 or 1, in the lexicographic order of the strings. -/
def Compare (a b : String) : Int :=
  if a.data < b.data then -1 else if a = b then 0 else 1

/-- The closure `Sort` passes to `sort.Slice`, as a function of the two elements compared and
of the captured variable `hasSameType`: `none` when the type assertion `.(time.Time)` panics
(on a `*time.Time`, which `IsDateTime` lets through), otherwise the comparison result and the
new value of `hasSameType`.  The assertions `.(string)` and `.(bson.ObjectId)` cannot fail. -/
def less (vi vj : Value) (hasSameType : Bool) : Option (Bool × Bool) :=
  if IsNumeric vi && IsNumeric vj then
    some (F64.lt (toFloat64 vi) (toFloat64 vj), hasSameType)
  else if IsString vi && IsString vj then
    match vi, vj with
    | .str a, .str b => some (decide (Compare a b = -1), hasSameType)
    | _, _ => none
  else if IsDateTime vi && IsDateTime vj then
    match vi, vj with
    | .time a, .time b => some (decide (a < b), hasSameType)
    | _, _ => none
  else if IsObjectID vi && IsObjectID vj then
    match vi, vj with
    | .objectId a, .objectId b => some (decide (Compare a b = -1), hasSameType)
    | _, _ => none
  else
    some (false, false)

/-- Inner loop of the library's insertion sort,
`for j := i; j > a && less(j, j-1); j-- { swap(j, j-1) }`, for the element `x` at index `j`:
`pre` is `data[a:j]` from the nearest element to the farthest, `post` is `data[j+1:i+1]`.
Returns `data[a:i+1]` after the loop and the new `hasSameType`. -/
def sink (x : Value) : List Value → List Value → Bool → Option (List Value × Bool)
  | [], post, flag => some (x :: post, flag)
  | p :: pre, post, flag =>
    match less x p flag with
    | none => none
    | some (true, flag1) => sink x pre (p :: post) flag1
    | some (false, flag1) => some ((p :: pre).reverse ++ x :: post, flag1)

/-- Outer loop of the library's insertion sort, `for i := a + 1; i < b; i++`:
`done` is `data[a:i]`, `rest` is `data[i:b]`. -/
def insertionSort : List Value → List Value → Bool → Option (List Value × Bool)
  | done, [], flag => some (done, flag)
  | done, x :: rest, flag =>
    match sink x done.reverse [] flag with
    | none => none
    | some (done1, flag1) => insertionSort done1 rest flag1

/-! ## The library's `sort.Slice` -/

/-- The steps `sort.Slice` takes on a slice.  It sees the slice only through `less(i, j)` and
through swaps: a step either calls `less` on two elements, named here by the indices they
had when `sort.Slice` was called, and goes on according to the answer, or it ends the sort,
and `arrangement` lists, position by position, the index each element had at the start. -/
inductive Steps where
  | done (arrangement : List Nat)
  | ask (i j : Nat) (yes no : Steps)

/-- The algorithm the Go library runs behind `sort.Slice` on a slice of more than 6 elements
(a quicksort that ends in a Shell pass before Go 1.19, a pattern-defeating quicksort since).
It is not part of the repository and differs from version to version, so it is a parameter
of the model: `steps n` are the steps taken on a slice of `n` elements. -/
class SliceSorter where
  steps : Nat → Steps

/-- The run of `steps` on the slice `vals` with the closure `less` of `Sort`: the slice after
the sort and the final `hasSameType`, or `none` when a call of the closure panics.  (The
library compares elements of the slice only; an index out of range reads `nil` here.) -/
def runSteps (vals : List Value) : Steps → Bool → Option (List Value × Bool)
  | .done arrangement, flag => some (arrangement.map (fun i => vals.getD i .null), flag)
  | .ask i j yes no, flag =>
    match less (vals.getD i .null) (vals.getD j .null) flag with
    | none => none
    | some (true, flag1) => runSteps vals yes flag1
    | some (false, flag1) => runSteps vals no flag1

/-- `sort.Slice(vals, less)` of the Go library.  In every version of the library a slice of at
most 6 elements is sorted by the insertion sort alone; a longer slice is sorted by the steps
of the library's algorithm. -/
def sortSlice [SliceSorter] (vals : List Value) (flag : Bool) : Option (List Value × Bool) :=
  if vals.length ≤ 6 then
    match vals with
    | [] => some ([], flag)
    | v :: rest => insertionSort [v] rest flag
  else runSteps vals (SliceSorter.steps vals.length) flag

/-! ## What the library promises of `sort.Slice` -/

/-- The answers `r` of `less` on the indices below `n` form a strict weak ordering, which is
what `sort.Slice` requires of `less`: `less(i, j)` excludes `less(j, i)`, and being not less
is transitive. -/
def StrictWeak (n : Nat) (r : Nat → Nat → Bool) : Prop :=
  (∀ i j, i < n → j < n → r i j = true → r j i = false) ∧
  (∀ i j k, i < n → j < n → k < n → r i j = false → r j k = false → r i k = false)

/-- The steps stay within a slice of `n` elements: they compare elements of the slice only, and
however `less` answers they end in a rearrangement of the slice (elements move by swaps). -/
def Steps.InSlice (n : Nat) : Steps → Prop
  | .done arrangement => arrangement.Perm (List.range n)
  | .ask i j yes no => i < n ∧ j < n ∧ yes.InSlice n ∧ no.InSlice n

/-- The arrangement the steps end in when `less` answers as `r` does. -/
def Steps.follow (r : Nat → Nat → Bool) : Steps → List Nat
  | .done arrangement => arrangement
  | .ask i j yes no => if r i j then yes.follow r else no.follow r

/-- The contract of `sort.Slice`: the steps stay within the slice, and when `less` is a strict
weak ordering they end with the slice sorted: no element is less than an earlier one. -/
def SortsSlices [SliceSorter] : Prop :=
  ∀ n, (SliceSorter.steps n).InSlice n ∧
    ∀ r, StrictWeak n r →
      ((SliceSorter.steps n).follow r).Pairwise (fun a b => r b a = false)

/-! ## A sorter for the evaluations -/

/-- Steps that put the element `x` into the sorted arrangement, in front of the first element
it is less than, and go on with `next`. -/
def insertSteps (x : Nat) : List Nat → (List Nat → Steps) → Steps
  | [], next => next [x]
  | y :: ys, next => .ask x y (next (x :: y :: ys)) (insertSteps x ys (fun l => next (y :: l)))

/-- Steps that insert the elements `todo` one by one into the sorted arrangement. -/
def sortSteps : List Nat → List Nat → Steps
  | [], sorted => .done sorted
  | x :: todo, sorted => insertSteps x sorted (fun sorted1 => sortSteps todo sorted1)

/-- The sorter of the closed statements of this file: a plain insertion sort, which meets the
contract `SortsSlices`.  The statements with a sorter among their arguments hold for every
sorter. -/
instance insertionSorter : SliceSorter :=
  ⟨fun n => sortSteps (List.range n) []⟩

/-- Go's `Sort` (the name is reserved in Lean): Sort sorts returns a sorted vals in ascending
order if comparable, otherwise returns nil.  Outer `none`: panic.  Inner `none`: the `nil` slice. -/
def SortVals [SliceSorter] (vals : List Value) : Option (Option (List Value)) :=
  match sortSlice vals true with
  | none => none
  | some (sorted, hasSameType) => if !hasSameType then some none else some (some sorted)

/-- Length of a slice that may be `nil`. -/
def len : Option (List Value) → Nat
  | none => 0
  | some l => l.length

/-- Max returns the maximum value in vals if each elements in vals is comparable, otherwise
returns nil. -/
def Max [SliceSorter] (vals : List Value) : Option Value :=
  match SortVals vals with
  | none => none
  | some sorted =>
    if len sorted = 0 then some .null
    else some ((sorted.getD []).getLastD .null)

/-- Min returns the minimum value in vals if each elements in vals is comparable, otherwise
returns nil. -/
def Min [SliceSorter] (vals : List Value) : Option Value :=
  match SortVals vals with
  | none => none
  | some sorted =>
    if len sorted = 0 then some .null
    else some ((sorted.getD []).headD .null)

/-! ## The ordering of a comparison class -/

/-- The comparison classes of the data model. -/
inductive Class where
  | numeric
  | text
  | timestamp
  | identifier
  deriving DecidableEq

/-- Membership of a value in a comparison class, as the predicates above decide it. -/
def inClass : Class → Value → Bool
  | .numeric, v => IsNumeric v
  | .text, v => IsString v
  | .timestamp, v => IsDateTime v
  | .identifier, v => IsObjectID v

/-- The value is the `float64` NaN. -/
def isNaN (v : Value) : Bool :=
  decide (v = .float .nan)

/-- The value is a `*time.Time`. -/
def isTimePtr : Value → Bool
  | .timePtr _ => true
  | _ => false

/-- A member of the class `c` other than a NaN and other than a `*time.Time`. -/
def orderable (c : Class) (v : Value) : Bool :=
  inClass c v && !isNaN v && !isTimePtr v

/-- Strictly below, in the ordering of a class: numbers by the `float64` they are coerced to,
strings lexicographically, times chronologically, identifiers lexicographically by their hex
string; false across classes. -/
def below : Value → Value → Bool
  | .str a, .str b => decide (a.data < b.data)
  | .time a, .time b => decide (a < b)
  | .objectId a, .objectId b => decide (a.data < b.data)
  | a, b => IsNumeric a && IsNumeric b && F64.lt (toFloat64 a) (toFloat64 b)

/-- Ascending: no element is strictly below an earlier one. -/
def Ascending (l : List Value) : Prop :=
  l.Pairwise (fun a b => below b a = false)

/-- The exact numeric value of a number that has one (an integer is not rounded). -/
def exactValue : Value → Option ℚ
  | .int n => some (n : ℚ)
  | .float (.fin q) => some q
  | _ => none

/-- Strictly below by exact numeric value. -/
def belowByValue (a b : Value) : Prop :=
  ∃ x y, exactValue a = some x ∧ exactValue b = some y ∧ x < y

/-! ## Two orderings by class -/

/-- The rank of the comparison class of a value: 0 numeric, 1 text, 2 timestamp, 3 identifier,
and 4 for a value of no class. -/
def classRank : Value → Nat
  | .int _ => 0
  | .float _ => 0
  | .str _ => 1
  | .time _ => 2
  | .timePtr _ => 2
  | .objectId _ => 3
  | _ => 4

/-- An ordering of the elements `a` at index `i` and `b` at index `j` that answers as the
closure of `Sort` does on two elements of one class: by class first, the classes ascending
when `up` and descending otherwise, within a class by `below`, and the values of no class by
their index, ascending when `up` and descending otherwise. -/
def classLess (up : Bool) (a b : Value) (i j : Nat) : Bool :=
  if classRank a = classRank b then
    below a b || (decide (classRank a = 4) && (if up then decide (i < j) else decide (j < i)))
  else if up then decide (classRank a < classRank b) else decide (classRank b < classRank a)

/-- The ordering `classLess` on the indices of the slice `vals`. -/
def byClass (vals : List Value) (up : Bool) (i j : Nat) : Bool :=
  classLess up (vals.getD i .null) (vals.getD j .null) i j

/-! ## Operators -/

/-- Operator represents the query operation (`type Operator int`). -/
abbrev Operator := Int

def OperatorEq : Operator := 0
def OperatorNe : Operator := 1
def OperatorGt : Operator := 2
def OperatorGte : Operator := 3
def OperatorLt : Operator := 4
def OperatorLte : Operator := 5
def OperatorLike : Operator := 6

/-- What a key of a rendered fragment holds: one value, the slice of values (`[]interface{}`),
or a `bson.RegEx` with the given pattern (and no options). -/
inductive Elem where
  | val (v : Value)
  | vals (vs : List Value)
  | regex (pattern : String)
  deriving DecidableEq

/-- A `bson.M` (`map[string]interface{}`), as an association list. -/
abbrev M (α : Type) := List (String × α)

/-- Map read `m[key]`. -/
def get {κ α : Type} [DecidableEq κ] : List (κ × α) → κ → Option α
  | [], _ => none
  | (k, a) :: m, key => if k = key then some a else get m key

/-- Map write `m[key] = a`: replaces the entry of `key`, or adds one. -/
def set {κ α : Type} [DecidableEq κ] : List (κ × α) → κ → α → List (κ × α)
  | [], key, a => [(key, a)]
  | (k, b) :: m, key, a => if k = key then (k, a) :: m else (k, b) :: set m key a

/-- `fmt.Sprint` of one value.  The printed form of a float, a time, a pointer or a value of
another type is the library's and is left to `lib`. -/
def Sprint (lib : Value → String) : Value → String
  | .null => "<nil>"
  | .int n => toString n
  | .str s => s
  | .bool b => if b then "true" else "false"
  | .objectId hex => "ObjectIdHex(\"" ++ hex ++ "\")"
  | v => lib v

/-- ToBSON converts operator to bson.  Outer `none`: panic.  Inner `none`: `nil`. -/
def Operator.ToBSON [SliceSorter] (lib : Value → String) (op : Operator) (vals : List Value) :
    Option (Option (M Elem)) :=
  match vals with
  | [] => some none
  | v0 :: rest =>
    let isSingle := rest.length = 0
    if op = OperatorEq then
      if isSingle then some (some [("$eq", .val v0)]) else some (some [("$in", .vals vals)])
    else if op = OperatorNe then
      if isSingle then some (some [("$ne", .val v0)]) else some (some [("$nin", .vals vals)])
    else if op = OperatorGt ∨ op = OperatorGte then
      match Max vals with
      | none => none
      | some max =>
        if max = .null then some none
        else if op = OperatorGt then some (some [("$gt", .val max)])
        else some (some [("$gte", .val max)])
    else if op = OperatorLt ∨ op = OperatorLte then
      match Min vals with
      | none => none
      | some min =>
        if min = .null then some none
        else if op = OperatorLt then some (some [("$lt", .val min)])
        else some (some [("$lte", .val min)])
    else if op = OperatorLike then
      some (some [("$regex", .regex (Sprint lib v0))])
    else some none

/-! ## Query -/

/-- The builder state, `map[string]map[Operator][]interface{}`. -/
abbrev query := List (String × List (Operator × List Value))

/-- New instances a new Query object. -/
def New : query := []

/-- The method `init(key)`: makes sure `q[key]` is a map. -/
def query.init (q : query) (key : String) : query :=
  match get q key with
  | none => set q key []
  | some _ => q

/-- Add adds a val with given key: `q[key][op] = append(q[key][op], val...)`. -/
def query.Add (q : query) (key : String) (op : Operator) (val : List Value) : query :=
  let q1 := query.init q key
  let ops := (get q1 key).getD []
  set q1 key (set ops op ((get ops op).getD [] ++ val))

/-- Modelled from the spec: `mergo.MergeWithOverwrite(&bm, q)` of the third-party package
mergo, a shallow merge in which an entry of `q` overwrites the entry of `bm` with the same
key; a `nil` map adds nothing. -/
def MergeWithOverwrite (bm : M Elem) : Option (M Elem) → M Elem
  | none => bm
  | some q => q.foldl (fun acc kv => set acc kv.1 kv.2) bm

/-- The function `merge`: folds the fragments into one map. -/
def merge (qs : List (Option (M Elem))) : M Elem :=
  qs.foldl MergeWithOverwrite []

/-- The inner loop of `ToBSON`, `for op, conditions := range ops`: the slice `qs`, or `none`
when rendering an operator panics. -/
def renderOps [SliceSorter] (lib : Value → String) :
    List (Operator × List Value) → List (Option (M Elem)) → Option (List (Option (M Elem)))
  | [], qs => some qs
  | (op, conditions) :: ops, qs =>
    match Operator.ToBSON lib op conditions with
    | none => none
    | some frag => renderOps lib ops (qs ++ [frag])

/-- The outer loop of `ToBSON`, `for key, ops := range q`. -/
def renderFields [SliceSorter] (lib : Value → String) : query → M (M Elem) → Option (M (M Elem))
  | [], bm => some bm
  | (key, ops) :: q, bm =>
    match renderOps lib ops [] with
    | none => none
    | some qs => renderFields lib q (set bm key (merge qs))

/-- ToBSON converts Query q to bson query format.  `none`: panic. -/
def query.ToBSON [SliceSorter] (lib : Value → String) (q : query) : Option (M (M Elem)) :=
  renderFields lib q []

/-! ## Sequences of `Add` calls, and the layouts of a map -/

/-- One call `Add(key, op, val...)`. -/
structure AddCall where
  key : String
  op : Operator
  val : List Value

/-- The builder after the calls `adds`, made in order on a fresh builder. -/
def build (adds : List AddCall) : query :=
  adds.foldl (fun q a => q.Add a.key a.op a.val) New

/-- All the values added under `(f, op)`, in insertion order, duplicates kept. -/
def valuesUnder : List AddCall → String → Operator → List Value
  | [], _, _ => []
  | a :: adds, f, op => (if a.key = f ∧ a.op = op then a.val else []) ++ valuesUnder adds f op

/-- The values stored under `(f, op)`: `q[f][op]`, if there is such an entry. -/
def get2 (q : query) (f : String) (op : Operator) : Option (List Value) :=
  (get q f).bind (fun ops => get ops op)

/-- The list `q1` holds the entries of the map `q`, and the entries of each inner map of `q`,
in some other order: what a `range` over a Go map may visit. -/
def Reordered (q q1 : query) : Prop :=
  ∃ mid : query, List.Forall₂ (fun e e1 => e.1 = e1.1 ∧ e.2.Perm e1.2) q mid ∧ mid.Perm q1

/-- The keys of a map are distinct, and so are the keys of each inner map. -/
def Distinct (q : query) : Prop :=
  (q.map Prod.fst).Nodup ∧ ∀ e ∈ q, (e.2.map Prod.fst).Nodup

/-- The operator that renders the key `k` of a fragment. -/
def opOfKey (k : String) : Option Operator :=
  if k = "$eq" ∨ k = "$in" then some OperatorEq
  else if k = "$ne" ∨ k = "$nin" then some OperatorNe
  else if k = "$gt" then some OperatorGt
  else if k = "$gte" then some OperatorGte
  else if k = "$lt" then some OperatorLt
  else if k = "$lte" then some OperatorLte
  else if k = "$regex" then some OperatorLike
  else none

/-- The fragment of one entry of an inner map, `nil` included. -/
def fragment [SliceSorter] (lib : Value → String) (e : Operator × List Value) : Option (M Elem) :=
  (Operator.ToBSON lib e.1 e.2).getD none

/-- The first calls of `TestQueryToBSON`. -/
def sampleAdds : List AddCall :=
  [⟨"name", OperatorEq, [.str "tom"]⟩, ⟨"name", OperatorEq, [.str "jery"]⟩,
   ⟨"name", OperatorNe, [.str "mary"]⟩, ⟨"age", OperatorGt, [.int 10]⟩,
   ⟨"age", OperatorLte, [.int 20]⟩]

end bsonbuilder

namespace controllers

open bsonbuilder

/-! ## Library functions used by `QueryBSON` -/

/-- `strings.HasSuffix`. -/
def HasSuffix (s suffix : String) : Bool :=
  decide (suffix.data <:+ s.data)

/-- `strings.TrimSuffix`: `s` without the trailing `suffix`, or `s` itself. -/
def TrimSuffix (s suffix : String) : String :=
  if HasSuffix s suffix then String.mk (s.data.take (s.data.length - suffix.data.length)) else s

/-- `strings.Contains`. -/
def Contains (s substr : String) : Bool :=
  decide (substr.data <:+: s.data)

/-- Scan of `strings.Replace(s, old, new, -1)` for a non-empty `old`: `skip` counts the
characters of the current occurrence of `old` still to be dropped. -/
def replaceScan (old new : List Char) : Nat → List Char → List Char
  | _, [] => []
  | skip + 1, _ :: cs => replaceScan old new skip cs
  | 0, c :: cs =>
    if old <+: c :: cs then new ++ replaceScan old new (old.length - 1) cs
    else c :: replaceScan old new 0 cs

/-- `strings.Replace(s, old, new, -1)` for a non-empty `old`: every non-overlapping occurrence
of `old`, from the left, becomes `new`. -/
def Replace (s old new : String) : String :=
  String.mk (replaceScan old.data new.data 0 s.data)

/-- A hexadecimal digit, as `encoding/hex` accepts it. -/
def isHex (c : Char) : Bool :=
  ('0' ≤ c && c ≤ '9') || ('a' ≤ c && c ≤ 'f') || ('A' ≤ c && c ≤ 'F')

/-- `bson.IsObjectIdHex`: 24 characters that decode as hexadecimal. -/
def IsObjectIdHex (s : String) : Bool :=
  s.data.length = 24 && s.data.all isHex

/-- `bson.ObjectIdHex` on a valid hex representation: the identifier of these 12 bytes,
whose `Hex()` is the lower-case form. -/
def ObjectIdHex (s : String) : Value :=
  .objectId (String.mk (s.data.map Char.toLower))

/-- Value of a string of decimal digits; `none` if a character is not a digit or if there is
none. -/
def parseDigits : List Char → Option Nat
  | [] => none
  | cs => if cs.all Char.isDigit then some (cs.foldl (fun n c => 10 * n + (c.toNat - 48)) 0) else none

/-- `strconv.ParseInt(s, 10, 0)` where `int` has 64 bits: an optional sign and decimal digits,
in the range of `int`; `none` is a non-nil error. -/
def ParseInt (s : String) : Option Int :=
  match s.data with
  | [] => none
  | c :: cs =>
    if c = '-' then
      match parseDigits cs with
      | some n => if n ≤ 2 ^ 63 then some (- (n : Int)) else none
      | none => none
    else
      match parseDigits (if c = '+' then cs else c :: cs) with
      | some n => if n < 2 ^ 63 then some (n : Int) else none
      | none => none

/-- `strconv.ParseBool`; `none` is a non-nil error. -/
def ParseBool (s : String) : Option Bool :=
  if s = "1" ∨ s = "t" ∨ s = "T" ∨ s = "TRUE" ∨ s = "true" ∨ s = "True" then some true
  else if s = "0" ∨ s = "f" ∨ s = "F" ∨ s = "FALSE" ∨ s = "false" ∨ s = "False" then some false
  else none

/-- The library functions whose result is taken as given: the printed form of the values
`Sprint` leaves open, `strconv.ParseFloat(s, 64)` and
`time.Parse(QueryFormatDateTime, s)` with `QueryFormatDateTime = "2006-01-02T15:04:05"`
(`none` is a non-nil error). -/
structure Lib where
  sprint : Value → String
  parseFloat : String → Option F64
  parseTime : String → Option Int

/-- The package variables `QueryKeyPage`, `QueryKeyLimit`, `QueryKeySort`, `QueryKeyOrder`. -/
structure QueryKeys where
  page : String := "_page"
  limit : String := "_limit"
  sort : String := "_sort"
  order : String := "_order"

/-! ## QueryBSON -/

/-- The map literal of suffixes in `QueryBSON`, in the order it is written. -/
def suffixes : List (String × Operator) :=
  [("_gt", OperatorGt), ("_gte", OperatorGte), ("_lt", OperatorLt), ("_lte", OperatorLte),
   ("_ne", OperatorNe), ("_like", OperatorLike)]

/-- The loop over the suffixes, visited in the order of `table`: the first suffix of `key`
that matches gives the operator and is trimmed, and the loop breaks. -/
def splitKey : List (String × Operator) → String → String × Operator
  | [], key => (key, OperatorEq)
  | (suffix, o) :: table, key =>
    if HasSuffix key suffix then (TrimSuffix key suffix, o) else splitKey table key

/-- The `switch` on `actualKey`: the query after the `Add` of an object id, or `none` when
control falls out of the `switch`. -/
def idRule (q : query) (actualKey : String) (op : Operator) (val : String) : Option query :=
  if actualKey = "id" then
    if IsObjectIdHex val then some (q.Add "_id" op [ObjectIdHex val]) else none
  else if Contains actualKey ".id" then
    if IsObjectIdHex val then some (q.Add (Replace actualKey ".id" "._id") op [ObjectIdHex val])
    else none
  else none

/-- The loop over the custom convertors: the first result that is not `nil`. -/
def convert : List (String → String → Value) → String → String → Option Value
  | [], _, _ => none
  | c :: convertors, actualKey, val =>
    if c actualKey val ≠ .null then some (c actualKey val) else convert convertors actualKey val

/-- The value `QueryBSON` adds for `val` below the `switch`: the chain of conversions. -/
def coerce (lib : Lib) (convertors : List (String → String → Value)) (actualKey val : String) :
    Value :=
  match ParseInt val with
  | some i => .int i
  | none =>
    match lib.parseFloat val with
    | some f64 => .float f64
    | none =>
      match ParseBool val with
      | some b => .bool b
      | none =>
        match lib.parseTime val with
        | some date => .time date
        | none =>
          match convert convertors actualKey val with
          | some res => res
          | none => .str val

/-- The body of `for _, val := range params[key]`, the suffixes being visited in the order of
`table`. -/
def addParam (lib : Lib) (convertors : List (String → String → Value))
    (table : List (String × Operator)) (q : query) (key val : String) : query :=
  let (actualKey, op) := splitKey table key
  match idRule q actualKey op val with
  | some q1 => q1
  | none => q.Add actualKey op [coerce lib convertors actualKey val]

/-- The loop `for key := range params` with its inner loop, before the final `ToBSON`.  The
suffixes are visited in the order they are written; the order makes no difference. -/
def scanParams (lib : Lib) (keys : QueryKeys) (convertors : List (String → String → Value))
    (params : List (String × List String)) : query :=
  params.foldl
    (fun q kv =>
      if kv.1 = keys.page ∨ kv.1 = keys.limit ∨ kv.1 = keys.sort ∨ kv.1 = keys.order then q
      else kv.2.foldl (fun q1 val => addParam lib convertors suffixes q1 kv.1 val) q)
    New

/-- QueryBSON parses query paramter as bson.M follow the same practice as the JSON-Server is.
`params` is `ctx.Request.URL.Query()`; `none`: panic. -/
def QueryBSON [SliceSorter] (lib : Lib) (keys : QueryKeys) (convertors : List (String → String → Value))
    (params : List (String × List String)) : Option (M (M Elem)) :=
  query.ToBSON lib.sprint (scanParams lib keys convertors params)

/-! ## The coercion chain, as the specification words it -/

/-- The attempts of the coercion chain in the order of the specification: integer, float,
boolean, timestamp, then each custom convertor in call order (a `nil` result is a miss). -/
def attempts (lib : Lib) (convertors : List (String → String → Value))
    (actualKey val : String) : List (Option Value) :=
  [(ParseInt val).map Value.int, (lib.parseFloat val).map Value.float,
   (ParseBool val).map Value.bool, (lib.parseTime val).map Value.time] ++
  convertors.map (fun c => if c actualKey val = .null then none else some (c actualKey val))

/-- First match wins; the raw string when every attempt misses. -/
def firstSuccess (tries : List (Option Value)) (raw : String) : Value :=
  (tries.findSome? id).getD (.str raw)

end controllers

namespace controllers

open bsonbuilder

/-- The parameter set without the reserved keys (page, limit, sort, order). -/
def withoutReserved (keys : QueryKeys) (params : List (String × List String)) :
    List (String × List String) :=
  params.filter (fun kv =>
    !decide (kv.1 = keys.page ∨ kv.1 = keys.limit ∨ kv.1 = keys.sort ∨ kv.1 = keys.order))

end controllers

namespace controllers

open bsonbuilder

/-! ## SortAsMultiple -/

/-- The constant `OrderDescending`. -/
def OrderDescending : String := "desc"

/-- `strings.HasPrefix`. -/
def HasPrefix (s pre : String) : Bool :=
  decide (pre.data <+: s.data)

/-- `strings.ToLower` on the letters A to Z.  No rune outside ASCII has one of the letters of
`OrderDescending` as its lower case, so the comparison with that constant is the same. -/
def ToLower (s : String) : String :=
  String.mk (s.data.map Char.toLower)

/-- The pieces of `strings.Split` for a separator of one character: the text between the
separators, one piece more than there are separators. -/
def splitChars (sep : Char) : List Char → List (List Char)
  | [] => [[]]
  | c :: cs =>
    if c = sep then [] :: splitChars sep cs
    else
      match splitChars sep cs with
      | [] => [[c]]
      | piece :: pieces => (c :: piece) :: pieces

/-- `strings.Split(s, sep)` for a separator of one character. -/
def Split (s : String) (sep : Char) : List String :=
  (splitChars sep s.data).map String.mk

/-- `ctx.URLParam(key)`: the first value of `key` in the query string, or the empty string. -/
def URLParam (params : List (String × List String)) (key : String) : String :=
  match get params key with
  | some (v :: _) => v
  | _ => ""

/-- QueryString parses query parameter as string if key exist, or returns defaultVal. -/
def QueryString (params : List (String × List String)) (key defaultVal : String) : String :=
  if URLParam params key ≠ "" then URLParam params key else defaultVal

/-- SortAsMultiple parses the sort info from query params and convert to mgo style; the nil
slice is the empty list. -/
def SortAsMultiple (keys : QueryKeys) (params : List (String × List String)) : List String :=
  let sort := QueryString params keys.sort ""
  if sort ≠ "" then
    if (Split sort ',').length > 1 then Split sort ','
    else
      let order := ToLower (QueryString params keys.order "")
      let sort1 := if !HasPrefix sort "-" && decide (order = OrderDescending) then "-" ++ sort else sort
      [sort1]
  else []

end controllers

namespace mgobase

open bsonbuilder

/-! ## Marker -/

/-- PageFirst is the first page. -/
def PageFirst : String := "first"

/-- PageLast is the last page. -/
def PageLast : String := "last"

/-- PageNext is the next page. -/
def PageNext : String := "next"

/-- PagePrev is the previous page. -/
def PagePrev : String := "previous"

/-- A value of type `interface{}` that is handed to the driver as a query: a scalar (with
`val null` the nil interface), a `[]interface{}` or a `bson.M`. -/
inductive Doc where
  | val (v : Value)
  | arr (items : List Doc)
  | map (entries : List (String × Doc))

/-- The struct `marker`. -/
structure marker where
  field : String
  value : Value
  page : String

/-- The method `validate`; `none` is the nil error, `some` carries the message. -/
def marker.validate (m : marker) : Option String :=
  if m.field = "" then some "marker's field can't be empty"
  else if m.page = PageFirst ∨ m.page = PageLast then none
  else if m.page = PageNext ∨ m.page = PagePrev then
    if m.value = .null then
      some ("marker's value can't be nil when page equals to " ++ m.page)
    else none
  else some "invalid page type"

/-- QueryStatement makes a range-based query based on the `baseQuery` according to the target
page type. -/
def marker.QueryStatement (m : marker) (baseQuery : Doc) : Doc :=
  if m.page = PageNext then
    match baseQuery with
    | .val .null => .map [(m.field, .map [("$gt", .val m.value)])]
    | _ => .map [("$and", .arr [baseQuery, .map [(m.field, .map [("$gt", .val m.value)])]])]
  else if m.page = PagePrev then
    match baseQuery with
    | .val .null => .map [(m.field, .map [("$lt", .val m.value)])]
    | _ => .map [("$and", .arr [baseQuery, .map [(m.field, .map [("$lt", .val m.value)])]])]
  else baseQuery

/-- The method `isReverse`. -/
def marker.isReverse (m : marker) : Bool :=
  decide (m.page = PageLast) || decide (m.page = PagePrev)

/-- The method `SortField`. -/
def marker.SortField (m : marker) : String :=
  if m.isReverse then "-" ++ m.field else m.field

end mgobase

namespace mgobase

open bsonbuilder

/-! ## Rows, as `reflect` and `structs` see them -/

/-- The kinds of `reflect` that `PrevNext` tells apart; `Other` stands for the kinds without
an element type (numbers, booleans, functions ...) apart from the ones named. -/
inductive Kind where
  | Invalid | String | Interface | Struct | Ptr | Slice | Array | Chan | Map | Other
  deriving DecidableEq

/-- A Go type, as far as `reflect.Type` is asked about it: `string` is the predeclared type,
`iface` is `interface{}`, `other` any type of a kind without element type. -/
inductive GoType where
  | string
  | other
  | iface
  | struct
  | ptr (elem : GoType)
  | slice (elem : GoType)
  | array (elem : GoType)
  | chan (elem : GoType)
  | map (key elem : GoType)
  deriving DecidableEq

/-- `reflect.Type.Kind`. -/
def GoType.Kind : GoType → Kind
  | .string => .String
  | .other => .Other
  | .iface => .Interface
  | .struct => .Struct
  | .ptr _ => .Ptr
  | .slice _ => .Slice
  | .array _ => .Array
  | .chan _ => .Chan
  | .map _ _ => .Map

/-- `reflect.Type.Elem`: it panics (`none`) if the type's Kind is not Array, Chan, Map, Ptr,
or Slice. -/
def GoType.Elem : GoType → Option GoType
  | .ptr elem => some elem
  | .slice elem => some elem
  | .array elem => some elem
  | .chan elem => some elem
  | .map _ elem => some elem
  | _ => none

/-- A field of a struct as `structs.Fields` returns it: its name, the value of its `bson` tag
(empty without one), its value, and whether the field is exported. -/
structure Field where
  name : String
  bson : String
  value : Value
  exported : Bool

/-- A row of a result: a struct or a pointer to one, given by the fields `structs.Fields`
returns (all the fields, exported or not, in the order of declaration, but for those tagged
`structs:"-"`); a map with string keys (the nil map has no entries); or anything else. -/
inductive Row where
  | struct (fields : List Field)
  | ptr (fields : List Field)
  | map (entries : List (String × Value))
  | other

/-- The method `f.Value()` of the package structs: it panics (`none`) on a field that is not
exported. -/
def Field.Value (f : Field) : Option Value :=
  if f.exported then some f.value else none

/-- The loop of `field` over `structs.Fields(s)`; `none`: panic. -/
def fieldLoop (name : String) : List Field → Option Value
  | [] => some .null
  | f :: fields =>
    if f.name = name then f.Value
    else if f.bson ≠ "" ∧ (controllers.Split f.bson ',').head? = some name then f.Value
    else fieldLoop name fields

/-- The function `field` (its parameter `alias` is called `name` here): `structs.IsStruct`
holds of a struct and of a pointer to one.  `none`: panic. -/
def field (s : Row) (name : String) : Option Value :=
  match s with
  | .struct fields => fieldLoop name fields
  | .ptr fields => fieldLoop name fields
  | _ => some .null

/-- `row.MapIndex(reflect.ValueOf(key)).Interface()` for a row of the map type `t`: `MapIndex`
panics when a string is not assignable to the key type, and `Interface` panics on the zero
Value that `MapIndex` returns for a key that is not in the map. -/
def mapIndex (t : GoType) (row : Row) (key : String) : Option Value :=
  match t, row with
  | .map .string _, .map entries => get entries key
  | .map .iface _, .map entries => get entries key
  | _, _ => none

/-- What `result` is once the pointers are followed: a slice with its element type and rows,
or anything else (nil, a nil pointer, a number, an array ...). -/
inductive Result where
  | slice (elemt : GoType) (rows : List Row)
  | other

/-- The method `PrevNext`; `none`: panic. -/
def marker.PrevNext (m : marker) (result : Result) : Option (Value × Value) :=
  match result with
  | .other => some (.null, .null)
  | .slice elemt rows =>
    match rows.head?, rows.getLast? with
    | some first, some last =>
      if elemt.Kind = .Struct then
        match mgobase.field first m.field, mgobase.field last m.field with
        | some prev, some next => some (prev, next)
        | _, _ => none
      else
        match elemt.Elem with
        | none => none
        | some e =>
          if e.Kind = .Struct then
            match mgobase.field first m.field, mgobase.field last m.field with
            | some prev, some next => some (prev, next)
            | _, _ => none
          else if elemt.Kind = .Map then
            match mapIndex elemt first m.field, mapIndex elemt last m.field with
            | some prev, some next => some (prev, next)
            | _, _ => none
          else some (.null, .null)
    | _, _ => some (.null, .null)

/-- The swap of the elements `i` and `j` in the loop of `Reverse`. -/
def swap {α : Type} (rows : List α) (i j : Nat) : List α :=
  match rows[i]?, rows[j]? with
  | some vi, some vj => (rows.set i vj).set j vi
  | _, _ => rows

/-- The loop `for i, j := 0, v.Len()-1; i < j; i, j = i+1, j-1` of `Reverse`; `n` bounds the
number of rounds. -/
def reverseLoop {α : Type} : Nat → Nat → Nat → List α → List α
  | 0, _, _, rows => rows
  | n + 1, i, j, rows => if i < j then reverseLoop n (i + 1) (j - 1) (swap rows i j) else rows

/-- Reverse can reverse an Array, Slice or String: here the slice a pointer leads to. -/
def Reverse {α : Type} (rows : List α) : List α :=
  reverseLoop rows.length 0 (rows.length - 1) rows

/-- What `List` leaves behind: the rows in `models`, and what it returns. -/
structure Listed where
  models : List Row
  prev : Value
  next : Value
  err : Option String

/-- The method `List`.  `models` points to a slice with elements of type `elemt`;
`find q selector sort limit` stands for
`col.Find(q).Select(selector).Sort(sort).Limit(limit).All(models)`: the rows it leaves in
`models` and its error.  `none`: panic. -/
def marker.List (m : marker) (find : Doc → Doc → String → Int → List Row × Option String)
    (elemt : GoType) (models : List Row) (query selector : Doc) (limit : Int) :
    Option Listed :=
  match m.validate with
  | some err => some ⟨models, .null, .null, some err⟩
  | none =>
    match find (m.QueryStatement query) selector m.SortField limit with
    | (rows, some err) => some ⟨rows, .null, .null, some err⟩
    | (rows, none) =>
      let rows1 := if m.isReverse then Reverse rows else rows
      match m.PrevNext (.slice elemt rows1) with
      | some (prev, next) => some ⟨rows1, prev, next, none⟩
      | none => none

end mgobase

namespace mgobase

open bsonbuilder

/-! ## Machine arithmetic of the paginater -/

/-- The value an `int` (64 bits, two's complement) holds after an operation whose exact
result is `x`. -/
def wrap (x : Int) : Int :=
  (x + 2 ^ 63) % 2 ^ 64 - 2 ^ 63

/-- Nearest `float64` of the positive rational `n / d` (53 significant bits, ties to even,
gradual underflow), as its significand and the exponent of its unit in the last place: the
value is `m * 2 ^ e`. -/
def roundRatio (n d : Nat) : Nat × Int :=
  let l : Int := (bitLen n n : Int) - (bitLen d d : Int)
  let k : Int := if d * 2 ^ l.toNat ≤ n * 2 ^ (-l).toNat then l else l - 1
  let e : Int := max (k - 52) (-1074)
  let num := n * 2 ^ (-e).toNat
  let den := d * 2 ^ e.toNat
  let q := num / den
  let r := num % den
  let m := if den < 2 * r ∨ (2 * r = den ∧ q % 2 = 1) then q + 1 else q
  (m, e)

/-- The `float64` with significand `m` (at most `2 ^ 53`), unit in the last place `2 ^ e` and
the sign of `neg`; beyond the largest finite value, `(2 ^ 53 - 1) * 2 ^ 971`, it is an
infinity. -/
def ofScaled (neg : Bool) (m : Nat) (e : Int) : F64 :=
  if 971 < e ∨ (e = 971 ∧ 2 ^ 53 ≤ m) then (if neg then .ninf else .pinf)
  else .fin (Rat.divInt ((if neg then -1 else 1) * (m * 2 ^ e.toNat : Nat)) ((2 ^ (-e).toNat : Nat)))

/-- Go's `/` on `float64`: the exact quotient rounded to the nearest `float64`. -/
def F64.div : F64 → F64 → F64
  | .nan, _ => .nan
  | _, .nan => .nan
  | .fin x, .fin y =>
    if y = 0 then (if x = 0 then .nan else if x < 0 then .ninf else .pinf)
    else if x = 0 then .fin 0
    else
      let n := x.num.natAbs * y.den
      let d := x.den * y.num.natAbs
      let me := roundRatio n d
      ofScaled (decide (x < 0) != decide (y < 0)) me.1 me.2
  | .fin _, _ => .fin 0
  | .pinf, .fin y => if y < 0 then .ninf else .pinf
  | .ninf, .fin y => if y < 0 then .pinf else .ninf
  | _, _ => .nan

/-- `math.Ceil`. -/
def Ceil : F64 → F64
  | .fin q => .fin ((-((-q.num) / (q.den : Int)) : Int) : ℚ)
  | f => f

/-- The conversion `int(f)`: the fraction is discarded; for a value that does not fit into an
`int` (NaN and the infinities included) the result depends on the platform and is given by
`conv`. -/
def toInt (conv : F64 → Int) (f : F64) : Int :=
  match f with
  | .fin q =>
    if - 2 ^ 63 ≤ Int.tdiv q.num q.den ∧ Int.tdiv q.num q.den < 2 ^ 63 then Int.tdiv q.num q.den
    else conv f
  | _ => conv f

/-- The conversion `float64(x)` of an `int`. -/
def float64 (x : Int) : F64 :=
  .fin (roundInt x)

/-! ## Paginater -/

/-- The struct `paginater`. -/
structure paginater where
  page : Int
  limit : Int
  count : Int
  totalPages : Int
  deriving DecidableEq

/-- NewPaginater instances a paginater implements Paginater interface.  `skip / limit` is
computed for a skip that is not negative and a limit that is positive, where the division of
Go (toward zero) and the one of Lean (downward) agree. -/
def NewPaginater (conv : F64 → Int) (skip limit count : Int) : paginater :=
  let skip := if skip < 0 then 0 else skip
  let limit := if limit < 0 then wrap (-limit) else limit
  let page := if limit > 0 then wrap (skip / limit + 1) else 1
  let count := if count < 0 then 0 else count
  let totalPages :=
    if count ≠ 0 then toInt conv (Ceil (F64.div (float64 count) (float64 limit))) else 1
  ⟨page, limit, count, totalPages⟩

/-- The method `Page`. -/
def paginater.Page (p : paginater) : Int := p.page

/-- The method `Limit`. -/
def paginater.Limit (p : paginater) : Int := p.limit

/-- The method `TotalItems`. -/
def paginater.TotalItems (p : paginater) : Int := p.count

/-- The method `TotalPages`. -/
def paginater.TotalPages (p : paginater) : Int := p.totalPages

/-- The method `HasPrev`. -/
def paginater.HasPrev (p : paginater) : Bool := decide (p.page > 1)

/-- The method `PrevPage`. -/
def paginater.PrevPage (p : paginater) : Int :=
  if p.page > 1 then wrap (p.page - 1) else p.page

/-- The method `HasNext`. -/
def paginater.HasNext (p : paginater) : Bool := decide (p.page < p.totalPages)

/-- The method `NextPage`. -/
def paginater.NextPage (p : paginater) : Int :=
  if p.page < p.totalPages then wrap (p.page + 1) else p.page

/-- PageItem type -/
structure PageItem where
  PageNum : Int
  IsPlaceHolder : Bool
  deriving DecidableEq

/-- The loop `for cursor := 1; cursor < 1+leftEdge && cursor <= p.totalPages; cursor++`, with
`stop` for `1+leftEdge`: the set `pages` after the loop, as the list of its keys; `none` when
the loop is not over after `fuel` rounds. -/
def loopLeft (stop totalPages : Int) : Nat → Int → List Int → Option (List Int)
  | 0, _, _ => none
  | fuel + 1, cursor, pages =>
    if cursor < stop ∧ cursor ≤ totalPages then
      loopLeft stop totalPages fuel (wrap (cursor + 1)) (pages.insert cursor)
    else some pages

/-- The loop `for cursor := start; cursor <= end; cursor++` over `float64` values.  Its values
are whole numbers, and each is given by the integer it equals: `cursor++` is the nearest
`float64` of `cursor + 1`.  `none` when the loop is not over after `fuel` rounds. -/
def loopCurrent (conv : F64 → Int) (stop : Int) : Nat → Int → List Int → Option (List Int)
  | 0, _, _ => none
  | fuel + 1, cursor, pages =>
    if cursor ≤ stop then
      loopCurrent conv stop fuel (roundInt (cursor + 1))
        (pages.insert (toInt conv (.fin (cursor : ℚ))))
    else some pages

/-- The loop `for cursor := p.totalPages; cursor > p.totalPages-rightEdge && cursor >= 1;
cursor--`, with `stop` for `p.totalPages-rightEdge`; `none` when the loop is not over after
`fuel` rounds. -/
def loopRight (stop : Int) : Nat → Int → List Int → Option (List Int)
  | 0, _, _ => none
  | fuel + 1, cursor, pages =>
    if cursor > stop ∧ cursor ≥ 1 then loopRight stop fuel (wrap (cursor - 1)) (pages.insert cursor)
    else some pages

/-- The last loop of `IterRange`, over the sorted keys. -/
def itemsLoop : Int → List Int → List PageItem
  | _, [] => []
  | lastKey, key :: keys =>
    if wrap (lastKey + 1) ≠ key then
      ⟨0, true⟩ :: ⟨key, false⟩ :: itemsLoop key keys
    else ⟨key, false⟩ :: itemsLoop key keys

/-- The method `IterRange`.  The keys of the map are sorted by `sort.Ints`, whatever the order
in which the map hands them out; `none` when one of the loops is not over after `fuel`
rounds.  The two bounds of the second loop are `float64` values that are whole numbers, given
by the integers they equal. -/
def paginater.IterRange (conv : F64 → Int) (p : paginater) (fuel : Nat)
    (leftEdge leftCurrent rightCurrent rightEdge : Int) : Option (List PageItem) :=
  match loopLeft (wrap (1 + leftEdge)) p.totalPages fuel 1 [] with
  | none => none
  | some pages1 =>
    match loopCurrent conv
        (min (roundInt (wrap (p.page + rightCurrent))) (roundInt p.totalPages)) fuel
        (max 1 (roundInt (wrap (p.page - leftCurrent)))) pages1 with
    | none => none
    | some pages2 =>
      match loopRight (wrap (p.totalPages - rightEdge)) fuel p.totalPages pages2 with
      | none => none
      | some pages3 => some (itemsLoop 0 (pages3.insertionSort (· ≤ ·)))

end mgobase

namespace mgobase

open bsonbuilder

/-! ## The output of IterRange, as the specification words it -/

/-- The values of the type `int`. -/
def isInt (x : Int) : Prop :=
  - 2 ^ 63 ≤ x ∧ x < 2 ^ 63

/-- The items for the kept page numbers `keys`, the number before the first being `lastKey`:
every page number in turn, with a placeholder in front of it exactly when it is not the
successor of the number before it. -/
def withGapsFrom (lastKey : Int) (keys : List Int) : List PageItem :=
  (List.zip (lastKey :: keys) keys).flatMap
    (fun pk => if pk.1 + 1 = pk.2 then [⟨pk.2, false⟩] else [⟨0, true⟩, ⟨pk.2, false⟩])

/-- The integers below `2 ^ 52` in absolute value: sums and differences of two of them are
ints and float64 values. -/
def small (x : Int) : Prop :=
  - 2 ^ 52 < x ∧ x < 2 ^ 52

/-- The page numbers of a list of items: the numbers of the items that are no placeholders. -/
def pageNumbers (items : List PageItem) : List Int :=
  (items.filter (fun i => !i.IsPlaceHolder)).map PageItem.PageNum

end mgobase

namespace bsonbuilder

/-! ## Insertion order -/

/-- The operators whose fragment is rendered from `Max` or `Min`. -/
def isBound (o : Operator) : Prop :=
  o = OperatorGt ∨ o = OperatorGte ∨ o = OperatorLt ∨ o = OperatorLte

/-- The list has a strict maximum: a value that occurs once, every other value being strictly
below it.  (The values are then all of one class, and those of a list of two or more are no
NaN and no `*time.Time`.)  Occurrences are counted, so two Go values that are one `Value`
here, such as an `int32` 3 and an `int64` 3, are two occurrences. -/
def strictTop (vals : List Value) : Prop :=
  ∃ m ∈ vals, vals.count m = 1 ∧ ∀ v ∈ vals, v ≠ m → below v m = true

/-- The list has a strict minimum: a value that occurs once, strictly below every other. -/
def strictBottom (vals : List Value) : Prop :=
  ∃ m ∈ vals, vals.count m = 1 ∧ ∀ v ∈ vals, v ≠ m → below m v = true

/-- Two or more values that do not all belong to one comparison class, none of them a
`*time.Time` and, when there are more than 6 of them, none a NaN. -/
def notOneClass (vals : List Value) : Prop :=
  2 ≤ vals.length ∧ (∀ v ∈ vals, isTimePtr v = false) ∧
  (6 < vals.length → ∀ v ∈ vals, isNaN v = false) ∧
  ¬ ∃ c, ∀ v ∈ vals, inClass c v = true

/-- Values whose order does not show under the operator `o`, one of Gt, Gte, Lt and Lte: no
value at all; or values that are not all of one class (nothing is rendered for them); or,
under Gt and Gte, values with a strict maximum and, under Lt and Lte, values with a strict
minimum. -/
def orderFree (o : Operator) (vals : List Value) : Prop :=
  vals = [] ∨ notOneClass vals ∨
  ((o = OperatorGt ∨ o = OperatorGte) ∧ strictTop vals) ∨
  ((o = OperatorLt ∨ o = OperatorLte) ∧ strictBottom vals)

/-- The two results of ToBSON are equal as maps of maps: the same fields, and under each field
the same keys with the same values. -/
def sameFilter (m m1 : M (M Elem)) : Prop :=
  ∀ f, (get m f = none ↔ get m1 f = none) ∧
    ∀ sub sub1, get m f = some sub → get m1 f = some sub1 → ∀ k, get sub k = get sub1 k

/-- A sequence of calls with seven ages under Gt and two values, a boolean and a number,
under Lt. -/
def agesAdds : List AddCall :=
  [⟨"age", OperatorGt, [.int 1, .int 3, .int 2, .int 7, .int 5, .int 4, .int 6]⟩,
   ⟨"name", OperatorEq, [.str "tom"]⟩, ⟨"flag", OperatorLt, [.bool true, .int 1]⟩]

/-- The same values as in `agesAdds`, those under Gt and Lt in another order and the ages in
two calls. -/
def agesAddsShuffled : List AddCall :=
  [⟨"age", OperatorGt, [.int 7, .int 6, .int 5]⟩, ⟨"name", OperatorEq, [.str "tom"]⟩,
   ⟨"flag", OperatorLt, [.int 1, .bool true]⟩,
   ⟨"age", OperatorGt, [.int 4, .int 3, .int 2, .int 1]⟩]

end bsonbuilder

/-! # Theorems -/

namespace bsonbuilder

/-! ## The ordering of a class is a strict weak order on its orderable members -/

theorem F64.lt_asymm (a b : F64) (h : F64.lt a b = true) : F64.lt b a = false := by
  cases a <;> cases b <;> simp_all [F64.lt]
  exact le_of_lt h

theorem F64.lt_negtrans (a b c : F64) (ha : a ≠ .nan) (hb : b ≠ .nan) (hc : c ≠ .nan)
    (h1 : F64.lt a b = false) (h2 : F64.lt b c = false) : F64.lt a c = false := by
  cases a <;> cases b <;> cases c <;> simp_all [F64.lt]
  exact le_trans h2 h1

theorem Compare_eq_neg_one (a b : String) : Compare a b = -1 ↔ a.data < b.data := by
  unfold Compare
  by_cases h : a.data < b.data
  · simp [h]
  · by_cases h2 : a = b <;> simp [h, h2]

theorem less_orderable (c : Class) (a b : Value) (flag : Bool)
    (ha : orderable c a = true) (hb : orderable c b = true) :
    less a b flag = some (below a b, flag) := by
  cases c <;> cases a <;> cases b <;>
    simp_all [orderable, inClass, IsNumeric, IsString, IsDateTime, IsObjectID, less, below,
      Compare_eq_neg_one, isTimePtr]

theorem below_asymm (c : Class) (a b : Value)
    (ha : orderable c a = true) (hb : orderable c b = true) (h : below a b = true) :
    below b a = false := by
  cases c <;> cases a <;> cases b <;>
    simp_all [orderable, inClass, IsNumeric, IsString, IsDateTime, IsObjectID, below, isTimePtr] <;>
    first
      | exact F64.lt_asymm _ _ h
      | exact le_of_lt h

theorem below_negtrans (c : Class) (x y z : Value)
    (hx : orderable c x = true) (hy : orderable c y = true) (hz : orderable c z = true)
    (h1 : below x y = false) (h2 : below y z = false) : below x z = false := by
  cases c <;> cases x <;> cases y <;> cases z <;>
    simp_all [orderable, inClass, IsNumeric, IsString, IsDateTime, IsObjectID, below, isTimePtr,
      isNaN, toFloat64] <;>
    first
      | exact F64.lt_negtrans _ _ _ (by simp_all [toFloat64]) (by simp_all [toFloat64]) (by simp_all [toFloat64]) h1 h2
      | exact le_trans h2 h1

/-! ## Insertion sort on the orderable members of one class -/

theorem sink_orderable (c : Class) (x : Value) (flag : Bool) (hx : orderable c x = true) :
    ∀ (pre post : List Value),
      (∀ v ∈ pre, orderable c v = true) → (∀ v ∈ post, orderable c v = true) →
      Ascending (pre.reverse ++ post) → (∀ y ∈ post, below x y = true) →
      ∃ out, sink x pre post flag = some (out, flag) ∧
        out.Perm (x :: (pre.reverse ++ post)) ∧ Ascending out := by
  intro pre
  induction pre with
  | nil =>
    intro post _ hpost hasc hbelow
    refine ⟨x :: post, by simp [sink], List.Perm.refl _, ?_⟩
    simp only [List.reverse_nil, List.nil_append] at hasc
    exact List.pairwise_cons.mpr
      ⟨fun y hy => below_asymm c x y hx (hpost y hy) (hbelow y hy), hasc⟩
  | cons p pre ih =>
    intro post hpre hpost hasc hbelow
    have hp : orderable c p = true := hpre p (List.mem_cons_self _ _)
    have hpre1 : ∀ v ∈ pre, orderable c v = true :=
      fun v hv => hpre v (List.mem_cons_of_mem _ hv)
    have heq : (p :: pre).reverse ++ post = pre.reverse ++ p :: post := by simp
    cases hb : below x p with
    | true =>
      have hpost1 : ∀ v ∈ p :: post, orderable c v = true := by
        intro v hv
        rcases List.mem_cons.mp hv with h | h
        · exact h ▸ hp
        · exact hpost v h
      have hbelow1 : ∀ y ∈ p :: post, below x y = true := by
        intro y hy
        rcases List.mem_cons.mp hy with h | h
        · exact h ▸ hb
        · exact hbelow y h
      obtain ⟨out, h1, h2, h3⟩ := ih (p :: post) hpre1 hpost1 (heq ▸ hasc) hbelow1
      refine ⟨out, ?_, heq ▸ h2, h3⟩
      simp [sink, less_orderable c x p flag hx hp, hb, h1]
    | false =>
      refine ⟨(p :: pre).reverse ++ x :: post, ?_, ?_, ?_⟩
      · simp [sink, less_orderable c x p flag hx hp, hb]
      · exact List.perm_middle
      · obtain ⟨h1, h2, h3⟩ := List.pairwise_append.mp hasc
        refine List.pairwise_append.mpr ⟨h1, List.pairwise_cons.mpr ⟨?_, h2⟩, ?_⟩
        · exact fun y hy => below_asymm c x y hx (hpost y hy) (hbelow y hy)
        · intro a ha b hb1
          rcases List.mem_cons.mp hb1 with h | h
          · subst h
            have ha1 : a ∈ p :: pre := List.mem_reverse.mp ha
            rcases List.mem_cons.mp ha1 with h | h
            · exact h ▸ hb
            · have hrev : (p :: pre).Pairwise (fun u v => below u v = false) :=
                List.pairwise_reverse.mp h1
              have hpa : below p a = false := (List.pairwise_cons.mp hrev).1 a h
              exact below_negtrans c b p a hx hp (hpre1 a h) hb hpa
          · exact h3 a ha b h

theorem insertionSort_orderable (c : Class) (flag : Bool) :
    ∀ (rest done : List Value),
      (∀ v ∈ done, orderable c v = true) → (∀ v ∈ rest, orderable c v = true) →
      Ascending done →
      ∃ out, insertionSort done rest flag = some (out, flag) ∧
        out.Perm (done ++ rest) ∧ Ascending out := by
  intro rest
  induction rest with
  | nil =>
    intro done _ _ hasc
    exact ⟨done, by simp [insertionSort], by simp, hasc⟩
  | cons x rest ih =>
    intro done hdone hrest hasc
    have hx : orderable c x = true := hrest x (List.mem_cons_self _ _)
    have hrest1 : ∀ v ∈ rest, orderable c v = true :=
      fun v hv => hrest v (List.mem_cons_of_mem _ hv)
    obtain ⟨d1, h1, h2, h3⟩ := sink_orderable c x flag hx done.reverse []
      (fun v hv => hdone v (List.mem_reverse.mp hv)) (by simp) (by simpa using hasc) (by simp)
    have h2a : d1.Perm (x :: done) := by simpa using h2
    have hd1 : ∀ v ∈ d1, orderable c v = true := by
      intro v hv
      rcases List.mem_cons.mp (h2a.subset hv) with h | h
      · exact h ▸ hx
      · exact hdone v h
    obtain ⟨out, h4, h5, h6⟩ := ih d1 hd1 hrest1 h3
    refine ⟨out, by simp [insertionSort, h1, h4], ?_, h6⟩
    exact h5.trans ((h2a.append_right rest).trans (by simpa using List.perm_middle.symm))

theorem below_irrefl (c : Class) (a : Value) (ha : orderable c a = true) :
    below a a = false := by
  cases h : below a a with
  | false => rfl
  | true => rw [← below_asymm c a a ha ha h]; exact h.symm

theorem Ascending_head (c : Class) (x : Value) (l : List Value)
    (hc : ∀ v ∈ x :: l, orderable c v = true) (h : Ascending (x :: l)) :
    ∀ v ∈ x :: l, below v x = false := by
  intro v hv
  rcases List.mem_cons.mp hv with h1 | h1
  · subst h1
    exact below_irrefl c v (hc v (List.mem_cons_self _ _))
  · exact (List.pairwise_cons.mp h).1 v h1

theorem Ascending_getLast (c : Class) (l : List Value) (hne : l ≠ [])
    (hc : ∀ v ∈ l, orderable c v = true) (h : Ascending l) :
    ∀ v ∈ l, below (l.getLast hne) v = false := by
  intro v hv
  have hsplit : l.dropLast ++ [l.getLast hne] = l := List.dropLast_append_getLast hne
  have h1 : Ascending (l.dropLast ++ [l.getLast hne]) := hsplit.symm ▸ h
  have hv1 : v ∈ l.dropLast ++ [l.getLast hne] := hsplit.symm ▸ hv
  rcases List.mem_append.mp hv1 with h2 | h2
  · exact (List.pairwise_append.mp h1).2.2 v h2 _ (List.mem_singleton_self _)
  · rw [List.mem_singleton.mp h2]
    exact below_irrefl c _ (hc _ (List.getLast_mem hne))

/-! ## What the flag `hasSameType` records -/

theorem inClass_unique (c d : Class) (v : Value)
    (hc : inClass c v = true) (hd : inClass d v = true) : c = d := by
  cases c <;> cases d <;> cases v <;>
    simp_all [inClass, IsNumeric, IsString, IsDateTime, IsObjectID]

theorem less_flag (a b : Value) (flag r : Bool) (h : less a b flag = some (r, true)) :
    flag = true ∧ ∃ c, inClass c a = true ∧ inClass c b = true := by
  unfold less at h
  split at h
  · rename_i h1
    simp only [Bool.and_eq_true] at h1
    simp only [Option.some.injEq, Prod.mk.injEq] at h
    exact ⟨h.2, .numeric, h1.1, h1.2⟩
  · split at h
    · rename_i h1
      simp only [Bool.and_eq_true] at h1
      refine ⟨?_, .text, h1.1, h1.2⟩
      split at h <;> simp_all
    · split at h
      · rename_i h1
        simp only [Bool.and_eq_true] at h1
        refine ⟨?_, .timestamp, h1.1, h1.2⟩
        split at h <;> simp_all
      · split at h
        · rename_i h1
          simp only [Bool.and_eq_true] at h1
          refine ⟨?_, .identifier, h1.1, h1.2⟩
          split at h <;> simp_all
        · simp at h

theorem sink_perm (x : Value) :
    ∀ (pre post : List Value) (flag f : Bool) (out : List Value),
      sink x pre post flag = some (out, f) → out.Perm (x :: (pre.reverse ++ post)) := by
  intro pre
  induction pre with
  | nil =>
    intro post flag f out h
    simp only [sink, Option.some.injEq, Prod.mk.injEq] at h
    simp [← h.1]
  | cons p pre ih =>
    intro post flag f out h
    unfold sink at h
    split at h
    · simp at h
    · have := ih _ _ _ _ h
      simpa using this
    · simp only [Option.some.injEq, Prod.mk.injEq] at h
      rw [← h.1]
      exact List.perm_middle

theorem sink_flag (x : Value) :
    ∀ (pre post : List Value) (flag : Bool) (out : List Value),
      sink x pre post flag = some (out, true) →
      flag = true ∧ ∀ p, pre.head? = some p → ∃ c, inClass c x = true ∧ inClass c p = true := by
  intro pre
  induction pre with
  | nil =>
    intro post flag out h
    simp only [sink, Option.some.injEq, Prod.mk.injEq] at h
    exact ⟨h.2, by simp⟩
  | cons p pre ih =>
    intro post flag out h
    unfold sink at h
    split at h
    · simp at h
    · rename_i flag1 hl
      have h1 := (ih _ _ _ h).1
      subst h1
      have h2 := less_flag x p flag true hl
      exact ⟨h2.1, by simpa using h2.2⟩
    · rename_i flag1 hl
      simp only [Option.some.injEq, Prod.mk.injEq] at h
      have h1 := h.2
      subst h1
      have h2 := less_flag x p flag false hl
      exact ⟨h2.1, by simpa using h2.2⟩

theorem insertionSort_flag_mono :
    ∀ (rest done : List Value) (flag : Bool) (out : List Value),
      insertionSort done rest flag = some (out, true) → flag = true := by
  intro rest
  induction rest with
  | nil =>
    intro done flag out h
    simp only [insertionSort, Option.some.injEq, Prod.mk.injEq] at h
    exact h.2
  | cons x rest ih =>
    intro done flag out h
    unfold insertionSort at h
    split at h
    · simp at h
    · rename_i d1 f1 hs
      have hf1 : f1 = true := ih d1 f1 out h
      subst hf1
      exact (sink_flag x _ _ _ _ hs).1

theorem insertionSort_flag (c : Class) :
    ∀ (rest done : List Value) (flag : Bool) (out : List Value),
      insertionSort done rest flag = some (out, true) →
      done ≠ [] → (∀ v ∈ done, inClass c v = true) →
      ∀ v ∈ rest, inClass c v = true := by
  intro rest
  induction rest with
  | nil => simp
  | cons x rest ih =>
    intro done flag out h hne hdone
    unfold insertionSort at h
    split at h
    · simp at h
    · rename_i d1 f1 hs
      have hf1 : f1 = true := insertionSort_flag_mono rest d1 f1 out h
      subst hf1
      have hperm : d1.Perm (x :: done) := by
        simpa using sink_perm x _ _ _ _ _ hs
      have hd1 : d1 ≠ [] := fun e => by simp [e] at hperm
      -- `x` was compared with the last element of `done`
      obtain ⟨p, hp⟩ : ∃ p, done.reverse.head? = some p := by
        cases hr : done.reverse with
        | nil => exact absurd (List.reverse_eq_nil_iff.mp hr) hne
        | cons p l => exact ⟨p, rfl⟩
      obtain ⟨d, hdx, hdp⟩ := (sink_flag x _ _ _ _ hs).2 p hp
      have hpmem : p ∈ done := List.mem_reverse.mp (List.mem_of_mem_head? hp)
      have hcd : c = d := inClass_unique c d p (hdone p hpmem) hdp
      subst hcd
      have hall : ∀ v ∈ d1, inClass c v = true := by
        intro v hv
        rcases List.mem_cons.mp (hperm.subset hv) with h1 | h1
        · exact h1 ▸ hdx
        · exact hdone v h1
      intro v hv
      rcases List.mem_cons.mp hv with h1 | h1
      · exact h1 ▸ hdx
      · exact ih d1 true out h hd1 hall v h1

/-- Without a `*time.Time` in the list, Sort does not panic. -/
theorem less_total (a b : Value) (flag : Bool)
    (ha : isTimePtr a = false) (hb : isTimePtr b = false) :
    ∃ r f, less a b flag = some (r, f) := by
  cases a <;> cases b <;>
    simp_all [less, IsNumeric, IsString, IsDateTime, IsObjectID, isTimePtr]

theorem sink_total (x : Value) (hx : isTimePtr x = false) :
    ∀ (pre post : List Value) (flag : Bool), (∀ v ∈ pre, isTimePtr v = false) →
      ∃ out f, sink x pre post flag = some (out, f) := by
  intro pre
  induction pre with
  | nil => intro post flag _; exact ⟨_, _, rfl⟩
  | cons p pre ih =>
    intro post flag hpre
    obtain ⟨r, f, hl⟩ := less_total x p flag hx (hpre p (List.mem_cons_self _ _))
    cases r with
    | true =>
      obtain ⟨out, f1, h1⟩ := ih (p :: post) f (fun v hv => hpre v (List.mem_cons_of_mem _ hv))
      exact ⟨out, f1, by simp [sink, hl, h1]⟩
    | false => exact ⟨(p :: pre).reverse ++ x :: post, f, by simp [sink, hl]⟩

theorem insertionSort_total :
    ∀ (rest done : List Value) (flag : Bool),
      (∀ v ∈ done, isTimePtr v = false) → (∀ v ∈ rest, isTimePtr v = false) →
      ∃ out f, insertionSort done rest flag = some (out, f) := by
  intro rest
  induction rest with
  | nil => intro done flag _ _; exact ⟨_, _, rfl⟩
  | cons x rest ih =>
    intro done flag hdone hrest
    have hx := hrest x (List.mem_cons_self _ _)
    obtain ⟨d1, f1, hs⟩ := sink_total x hx done.reverse [] flag
      (fun v hv => hdone v (List.mem_reverse.mp hv))
    have hperm : d1.Perm (x :: done) := by simpa using sink_perm x _ _ _ _ _ hs
    have hd1 : ∀ v ∈ d1, isTimePtr v = false := by
      intro v hv
      rcases List.mem_cons.mp (hperm.subset hv) with h1 | h1
      · exact h1 ▸ hx
      · exact hdone v h1
    obtain ⟨out, f, h1⟩ := ih d1 f1 hd1 (fun v hv => hrest v (List.mem_cons_of_mem _ hv))
    exact ⟨out, f, by simp [insertionSort, hs, h1]⟩

/-! ## Insertion sort on the members of one class -/

theorem inClass_ne_null (c : Class) (v : Value) (h : inClass c v = true) : v ≠ .null := by
  intro e
  subst e
  cases c <;> simp [inClass, IsNumeric, IsString, IsDateTime, IsObjectID] at h

theorem orderable_iff (c : Class) (v : Value) :
    orderable c v = true ↔ inClass c v = true ∧ isTimePtr v = false ∧ isNaN v = false := by
  cases h1 : inClass c v <;> cases h2 : isTimePtr v <;> cases h3 : isNaN v <;>
    simp [orderable, h1, h2, h3]

theorem less_inClass (c : Class) (a b : Value) (flag : Bool)
    (ha : inClass c a = true ∧ isTimePtr a = false)
    (hb : inClass c b = true ∧ isTimePtr b = false) :
    less a b flag = some (below a b, flag) := by
  cases c <;> cases a <;> cases b <;>
    simp_all [inClass, IsNumeric, IsString, IsDateTime, IsObjectID, less, below,
      Compare_eq_neg_one, isTimePtr]

theorem sink_inClass (c : Class) (x : Value) (flag : Bool)
    (hx : inClass c x = true ∧ isTimePtr x = false) :
    ∀ (pre post : List Value), (∀ v ∈ pre, inClass c v = true ∧ isTimePtr v = false) →
      ∃ out, sink x pre post flag = some (out, flag) := by
  intro pre
  induction pre with
  | nil => intro post _; exact ⟨x :: post, rfl⟩
  | cons p pre ih =>
    intro post hpre
    have hl := less_inClass c x p flag hx (hpre p (List.mem_cons_self _ _))
    cases hb : below x p with
    | true =>
      obtain ⟨out, h1⟩ := ih (p :: post) (fun v hv => hpre v (List.mem_cons_of_mem _ hv))
      exact ⟨out, by simp [sink, hl, hb, h1]⟩
    | false => exact ⟨(p :: pre).reverse ++ x :: post, by simp [sink, hl, hb]⟩

theorem insertionSort_inClass (c : Class) (flag : Bool) :
    ∀ (rest done : List Value),
      (∀ v ∈ done, inClass c v = true ∧ isTimePtr v = false) →
      (∀ v ∈ rest, inClass c v = true ∧ isTimePtr v = false) →
      ∃ out, insertionSort done rest flag = some (out, flag) ∧ out.Perm (done ++ rest) := by
  intro rest
  induction rest with
  | nil => intro done _ _; exact ⟨done, rfl, by simp⟩
  | cons x rest ih =>
    intro done hdone hrest
    have hx := hrest x (List.mem_cons_self _ _)
    obtain ⟨d1, hs⟩ := sink_inClass c x flag hx done.reverse []
      (fun v hv => hdone v (List.mem_reverse.mp hv))
    have hperm : d1.Perm (x :: done) := by simpa using sink_perm x _ _ _ _ _ hs
    have hd1 : ∀ v ∈ d1, inClass c v = true ∧ isTimePtr v = false := by
      intro v hv
      rcases List.mem_cons.mp (hperm.subset hv) with h1 | h1
      · exact h1 ▸ hx
      · exact hdone v h1
    obtain ⟨out, h1, h2⟩ := ih d1 hd1 (fun v hv => hrest v (List.mem_cons_of_mem _ hv))
    refine ⟨out, by simp [insertionSort, hs, h1], ?_⟩
    exact h2.trans ((hperm.append_right rest).trans (by simpa using List.perm_middle.symm))

/-! ## Runs of the library's steps -/

theorem map_getD_range (vals : List Value) :
    (List.range vals.length).map (fun i => vals.getD i .null) = vals := by
  apply List.ext_getElem
  · simp
  · intro i h1 h2
    simp [List.getD_eq_getElem?_getD, List.getElem?_eq_getElem h2]

theorem follow_perm (n : Nat) (r : Nat → Nat → Bool) :
    ∀ t : Steps, t.InSlice n → (t.follow r).Perm (List.range n) := by
  intro t
  induction t with
  | done arrangement => exact fun h => h
  | ask i j yes no ih1 ih2 =>
    intro h
    obtain ⟨_, _, h1, h2⟩ := h
    unfold Steps.follow
    split
    · exact ih1 h1
    · exact ih2 h2

theorem arrangement_perm (vals : List Value) (arrangement : List Nat)
    (h : arrangement.Perm (List.range vals.length)) :
    (arrangement.map (fun i => vals.getD i .null)).Perm vals := by
  have := h.map (fun i => vals.getD i .null)
  rwa [map_getD_range] at this

theorem getD_mem (vals : List Value) (i : Nat) (h : i < vals.length) :
    vals.getD i .null ∈ vals := by
  rw [List.getD_eq_getElem?_getD, List.getElem?_eq_getElem h]
  exact List.getElem_mem h

theorem StrictWeak_below (c : Class) (vals : List Value)
    (h : ∀ v ∈ vals, orderable c v = true) :
    StrictWeak vals.length (fun i j => below (vals.getD i .null) (vals.getD j .null)) :=
  ⟨fun i j hi hj hb =>
      below_asymm c _ _ (h _ (getD_mem vals i hi)) (h _ (getD_mem vals j hj)) hb,
    fun i j k hi hj hk h1 h2 =>
      below_negtrans c _ _ _ (h _ (getD_mem vals i hi)) (h _ (getD_mem vals j hj))
        (h _ (getD_mem vals k hk)) h1 h2⟩

/-! ## The flag `hasSameType` after the library's steps -/

theorem classRank_inClass (c : Class) (a b : Value) (ha : inClass c a = true)
    (hb : inClass c b = true) : classRank a = classRank b ∧ classRank a ≠ 4 := by
  cases c <;> cases a <;> cases b <;>
    simp_all [inClass, IsNumeric, IsString, IsDateTime, IsObjectID, classRank]

theorem inClass_of_classRank (a b : Value) (h : classRank a = classRank b)
    (h4 : classRank a ≠ 4) : ∃ c, inClass c a = true ∧ inClass c b = true := by
  cases a <;> cases b <;> simp_all [classRank] <;>
    first
      | exact ⟨.numeric, rfl, rfl⟩
      | exact ⟨.text, rfl, rfl⟩
      | exact ⟨.timestamp, rfl, rfl⟩
      | exact ⟨.identifier, rfl, rfl⟩

theorem below_classRank (a b : Value) (h : below a b = true) :
    classRank a = classRank b ∧ classRank a ≠ 4 := by
  cases a <;> cases b <;> simp_all [below, classRank, IsNumeric]

theorem classLess_inClass (c : Class) (up : Bool) (a b : Value) (i j : Nat)
    (ha : inClass c a = true) (hb : inClass c b = true) :
    classLess up a b i j = below a b := by
  obtain ⟨h1, h2⟩ := classRank_inClass c a b ha hb
  unfold classLess
  rw [if_pos h1]
  simp [h2]

theorem classLess_asymm (up : Bool) (a b : Value) (i j : Nat)
    (ha : isTimePtr a = false ∧ isNaN a = false) (hb : isTimePtr b = false ∧ isNaN b = false)
    (h : classLess up a b i j = true) : classLess up b a j i = false := by
  by_cases hr : classRank a = classRank b
  · by_cases h4 : classRank a = 4
    · have h4b : classRank b = 4 := hr ▸ h4
      have n1 : below a b = false := by
        cases hb1 : below a b with
        | false => rfl
        | true => exact absurd h4 (below_classRank a b hb1).2
      have n2 : below b a = false := by
        cases hb1 : below b a with
        | false => rfl
        | true => exact absurd h4b (below_classRank b a hb1).2
      cases up <;> simp_all [classLess] <;> omega
    · obtain ⟨c, hca, hcb⟩ := inClass_of_classRank a b hr h4
      rw [classLess_inClass c up a b i j hca hcb] at h
      rw [classLess_inClass c up b a j i hcb hca]
      exact below_asymm c a b ((orderable_iff c a).mpr ⟨hca, ha.1, ha.2⟩)
        ((orderable_iff c b).mpr ⟨hcb, hb.1, hb.2⟩) h
  · have hr1 : ¬ classRank b = classRank a := fun e => hr e.symm
    cases up <;> simp_all [classLess] <;> omega

theorem classLess_negtrans (up : Bool) (a b c : Value) (i j k : Nat)
    (ha : isTimePtr a = false ∧ isNaN a = false) (hb : isTimePtr b = false ∧ isNaN b = false)
    (hc : isTimePtr c = false ∧ isNaN c = false)
    (h1 : classLess up a b i j = false) (h2 : classLess up b c j k = false) :
    classLess up a c i k = false := by
  have below_false : ∀ x y : Value, classRank x = 4 → below x y = false := by
    intro x y hx
    cases hb1 : below x y with
    | false => rfl
    | true => exact absurd hx (below_classRank x y hb1).2
  by_cases hab : classRank a = classRank b
  · by_cases hbc : classRank b = classRank c
    · have hac : classRank a = classRank c := hab.trans hbc
      by_cases h4 : classRank a = 4
      · have h4b : classRank b = 4 := hab ▸ h4
        have := below_false a b h4
        have := below_false b c h4b
        have := below_false a c h4
        cases up <;> simp_all [classLess] <;> omega
      · obtain ⟨d, hda, hdb⟩ := inClass_of_classRank a b hab h4
        obtain ⟨d1, hdb1, hdc⟩ := inClass_of_classRank b c hbc (hab ▸ h4)
        have hd : d = d1 := inClass_unique d d1 b hdb hdb1
        subst hd
        rw [classLess_inClass d up a b i j hda hdb] at h1
        rw [classLess_inClass d up b c j k hdb hdc] at h2
        rw [classLess_inClass d up a c i k hda hdc]
        exact below_negtrans d a b c ((orderable_iff d a).mpr ⟨hda, ha.1, ha.2⟩)
          ((orderable_iff d b).mpr ⟨hdb, hb.1, hb.2⟩)
          ((orderable_iff d c).mpr ⟨hdc, hc.1, hc.2⟩) h1 h2
    · have hac : ¬ classRank a = classRank c := fun e => hbc (hab ▸ e)
      cases up <;> simp_all [classLess]
  · by_cases hbc : classRank b = classRank c
    · have hac : ¬ classRank a = classRank c := fun e => hab (e.trans hbc.symm)
      cases up <;> simp_all [classLess]
    · by_cases hac : classRank a = classRank c
      · cases up <;> simp_all [classLess] <;> (exfalso; omega)
      · cases up <;> simp_all [classLess] <;> omega

theorem getD_good (vals : List Value) (hp : ∀ v ∈ vals, isTimePtr v = false)
    (hn : ∀ v ∈ vals, isNaN v = false) (i : Nat) :
    isTimePtr (vals.getD i .null) = false ∧ isNaN (vals.getD i .null) = false := by
  by_cases h : i < vals.length
  · exact ⟨hp _ (getD_mem vals i h), hn _ (getD_mem vals i h)⟩
  · rw [List.getD_eq_getElem?_getD, List.getElem?_eq_none (by omega)]
    exact ⟨rfl, rfl⟩

theorem StrictWeak_byClass (vals : List Value) (up : Bool)
    (hp : ∀ v ∈ vals, isTimePtr v = false) (hn : ∀ v ∈ vals, isNaN v = false) :
    StrictWeak vals.length (byClass vals up) :=
  ⟨fun i j _ _ h => classLess_asymm up _ _ i j (getD_good vals hp hn i) (getD_good vals hp hn j) h,
    fun i j k _ _ _ h1 h2 => classLess_negtrans up _ _ _ i j k (getD_good vals hp hn i)
      (getD_good vals hp hn j) (getD_good vals hp hn k) h1 h2⟩

theorem getD_not_ptr (vals : List Value) (hp : ∀ v ∈ vals, isTimePtr v = false) (i : Nat) :
    isTimePtr (vals.getD i .null) = false := by
  by_cases h : i < vals.length
  · exact hp _ (getD_mem vals i h)
  · rw [List.getD_eq_getElem?_getD, List.getElem?_eq_none (by omega)]
    rfl

/-- When the steps end with `hasSameType` still true, every call of the closure was on two
elements of one class, and the steps are the same under the two orderings by class. -/
theorem runSteps_flag (vals : List Value) (hp : ∀ v ∈ vals, isTimePtr v = false) :
    ∀ (t : Steps) (flag : Bool) (out : List Value),
      runSteps vals t flag = some (out, true) →
      flag = true ∧ t.follow (byClass vals true) = t.follow (byClass vals false) := by
  intro t
  induction t with
  | done arrangement =>
    intro flag out h
    simp only [runSteps, Option.some.injEq, Prod.mk.injEq] at h
    exact ⟨h.2, rfl⟩
  | ask i j yes no ih1 ih2 =>
    intro flag out h
    unfold runSteps at h
    split at h
    · simp at h
    · rename_i flag1 hl
      obtain ⟨hf, he⟩ := ih1 flag1 out h
      subst hf
      obtain ⟨hflag, c, hci, hcj⟩ := less_flag _ _ flag true hl
      have hb := less_inClass c _ _ flag ⟨hci, getD_not_ptr vals hp i⟩
        ⟨hcj, getD_not_ptr vals hp j⟩
      rw [hl] at hb
      simp only [Option.some.injEq, Prod.mk.injEq] at hb
      refine ⟨hflag, ?_⟩
      simp only [Steps.follow, byClass, classLess_inClass c _ _ _ i j hci hcj, ← hb.1,
        ↓reduceIte]
      exact he
    · rename_i flag1 hl
      obtain ⟨hf, he⟩ := ih2 flag1 out h
      subst hf
      obtain ⟨hflag, c, hci, hcj⟩ := less_flag _ _ flag false hl
      have hb := less_inClass c _ _ flag ⟨hci, getD_not_ptr vals hp i⟩
        ⟨hcj, getD_not_ptr vals hp j⟩
      rw [hl] at hb
      simp only [Option.some.injEq, Prod.mk.injEq] at hb
      refine ⟨hflag, ?_⟩
      simp only [Steps.follow, byClass, classLess_inClass c _ _ _ i j hci hcj, ← hb.1,
        Bool.false_eq_true, ↓reduceIte]
      exact he

/-- Two elements at different indices that do not share a class are ordered one way by one of
the two orderings by class and the other way by the other. -/
theorem byClass_opposite (vals : List Value) (p q : Nat) (hpq : p ≠ q)
    (h : ¬ ∃ c, inClass c (vals.getD p .null) = true ∧ inClass c (vals.getD q .null) = true) :
    byClass vals true q p = true ∨ byClass vals false q p = true := by
  unfold byClass classLess
  by_cases hr : classRank (vals.getD q .null) = classRank (vals.getD p .null)
  · have h4 : classRank (vals.getD q .null) = 4 := by
      by_contra h4
      obtain ⟨c, h1, h2⟩ := inClass_of_classRank _ _ hr h4
      exact h ⟨c, h2, h1⟩
    simp only [hr, ↓reduceIte, hr ▸ h4, decide_True, Bool.true_and, Bool.or_eq_true,
      decide_eq_true_eq, Bool.false_eq_true]
    omega
  · simp only [hr, ↓reduceIte, decide_eq_true_eq, Bool.false_eq_true]
    omega

/-- Under the contract of `sort.Slice`, the steps on a slice of two or more elements without a
`*time.Time` and without a NaN end with `hasSameType` true only if all the elements belong
to one class. -/
theorem runSteps_some_class (vals : List Value) (t : Steps) (out : List Value)
    (hlen : 2 ≤ vals.length) (hin : t.InSlice vals.length)
    (hsorts : ∀ r, StrictWeak vals.length r → (t.follow r).Pairwise (fun a b => r b a = false))
    (hp : ∀ v ∈ vals, isTimePtr v = false) (hn : ∀ v ∈ vals, isNaN v = false)
    (h : runSteps vals t true = some (out, true)) :
    ∃ c, ∀ u ∈ vals, inClass c u = true := by
  obtain ⟨_, he⟩ := runSteps_flag vals hp t true out h
  have s1 := hsorts _ (StrictWeak_byClass vals true hp hn)
  have s2 := hsorts _ (StrictWeak_byClass vals false hp hn)
  rw [he] at s1
  have hperm := follow_perm vals.length (byClass vals false) t hin
  -- any two elements at different indices share a class
  have hpair : ∀ p q, p < vals.length → q < vals.length → p ≠ q →
      ∃ c, inClass c (vals.getD p .null) = true ∧ inClass c (vals.getD q .null) = true := by
    intro p q hp1 hq1 hpq
    by_contra hno
    have hno1 : ¬ ∃ c, inClass c (vals.getD q .null) = true ∧
        inClass c (vals.getD p .null) = true := fun ⟨c, a, b⟩ => hno ⟨c, b, a⟩
    have hboth := s1.and s2
    have hsym : (t.follow (byClass vals false)).Pairwise
        (fun a b => (byClass vals true b a = false ∧ byClass vals false b a = false) ∨
          (byClass vals true a b = false ∧ byClass vals false a b = false)) :=
      hboth.imp (fun h => Or.inl h)
    have hmem : ∀ x, x < vals.length → x ∈ t.follow (byClass vals false) :=
      fun x hx => hperm.symm.subset (List.mem_range.mpr hx)
    have := hsym.forall (fun a b hab => hab.symm) (hmem p hp1) (hmem q hq1) hpq
    rcases this with ⟨a, b⟩ | ⟨a, b⟩
    · rcases byClass_opposite vals p q hpq hno with e | e
      · rw [a] at e; exact absurd e (by decide)
      · rw [b] at e; exact absurd e (by decide)
    · rcases byClass_opposite vals q p (Ne.symm hpq) hno1 with e | e
      · rw [a] at e; exact absurd e (by decide)
      · rw [b] at e; exact absurd e (by decide)
  obtain ⟨c, hc0, hc1⟩ := hpair 0 1 (by omega) (by omega) (by decide)
  refine ⟨c, ?_⟩
  intro u hu
  obtain ⟨p, hp1, rfl⟩ := List.getElem_of_mem hu
  have hget : vals.getD p .null = vals[p] := by
    rw [List.getD_eq_getElem?_getD, List.getElem?_eq_getElem hp1]
    rfl
  by_cases h0 : p = 0
  · subst h0
    rw [← hget]
    exact hc0
  · obtain ⟨d, hd0, hd1⟩ := hpair 0 p (by omega) hp1 (Ne.symm h0)
    have : c = d := inClass_unique c d _ hc0 hd0
    rw [this, ← hget]
    exact hd1

theorem runSteps_total (vals : List Value) (hp : ∀ v ∈ vals, isTimePtr v = false) :
    ∀ (t : Steps) (flag : Bool), ∃ out f, runSteps vals t flag = some (out, f) := by
  intro t
  induction t with
  | done arrangement => exact fun flag => ⟨_, _, rfl⟩
  | ask i j yes no ih1 ih2 =>
    intro flag
    obtain ⟨r, f, hl⟩ := less_total (vals.getD i .null) (vals.getD j .null) flag
      (getD_not_ptr vals hp i) (getD_not_ptr vals hp j)
    cases r with
    | true =>
      obtain ⟨out, f1, h1⟩ := ih1 f
      exact ⟨out, f1, by unfold runSteps; rw [hl]; exact h1⟩
    | false =>
      obtain ⟨out, f1, h1⟩ := ih2 f
      exact ⟨out, f1, by unfold runSteps; rw [hl]; exact h1⟩

theorem runSteps_inClass (c : Class) (vals : List Value)
    (h : ∀ v ∈ vals, inClass c v = true ∧ isTimePtr v = false) (flag : Bool) :
    ∀ t : Steps, t.InSlice vals.length →
      runSteps vals t flag
        = some ((t.follow (fun i j => below (vals.getD i .null) (vals.getD j .null))).map
            (fun i => vals.getD i .null), flag) := by
  intro t
  induction t with
  | done arrangement => exact fun _ => rfl
  | ask i j yes no ih1 ih2 =>
    intro hin
    obtain ⟨hi, hj, h1, h2⟩ := hin
    have hl := less_inClass c _ _ flag (h _ (getD_mem vals i hi)) (h _ (getD_mem vals j hj))
    unfold runSteps Steps.follow
    rw [hl]
    cases hb : below (vals.getD i .null) (vals.getD j .null) with
    | true => simpa using ih1 h1
    | false => simpa using ih2 h2

/-! ## The sorter of the evaluations meets the contract -/

theorem insertSteps_InSlice (n x : Nat) (hx : x < n) :
    ∀ (l : List Nat) (next : List Nat → Steps), (∀ y ∈ l, y < n) →
      (∀ l1, l1.Perm (x :: l) → (next l1).InSlice n) → (insertSteps x l next).InSlice n := by
  intro l
  induction l with
  | nil => exact fun next _ h => h [x] (List.Perm.refl _)
  | cons y ys ih =>
    intro next hl h
    refine ⟨hx, hl y (List.mem_cons_self _ _), h _ (List.Perm.refl _), ?_⟩
    refine ih _ (fun z hz => hl z (List.mem_cons_of_mem _ hz)) ?_
    intro l1 h1
    exact h _ ((h1.cons y).trans (List.Perm.swap x y ys))

theorem sortSteps_InSlice (n : Nat) :
    ∀ (todo sorted : List Nat), (sorted ++ todo).Perm (List.range n) →
      (sortSteps todo sorted).InSlice n := by
  intro todo
  induction todo with
  | nil => exact fun sorted h => by simpa [sortSteps, Steps.InSlice] using h
  | cons x todo ih =>
    intro sorted h
    have hlt : ∀ y ∈ sorted ++ x :: todo, y < n := fun y hy => List.mem_range.mp (h.subset hy)
    refine insertSteps_InSlice n x (hlt x (by simp)) sorted _ (fun y hy => hlt y (by simp [hy])) ?_
    intro l1 h1
    refine ih l1 (((h1.append_right todo).trans ?_).trans h)
    simpa using List.perm_middle.symm

theorem insertSteps_follow (n : Nat) (r : Nat → Nat → Bool) (hr : StrictWeak n r) (x : Nat)
    (hx : x < n) :
    ∀ (l : List Nat) (next : List Nat → Steps), (∀ y ∈ l, y < n) →
      l.Pairwise (fun a b => r b a = false) →
      ∃ l1, l1.Perm (x :: l) ∧ l1.Pairwise (fun a b => r b a = false) ∧
        (insertSteps x l next).follow r = (next l1).follow r := by
  intro l
  induction l with
  | nil => exact fun next _ _ => ⟨[x], List.Perm.refl _, List.pairwise_singleton _ _, rfl⟩
  | cons y ys ih =>
    intro next hl hs
    have hy : y < n := hl y (List.mem_cons_self _ _)
    have hys : ∀ z ∈ ys, z < n := fun z hz => hl z (List.mem_cons_of_mem _ hz)
    obtain ⟨hy1, hs1⟩ := List.pairwise_cons.mp hs
    cases hxy : r x y with
    | true =>
      refine ⟨x :: y :: ys, List.Perm.refl _, List.pairwise_cons.mpr ⟨?_, hs⟩, ?_⟩
      · intro z hz
        rcases List.mem_cons.mp hz with h | h
        · exact h ▸ hr.1 x y hx hy hxy
        · exact hr.2 z y x (hys z h) hy hx (hy1 z h) (hr.1 x y hx hy hxy)
      · simp [insertSteps, Steps.follow, hxy]
    | false =>
      obtain ⟨l1, h1, h2, h3⟩ := ih (fun l => next (y :: l)) hys hs1
      refine ⟨y :: l1, (h1.cons y).trans (List.Perm.swap x y ys),
        List.pairwise_cons.mpr ⟨?_, h2⟩, ?_⟩
      · intro z hz
        rcases List.mem_cons.mp (h1.subset hz) with h | h
        · exact h ▸ hxy
        · exact hy1 z h
      · simp [insertSteps, Steps.follow, hxy, h3]

theorem sortSteps_follow (n : Nat) (r : Nat → Nat → Bool) (hr : StrictWeak n r) :
    ∀ (todo sorted : List Nat), (∀ y ∈ sorted ++ todo, y < n) →
      sorted.Pairwise (fun a b => r b a = false) →
      ((sortSteps todo sorted).follow r).Pairwise (fun a b => r b a = false) := by
  intro todo
  induction todo with
  | nil => exact fun sorted _ h => by simpa [sortSteps, Steps.follow] using h
  | cons x todo ih =>
    intro sorted hlt hs
    obtain ⟨l1, h1, h2, h3⟩ := insertSteps_follow n r hr x (hlt x (by simp)) sorted
      (fun l => sortSteps todo l) (fun y hy => hlt y (by simp [hy])) hs
    rw [sortSteps, h3]
    refine ih l1 ?_ h2
    intro y hy
    rcases List.mem_append.mp hy with h | h
    · rcases List.mem_cons.mp (h1.subset h) with h4 | h4
      · exact h4 ▸ hlt x (by simp)
      · exact hlt y (by simp [h4])
    · exact hlt y (by simp [h])

/-- The sorter of the evaluations meets the contract of `sort.Slice`. -/
theorem insertionSorter_sorts : SortsSlices := by
  intro n
  refine ⟨sortSteps_InSlice n _ [] (by simp), ?_⟩
  intro r hr
  exact sortSteps_follow n r hr (List.range n) [] (fun y hy => by simpa using hy)
    List.Pairwise.nil

/-! ## `sort.Slice` under its contract -/

theorem sortSlice_inClass [SliceSorter] (hlib : SortsSlices) (c : Class) (vals : List Value)
    (flag : Bool) (h : ∀ v ∈ vals, inClass c v = true ∧ isTimePtr v = false) :
    ∃ out, sortSlice vals flag = some (out, flag) ∧ out.Perm vals ∧
      ((∀ v ∈ vals, isNaN v = false) → Ascending out) := by
  unfold sortSlice
  split
  · cases vals with
    | nil => exact ⟨[], rfl, List.Perm.refl _, fun _ => List.Pairwise.nil⟩
    | cons v rest =>
      obtain ⟨out, h1, h2⟩ := insertionSort_inClass c flag rest [v]
        (fun u hu => h u (by simp_all)) (fun u hu => h u (by simp_all))
      refine ⟨out, h1, by simpa using h2, fun hn => ?_⟩
      obtain ⟨out1, h3, _, h5⟩ := insertionSort_orderable c flag rest [v]
        (fun u hu => (orderable_iff c u).mpr ⟨(h u (by simp_all)).1, (h u (by simp_all)).2,
          hn u (by simp_all)⟩)
        (fun u hu => (orderable_iff c u).mpr ⟨(h u (by simp_all)).1, (h u (by simp_all)).2,
          hn u (by simp_all)⟩)
        (List.pairwise_singleton _ _)
      rw [h1] at h3
      simp only [Option.some.injEq, Prod.mk.injEq, and_true] at h3
      exact h3 ▸ h5
  · obtain ⟨hin, hsorted⟩ := hlib vals.length
    rw [runSteps_inClass c vals h flag _ hin]
    refine ⟨_, rfl, arrangement_perm vals _ (follow_perm _ _ _ hin), fun hn => ?_⟩
    have ho : ∀ v ∈ vals, orderable c v = true :=
      fun v hv => (orderable_iff c v).mpr ⟨(h v hv).1, (h v hv).2, hn v hv⟩
    exact List.pairwise_map.mpr (hsorted _ (StrictWeak_below c vals ho))

theorem sortSlice_total [SliceSorter] (vals : List Value) (flag : Bool)
    (h : ∀ v ∈ vals, isTimePtr v = false) : ∃ out f, sortSlice vals flag = some (out, f) := by
  unfold sortSlice
  split
  · cases vals with
    | nil => exact ⟨_, _, rfl⟩
    | cons v rest =>
      exact insertionSort_total rest [v] flag
        (fun u hu => h u (by simp_all)) (fun u hu => h u (by simp_all))
  · exact runSteps_total vals h _ flag

/-- `sort.Slice` leaves `hasSameType` true on a slice of two or more elements only if all the
elements belong to one class; for a slice of more than 6 elements, under the contract of
`sort.Slice` and provided no element is a `*time.Time` or a NaN. -/
theorem sortSlice_some_class [SliceSorter] (hlib : SortsSlices) (v w : Value)
    (rest out : List Value)
    (hp : 6 < (v :: w :: rest).length → ∀ u ∈ v :: w :: rest, isTimePtr u = false)
    (hn : 6 < (v :: w :: rest).length → ∀ u ∈ v :: w :: rest, isNaN u = false)
    (h : sortSlice (v :: w :: rest) true = some (out, true)) :
    ∃ c, ∀ u ∈ v :: w :: rest, inClass c u = true := by
  unfold sortSlice at h
  split at h
  · -- the first comparison is between `w` and `v`
    simp only at h
    unfold insertionSort at h
    split at h
    · simp at h
    · rename_i d1 f1 hk
      have hf1 : f1 = true := insertionSort_flag_mono rest d1 f1 out h
      subst hf1
      obtain ⟨c, hcw, hcv⟩ := (sink_flag w _ _ _ _ hk).2 v (by simp)
      have hperm : d1.Perm [w, v] := by simpa using sink_perm w _ _ _ _ _ hk
      have hd1 : d1 ≠ [] := fun e => by simp [e] at hperm
      have hall : ∀ u ∈ d1, inClass c u = true := by
        intro u hu
        have := hperm.subset hu
        simp only [List.mem_cons, List.mem_singleton, List.not_mem_nil, or_false] at this
        rcases this with h1 | h1
        · exact h1 ▸ hcw
        · exact h1 ▸ hcv
      have hrest := insertionSort_flag c rest d1 true out h hd1 hall
      refine ⟨c, ?_⟩
      intro u hu
      simp only [List.mem_cons] at hu
      rcases hu with h1 | h1 | h1
      · exact h1 ▸ hcv
      · exact h1 ▸ hcw
      · exact hrest u h1
  · rename_i hlen
    have hlen1 : 6 < (v :: w :: rest).length := by omega
    obtain ⟨hin, hsorted⟩ := hlib (v :: w :: rest).length
    exact runSteps_some_class _ _ out (by simp) hin hsorted (hp hlen1) (hn hlen1) h

/-! ## Sort, Max, Min -/

theorem SortVals_orderable [SliceSorter] (hlib : SortsSlices) (c : Class) (vals : List Value)
    (h : ∀ v ∈ vals, orderable c v = true) :
    ∃ out, SortVals vals = some (some out) ∧ out.Perm vals ∧ Ascending out := by
  obtain ⟨out, h1, h2, h3⟩ := sortSlice_inClass hlib c vals true
    (fun v hv => ⟨((orderable_iff c v).mp (h v hv)).1, ((orderable_iff c v).mp (h v hv)).2.1⟩)
  exact ⟨out, by simp [SortVals, h1], h2,
    h3 (fun v hv => ((orderable_iff c v).mp (h v hv)).2.2)⟩

theorem Max_orderable [SliceSorter] (hlib : SortsSlices) (c : Class) (vals : List Value)
    (hne : vals ≠ [])
    (h : ∀ v ∈ vals, orderable c v = true) :
    ∃ m, Max vals = some m ∧ m ∈ vals ∧ ∀ v ∈ vals, below m v = false := by
  obtain ⟨out, h1, h2, h3⟩ := SortVals_orderable hlib c vals h
  have hout : out ≠ [] := fun e => hne (List.Perm.eq_nil (e ▸ h2.symm))
  have hc : ∀ v ∈ out, orderable c v = true := fun v hv => h v (h2.subset hv)
  refine ⟨out.getLast hout, ?_, h2.subset (List.getLast_mem hout), ?_⟩
  · have hlen : out.length ≠ 0 := fun e => hout (List.length_eq_zero.mp e)
    simp [Max, h1, len, hlen, List.getLastD_eq_getLast?, List.getLast?_eq_getLast _ hout]
  · exact fun v hv => Ascending_getLast c out hout hc h3 v (h2.symm.subset hv)

theorem Min_orderable [SliceSorter] (hlib : SortsSlices) (c : Class) (vals : List Value)
    (hne : vals ≠ [])
    (h : ∀ v ∈ vals, orderable c v = true) :
    ∃ m, Min vals = some m ∧ m ∈ vals ∧ ∀ v ∈ vals, below v m = false := by
  obtain ⟨out, h1, h2, h3⟩ := SortVals_orderable hlib c vals h
  have hc : ∀ v ∈ out, orderable c v = true := fun v hv => h v (h2.subset hv)
  cases out with
  | nil => exact absurd (List.Perm.eq_nil h2.symm) hne
  | cons x l =>
    refine ⟨x, ?_, h2.subset (List.mem_cons_self _ _), ?_⟩
    · simp [Min, h1, len]
    · exact fun v hv => Ascending_head c x l hc h3 v (h2.symm.subset hv)

/-- Sort hands back a list of two or more elements only if they all belong to one class; for a
list of more than 6 elements, under the contract of `sort.Slice` and provided no element is a
`*time.Time` or a NaN. -/
theorem SortVals_some_class [SliceSorter] (hlib : SortsSlices) (v w : Value)
    (rest out : List Value)
    (hp : 6 < (v :: w :: rest).length → ∀ u ∈ v :: w :: rest, isTimePtr u = false)
    (hn : 6 < (v :: w :: rest).length → ∀ u ∈ v :: w :: rest, isNaN u = false)
    (h : SortVals (v :: w :: rest) = some (some out)) :
    ∃ c, ∀ u ∈ v :: w :: rest, inClass c u = true := by
  unfold SortVals at h
  split at h
  · simp at h
  · rename_i sorted flag hs
    cases flag with
    | false => simp at h
    | true => exact sortSlice_some_class hlib v w rest sorted hp hn hs

theorem SortVals_total [SliceSorter] (vals : List Value) (h : ∀ v ∈ vals, isTimePtr v = false) :
    SortVals vals ≠ none := by
  obtain ⟨out, f, h1⟩ := sortSlice_total vals true h
  cases f <;> simp [SortVals, h1]

/-- On a list of at most 6 elements Sort, Max, Min and the fragments do not depend on the
sorter: the library sorts such a list by insertion. -/
theorem Sort_short (s1 s2 : SliceSorter) (vals : List Value) (h : vals.length ≤ 6) :
    @SortVals s1 vals = @SortVals s2 vals ∧ @Max s1 vals = @Max s2 vals ∧
    @Min s1 vals = @Min s2 vals ∧
    ∀ lib o, @Operator.ToBSON s1 lib o vals = @Operator.ToBSON s2 lib o vals := by
  have hs : @sortSlice s1 vals true = @sortSlice s2 vals true := by
    unfold sortSlice
    rw [if_pos h, if_pos h]
  have h1 : @SortVals s1 vals = @SortVals s2 vals := by
    unfold SortVals
    rw [hs]
  have h2 : @Max s1 vals = @Max s2 vals := by
    unfold Max
    rw [h1]
  have h3 : @Min s1 vals = @Min s2 vals := by
    unfold Min
    rw [h1]
  refine ⟨h1, h2, h3, ?_⟩
  intro lib o
  unfold Operator.ToBSON
  rw [h2, h3]

/-- Two elements of different classes, no `*time.Time`: Sort returns `nil`; for a list of more
than 6 elements, under the contract of `sort.Slice` and provided no element is a NaN. -/
theorem SortVals_mixed [SliceSorter] (hlib : SortsSlices) (vals : List Value) (a b : Value)
    (ca cb : Class) (hp : ∀ v ∈ vals, isTimePtr v = false)
    (hn : 6 < vals.length → ∀ v ∈ vals, isNaN v = false)
    (ha : a ∈ vals) (hb : b ∈ vals) (hca : inClass ca a = true) (hcb : inClass cb b = true)
    (hne : ca ≠ cb) : SortVals vals = some none := by
  have htot := SortVals_total vals hp
  cases hs : SortVals vals with
  | none => exact absurd hs htot
  | some r =>
    cases r with
    | none => rfl
    | some out =>
      exfalso
      match vals, hs, ha, hb, hp, hn with
      | [], _, ha, _, _, _ => simp at ha
      | [v], _, ha, hb, _, _ =>
        rw [List.mem_singleton] at ha hb
        rw [ha] at hca
        rw [hb] at hcb
        exact hne (inClass_unique ca cb v hca hcb)
      | v :: w :: rest, hs, ha, hb, hp, hn =>
        obtain ⟨c, hc⟩ := SortVals_some_class hlib v w rest out (fun _ => hp) hn hs
        exact hne ((inClass_unique ca c a hca (hc a ha)).trans
          (inClass_unique cb c b hcb (hc b hb)).symm)

theorem Max_singleton [SliceSorter] (v : Value) : Max [v] = some v := by
  simp [Max, SortVals, sortSlice, insertionSort, len]

theorem Min_singleton [SliceSorter] (v : Value) : Min [v] = some v := by
  simp [Min, SortVals, sortSlice, insertionSort, len]

theorem SortVals_inClass [SliceSorter] (hlib : SortsSlices) (c : Class) (vals : List Value)
    (h : ∀ v ∈ vals, inClass c v = true ∧ isTimePtr v = false) :
    ∃ out, SortVals vals = some (some out) ∧ out.Perm vals := by
  obtain ⟨out, h1, h2, _⟩ := sortSlice_inClass hlib c vals true h
  exact ⟨out, by simp [SortVals, h1], h2⟩

theorem Max_Min_mem [SliceSorter] (hlib : SortsSlices) (c : Class) (vals : List Value)
    (hne : vals ≠ [])
    (h : ∀ v ∈ vals, inClass c v = true ∧ isTimePtr v = false) :
    ∃ mx mn, Max vals = some mx ∧ mx ∈ vals ∧ Min vals = some mn ∧ mn ∈ vals := by
  obtain ⟨out, h1, h2⟩ := SortVals_inClass hlib c vals h
  cases out with
  | nil => exact absurd (List.Perm.eq_nil h2.symm) hne
  | cons x l =>
    refine ⟨(x :: l).getLast (by simp), x, ?_, h2.subset (List.getLast_mem _), ?_,
      h2.subset (List.mem_cons_self _ _)⟩
    · simp [Max, h1, len, List.getLastD_eq_getLast?, List.getLast?_eq_getLast]
    · simp [Min, h1, len]

theorem belowByValue_pair :
    belowByValue (.int 9007199254740992) (.int 9007199254740993) :=
  ⟨_, _, rfl, rfl, by norm_num⟩

/-- C4, as amended: for every list whose elements all belong to one comparison class and none
of which is a `*time.Time`, Sort returns a permutation of the input; when no element is a
NaN, the permutation is in ascending order, where numbers are ordered by the `float64` they
are coerced to, strings lexicographically, times chronologically and identifiers
lexicographically by hex string.  This holds for a list of any length, whatever algorithm
`sort.Slice` runs on a long slice, as long as it meets the contract of the library. -/
theorem Sort_ascending_permutation [SliceSorter] (hlib : SortsSlices) (c : Class)
    (vals : List Value)
    (h : ∀ v ∈ vals, inClass c v = true ∧ isTimePtr v = false) :
    ∃ out, SortVals vals = some (some out) ∧ out.Perm vals ∧
      ((∀ v ∈ vals, isNaN v = false) → out.Pairwise (fun a b => below b a = false)) := by
  obtain ⟨out, h1, h2⟩ := SortVals_inClass hlib c vals h
  refine ⟨out, h1, h2, fun hn => ?_⟩
  obtain ⟨out1, h3, _, h5⟩ := SortVals_orderable hlib c vals
    (fun v hv => (orderable_iff c v).mpr ⟨(h v hv).1, (h v hv).2, hn v hv⟩)
  rw [h1] at h3
  simp only [Option.some.injEq] at h3
  exact h3 ▸ h5

theorem Sort_ascending_permutation_witness :
    SortsSlices ∧
    (∀ v ∈ [Value.int 3, .int 1, .int 2, .int 7, .int 5, .int 4, .int 6],
      inClass .numeric v = true ∧ isTimePtr v = false) ∧
    (∀ v ∈ [Value.int 3, .int 1, .int 2, .int 7, .int 5, .int 4, .int 6], isNaN v = false) ∧
    ∃ out, SortVals [.int 3, .int 1, .int 2, .int 7, .int 5, .int 4, .int 6] = some (some out) ∧
      out.Perm [.int 3, .int 1, .int 2, .int 7, .int 5, .int 4, .int 6] ∧
      ((∀ v ∈ [Value.int 3, .int 1, .int 2, .int 7, .int 5, .int 4, .int 6], isNaN v = false) →
        out.Pairwise (fun a b => below b a = false)) :=
  ⟨insertionSorter_sorts, by decide, by decide,
    Sort_ascending_permutation insertionSorter_sorts .numeric
      [.int 3, .int 1, .int 2, .int 7, .int 5, .int 4, .int 6] (by decide)⟩

/-- C4 as stated fails.  The integers 2^53 + 1 and 2^53 are both coerced to the float 2^53, so
Sort leaves the larger one first; and a NaN, which is a number, compares false with
everything, so Sort leaves 2 before 1.  Hence Sort does not put every list of one class in
ascending order by value. -/
theorem Sort_not_ascending_by_value :
    (∀ v ∈ [Value.int 9007199254740993, .int 9007199254740992], inClass .numeric v = true) ∧
    SortVals [.int 9007199254740993, .int 9007199254740992]
      = some (some [.int 9007199254740993, .int 9007199254740992]) ∧
    belowByValue (.int 9007199254740992) (.int 9007199254740993) ∧
    (∀ v ∈ [Value.float (.fin 2), .float .nan, .float (.fin 1)], inClass .numeric v = true) ∧
    SortVals [.float (.fin 2), .float .nan, .float (.fin 1)]
      = some (some [.float (.fin 2), .float .nan, .float (.fin 1)]) ∧
    below (.float (.fin 1)) (.float (.fin 2)) = true ∧
    belowByValue (.float (.fin 1)) (.float (.fin 2)) ∧
    ¬ (∀ (c : Class) (vals : List Value), (∀ v ∈ vals, inClass c v = true) →
      ∃ out, SortVals vals = some (some out) ∧ out.Perm vals ∧
        out.Pairwise (fun a b => ¬ belowByValue b a)) := by
  refine ⟨by decide, by decide, belowByValue_pair, by decide, by decide, by decide,
    ⟨_, _, rfl, rfl, by norm_num⟩, ?_⟩
  intro hall
  obtain ⟨out, h1, _, h3⟩ :=
    hall .numeric [.int 9007199254740993, .int 9007199254740992] (by decide)
  have h2 : SortVals [.int 9007199254740993, .int 9007199254740992]
      = some (some [.int 9007199254740993, .int 9007199254740992]) := by decide
  rw [h2] at h1
  simp only [Option.some.injEq] at h1
  subst h1
  exact (List.pairwise_cons.mp h3).1 _ (List.mem_singleton_self _) belowByValue_pair

/-- C5, as amended: for every non-empty list whose elements all belong to one comparison
class and none of which is a `*time.Time`, Max and Min return elements of the list; when no
element is a NaN, no element is above the one Max returns and no element is below the one
Min returns, in the ordering of the class (numbers by the `float64` they are coerced to).
For the empty list both return nil.  This holds for a list of any length, whatever algorithm
`sort.Slice` runs on a long slice, as long as it meets the contract of the library. -/
theorem Max_Min_extremal [SliceSorter] (hlib : SortsSlices) (c : Class) (vals : List Value)
    (h : ∀ v ∈ vals, inClass c v = true ∧ isTimePtr v = false) :
    Max [] = some .null ∧ Min [] = some .null ∧
    (vals ≠ [] →
      ∃ mx mn, Max vals = some mx ∧ mx ∈ vals ∧ Min vals = some mn ∧ mn ∈ vals ∧
        ((∀ v ∈ vals, isNaN v = false) →
          (∀ v ∈ vals, below mx v = false) ∧ (∀ v ∈ vals, below v mn = false))) := by
  refine ⟨rfl, rfl, fun hne => ?_⟩
  obtain ⟨mx, mn, h1, h2, h3, h4⟩ := Max_Min_mem hlib c vals hne h
  refine ⟨mx, mn, h1, h2, h3, h4, fun hn => ?_⟩
  have ho : ∀ v ∈ vals, orderable c v = true :=
    fun v hv => (orderable_iff c v).mpr ⟨(h v hv).1, (h v hv).2, hn v hv⟩
  obtain ⟨m1, e1, _, t1⟩ := Max_orderable hlib c vals hne ho
  obtain ⟨m2, e2, _, t2⟩ := Min_orderable hlib c vals hne ho
  rw [h1] at e1
  rw [h3] at e2
  simp only [Option.some.injEq] at e1 e2
  exact ⟨e1 ▸ t1, e2 ▸ t2⟩

theorem Max_Min_extremal_witness :
    SortsSlices ∧
    (∀ v ∈ [Value.str "b", .str "a", .str "c", .str "g", .str "e", .str "d", .str "f"],
      inClass .text v = true ∧ isTimePtr v = false) ∧
    [Value.str "b", .str "a", .str "c", .str "g", .str "e", .str "d", .str "f"] ≠ [] ∧
    ∃ mx mn, Max [.str "b", .str "a", .str "c", .str "g", .str "e", .str "d", .str "f"] = some mx ∧
      mx ∈ [Value.str "b", .str "a", .str "c", .str "g", .str "e", .str "d", .str "f"] ∧
      Min [.str "b", .str "a", .str "c", .str "g", .str "e", .str "d", .str "f"] = some mn ∧
      mn ∈ [Value.str "b", .str "a", .str "c", .str "g", .str "e", .str "d", .str "f"] ∧
      ((∀ v ∈ [Value.str "b", .str "a", .str "c", .str "g", .str "e", .str "d", .str "f"],
          isNaN v = false) →
        (∀ v ∈ [Value.str "b", .str "a", .str "c", .str "g", .str "e", .str "d", .str "f"],
          below mx v = false) ∧
        (∀ v ∈ [Value.str "b", .str "a", .str "c", .str "g", .str "e", .str "d", .str "f"],
          below v mn = false)) :=
  ⟨insertionSorter_sorts, by decide, by decide,
    (Max_Min_extremal insertionSorter_sorts .text
      [.str "b", .str "a", .str "c", .str "g", .str "e", .str "d", .str "f"] (by decide)).2.2
      (by decide)⟩

/-- C5 as stated fails.  On the numbers 2, NaN, 1 Max returns 1 and Min returns 2; on the
integers 2^53 + 1, 2^53 Max returns 2^53 and Min returns 2^53 + 1.  Hence Max does not
return, for every non-empty list of one class, an element that none exceeds by value. -/
theorem Max_Min_not_extremal :
    (∀ v ∈ [Value.float (.fin 2), .float .nan, .float (.fin 1)], inClass .numeric v = true) ∧
    Max [.float (.fin 2), .float .nan, .float (.fin 1)] = some (.float (.fin 1)) ∧
    Min [.float (.fin 2), .float .nan, .float (.fin 1)] = some (.float (.fin 2)) ∧
    below (.float (.fin 1)) (.float (.fin 2)) = true ∧
    (∀ v ∈ [Value.int 9007199254740993, .int 9007199254740992], inClass .numeric v = true) ∧
    Max [.int 9007199254740993, .int 9007199254740992] = some (.int 9007199254740992) ∧
    Min [.int 9007199254740993, .int 9007199254740992] = some (.int 9007199254740993) ∧
    belowByValue (.int 9007199254740992) (.int 9007199254740993) ∧
    ¬ (∀ (c : Class) (vals : List Value), vals ≠ [] → (∀ v ∈ vals, inClass c v = true) →
      ∃ m, Max vals = some m ∧ m ∈ vals ∧ ∀ v ∈ vals, ¬ belowByValue m v) := by
  refine ⟨by decide, by decide, by decide, by decide, by decide, by decide, by decide,
    belowByValue_pair, ?_⟩
  intro hall
  obtain ⟨m, h1, _, h3⟩ :=
    hall .numeric [.int 9007199254740993, .int 9007199254740992] (by decide) (by decide)
  have h2 : Max [.int 9007199254740993, .int 9007199254740992]
      = some (.int 9007199254740992) := by decide
  rw [h2] at h1
  simp only [Option.some.injEq] at h1
  subst h1
  exact h3 _ (List.mem_cons_self _ _) belowByValue_pair

/-- C3 at the failing input `[&t1, &t2, 1]`, two pointers to times and a number: the type
assertion in the closure of Sort panics, so Sort, Max, Min and the rendering of Gt, Gte, Lt
and Lte panic instead of returning nil. -/
theorem Sort_pointer_times_panics [SliceSorter] :
    inClass .timestamp (.timePtr 1) = true ∧ inClass .numeric (.int 1) = true ∧
    SortVals [.timePtr 1, .timePtr 2, .int 1] = none ∧
    Max [.timePtr 1, .timePtr 2, .int 1] = none ∧
    Min [.timePtr 1, .timePtr 2, .int 1] = none ∧
    (∀ lib, Operator.ToBSON lib OperatorGt [.timePtr 1, .timePtr 2, .int 1] = none) ∧
    (∀ lib, Operator.ToBSON lib OperatorGte [.timePtr 1, .timePtr 2, .int 1] = none) ∧
    (∀ lib, Operator.ToBSON lib OperatorLt [.timePtr 1, .timePtr 2, .int 1] = none) ∧
    (∀ lib, Operator.ToBSON lib OperatorLte [.timePtr 1, .timePtr 2, .int 1] = none) :=
  ⟨by decide, by decide, rfl, rfl, rfl, fun _ => rfl, fun _ => rfl,
    fun _ => rfl, fun _ => rfl⟩

/-! ## Rendering one operator -/

theorem ToBSON_Gt_of_Max [SliceSorter] (lib : Value → String) (v : Value) (rest : List Value) (m : Value)
    (hm : Max (v :: rest) = some m) (hnull : m ≠ .null) :
    Operator.ToBSON lib OperatorGt (v :: rest) = some (some [("$gt", .val m)]) ∧
    Operator.ToBSON lib OperatorGte (v :: rest) = some (some [("$gte", .val m)]) := by
  simp [Operator.ToBSON, hm, hnull, OperatorGt, OperatorGte, OperatorEq, OperatorNe]

theorem ToBSON_Lt_of_Min [SliceSorter] (lib : Value → String) (v : Value) (rest : List Value) (m : Value)
    (hm : Min (v :: rest) = some m) (hnull : m ≠ .null) :
    Operator.ToBSON lib OperatorLt (v :: rest) = some (some [("$lt", .val m)]) ∧
    Operator.ToBSON lib OperatorLte (v :: rest) = some (some [("$lte", .val m)]) := by
  simp [Operator.ToBSON, hm, hnull, OperatorGt, OperatorGte, OperatorEq, OperatorNe,
    OperatorLt, OperatorLte]

/-- C2, as amended: for every non-empty list `vals` whose elements all belong to one
comparison class and none of which is a `*time.Time`, Gt and Gte render `vals` as they
render the single value `Max(vals)`, namely `$gt: Max(vals)` and `$gte: Max(vals)`, and Lt
and Lte render it as they render `Min(vals)`.  When no element is a NaN the collapse is
lossless in the ordering of the class (numbers ordered by the `float64` they are coerced
to): `x` is above `Max(vals)` iff it is above every element, and below `Min(vals)` iff it is
below every element.  This holds for a list of any length, whatever algorithm `sort.Slice`
runs on a long slice, as long as it meets the contract of the library. -/
theorem Gt_Lt_collapse [SliceSorter] (hlib : SortsSlices) (lib : Value → String) (c : Class)
    (vals : List Value)
    (hne : vals ≠ []) (h : ∀ v ∈ vals, inClass c v = true ∧ isTimePtr v = false) :
    ∃ mx mn, Max vals = some mx ∧ Min vals = some mn ∧
      Operator.ToBSON lib OperatorGt vals = some (some [("$gt", .val mx)]) ∧
      Operator.ToBSON lib OperatorGt vals = Operator.ToBSON lib OperatorGt [mx] ∧
      Operator.ToBSON lib OperatorGte vals = some (some [("$gte", .val mx)]) ∧
      Operator.ToBSON lib OperatorGte vals = Operator.ToBSON lib OperatorGte [mx] ∧
      Operator.ToBSON lib OperatorLt vals = some (some [("$lt", .val mn)]) ∧
      Operator.ToBSON lib OperatorLt vals = Operator.ToBSON lib OperatorLt [mn] ∧
      Operator.ToBSON lib OperatorLte vals = some (some [("$lte", .val mn)]) ∧
      Operator.ToBSON lib OperatorLte vals = Operator.ToBSON lib OperatorLte [mn] ∧
      ((∀ v ∈ vals, isNaN v = false) →
        (∀ x, orderable c x = true → (below mx x = true ↔ ∀ v ∈ vals, below v x = true)) ∧
        (∀ x, orderable c x = true → (below x mn = true ↔ ∀ v ∈ vals, below x v = true))) := by
  obtain ⟨mx, mn, hmx, hmxmem, hmn, hmnmem⟩ := Max_Min_mem hlib c vals hne h
  have hmxnull := inClass_ne_null c mx (h mx hmxmem).1
  have hmnnull := inClass_ne_null c mn (h mn hmnmem).1
  cases vals with
  | nil => exact absurd rfl hne
  | cons v rest =>
    obtain ⟨g1, g2⟩ := ToBSON_Gt_of_Max lib v rest mx hmx hmxnull
    obtain ⟨g3, g4⟩ := ToBSON_Gt_of_Max lib mx [] mx (Max_singleton mx) hmxnull
    obtain ⟨l1, l2⟩ := ToBSON_Lt_of_Min lib v rest mn hmn hmnnull
    obtain ⟨l3, l4⟩ := ToBSON_Lt_of_Min lib mn [] mn (Min_singleton mn) hmnnull
    refine ⟨mx, mn, hmx, hmn, g1, g1.trans g3.symm, g2, g2.trans g4.symm,
      l1, l1.trans l3.symm, l2, l2.trans l4.symm, fun hn => ?_⟩
    have ho : ∀ u ∈ v :: rest, orderable c u = true :=
      fun u hu => (orderable_iff c u).mpr ⟨(h u hu).1, (h u hu).2, hn u hu⟩
    obtain ⟨m1, e1, _, hmxtop⟩ := Max_orderable hlib c (v :: rest) hne ho
    obtain ⟨m2, e2, _, hmnbot⟩ := Min_orderable hlib c (v :: rest) hne ho
    rw [hmx] at e1
    rw [hmn] at e2
    simp only [Option.some.injEq] at e1 e2
    subst e1
    subst e2
    have hmxc := ho mx hmxmem
    have hmnc := ho mn hmnmem
    constructor
    · intro x hx
      constructor
      · intro hbx u hu
        cases hux : below u x with
        | true => rfl
        | false =>
          have := below_negtrans c mx u x hmxc (ho u hu) hx (hmxtop u hu) hux
          rw [this] at hbx
          exact absurd hbx (by simp)
      · exact fun hall => hall mx hmxmem
    · intro x hx
      constructor
      · intro hbx u hu
        cases hux : below x u with
        | true => rfl
        | false =>
          have := below_negtrans c x u mn hx (ho u hu) hmnc hux (hmnbot u hu)
          rw [this] at hbx
          exact absurd hbx (by simp)
      · exact fun hall => hall mn hmnmem

theorem Gt_Lt_collapse_witness :
    SortsSlices ∧
    [Value.int 3, .int 2, .int 5, .int 1, .int 7, .int 4, .int 6] ≠ [] ∧
    (∀ v ∈ [Value.int 3, .int 2, .int 5, .int 1, .int 7, .int 4, .int 6],
      inClass .numeric v = true ∧ isTimePtr v = false) ∧
    (∀ v ∈ [Value.int 3, .int 2, .int 5, .int 1, .int 7, .int 4, .int 6], isNaN v = false) ∧
    ∃ mx mn, Max [.int 3, .int 2, .int 5, .int 1, .int 7, .int 4, .int 6] = some mx ∧
      Min [.int 3, .int 2, .int 5, .int 1, .int 7, .int 4, .int 6] = some mn ∧
      Operator.ToBSON (fun _ => "") OperatorGt [.int 3, .int 2, .int 5, .int 1, .int 7, .int 4, .int 6]
        = some (some [("$gt", .val mx)]) ∧
      Operator.ToBSON (fun _ => "") OperatorGt [.int 3, .int 2, .int 5, .int 1, .int 7, .int 4, .int 6]
        = Operator.ToBSON (fun _ => "") OperatorGt [mx] ∧
      Operator.ToBSON (fun _ => "") OperatorGte [.int 3, .int 2, .int 5, .int 1, .int 7, .int 4, .int 6]
        = some (some [("$gte", .val mx)]) ∧
      Operator.ToBSON (fun _ => "") OperatorGte [.int 3, .int 2, .int 5, .int 1, .int 7, .int 4, .int 6]
        = Operator.ToBSON (fun _ => "") OperatorGte [mx] ∧
      Operator.ToBSON (fun _ => "") OperatorLt [.int 3, .int 2, .int 5, .int 1, .int 7, .int 4, .int 6]
        = some (some [("$lt", .val mn)]) ∧
      Operator.ToBSON (fun _ => "") OperatorLt [.int 3, .int 2, .int 5, .int 1, .int 7, .int 4, .int 6]
        = Operator.ToBSON (fun _ => "") OperatorLt [mn] ∧
      Operator.ToBSON (fun _ => "") OperatorLte [.int 3, .int 2, .int 5, .int 1, .int 7, .int 4, .int 6]
        = some (some [("$lte", .val mn)]) ∧
      Operator.ToBSON (fun _ => "") OperatorLte [.int 3, .int 2, .int 5, .int 1, .int 7, .int 4, .int 6]
        = Operator.ToBSON (fun _ => "") OperatorLte [mn] ∧
      ((∀ v ∈ [Value.int 3, .int 2, .int 5, .int 1, .int 7, .int 4, .int 6], isNaN v = false) →
        (∀ x, orderable .numeric x = true →
          (below mx x = true ↔
            ∀ v ∈ [Value.int 3, .int 2, .int 5, .int 1, .int 7, .int 4, .int 6], below v x = true)) ∧
        (∀ x, orderable .numeric x = true →
          (below x mn = true ↔
            ∀ v ∈ [Value.int 3, .int 2, .int 5, .int 1, .int 7, .int 4, .int 6], below x v = true))) :=
  ⟨insertionSorter_sorts, by decide, by decide, by decide,
    Gt_Lt_collapse insertionSorter_sorts (fun _ => "") .numeric [.int 3, .int 2, .int 5, .int 1, .int 7, .int 4, .int 6] (by decide)
      (by decide)⟩

/-- C2 as stated fails.  For the numbers NaN, 1 the maximum is 1 and Gt renders `$gt: 1`, yet 2
is above 1 without being above NaN; for the integers 2^53 + 1, 2^53 the maximum is 2^53
and Gt renders `$gt: 2^53`, yet 2^53 + 1 is above 2^53 by value without being above
itself.  Hence being above `Max(vals)` is not, for every non-empty list of one class, the
same as being above every element. -/
theorem Gt_collapse_lossy :
    (∀ v ∈ [Value.float .nan, .float (.fin 1)], inClass .numeric v = true) ∧
    Max [.float .nan, .float (.fin 1)] = some (.float (.fin 1)) ∧
    (∀ lib, Operator.ToBSON lib OperatorGt [.float .nan, .float (.fin 1)]
      = some (some [("$gt", .val (.float (.fin 1)))])) ∧
    below (.float (.fin 1)) (.float (.fin 2)) = true ∧
    below (.float .nan) (.float (.fin 2)) = false ∧
    (∀ v ∈ [Value.int 9007199254740993, .int 9007199254740992], inClass .numeric v = true) ∧
    Max [.int 9007199254740993, .int 9007199254740992] = some (.int 9007199254740992) ∧
    (∀ lib, Operator.ToBSON lib OperatorGt [.int 9007199254740993, .int 9007199254740992]
      = some (some [("$gt", .val (.int 9007199254740992))])) ∧
    belowByValue (.int 9007199254740992) (.int 9007199254740993) ∧
    ¬ belowByValue (.int 9007199254740993) (.int 9007199254740993) ∧
    ¬ (∀ (c : Class) (vals : List Value), vals ≠ [] → (∀ v ∈ vals, inClass c v = true) →
      ∃ m, Max vals = some m ∧
        ∀ x, inClass c x = true → (belowByValue m x ↔ ∀ v ∈ vals, belowByValue v x)) := by
  have hirr : ¬ belowByValue (.int 9007199254740993) (.int 9007199254740993) := by
    rintro ⟨x, y, hx, hy, hlt⟩
    simp only [exactValue, Option.some.injEq] at hx hy
    rw [← hx, ← hy] at hlt
    exact lt_irrefl _ hlt
  refine ⟨by decide, by decide, fun _ => rfl, by decide, by decide, by decide, by decide,
    fun _ => rfl, belowByValue_pair, hirr, ?_⟩
  intro hall
  obtain ⟨m, h1, h3⟩ :=
    hall .numeric [.int 9007199254740993, .int 9007199254740992] (by decide) (by decide)
  have h2 : Max [.int 9007199254740993, .int 9007199254740992]
      = some (.int 9007199254740992) := by decide
  rw [h2] at h1
  simp only [Option.some.injEq] at h1
  subst h1
  exact hirr ((h3 (.int 9007199254740993) (by decide)).mp belowByValue_pair
    (.int 9007199254740993) (List.mem_cons_self _ _))

/-- C6: Eq renders one value `v` as `$eq: v` and two or more values as `$in` with the slice
of all the values, in the given order, duplicates kept; Ne renders one value as `$ne: v` and
two or more as `$nin` with the slice of all the values. -/
theorem Eq_Ne_ToBSON [SliceSorter] (lib : Value → String) (v w : Value) (rest : List Value) :
    Operator.ToBSON lib OperatorEq [v] = some (some [("$eq", .val v)]) ∧
    Operator.ToBSON lib OperatorEq (v :: w :: rest)
      = some (some [("$in", .vals (v :: w :: rest))]) ∧
    Operator.ToBSON lib OperatorNe [v] = some (some [("$ne", .val v)]) ∧
    Operator.ToBSON lib OperatorNe (v :: w :: rest)
      = some (some [("$nin", .vals (v :: w :: rest))]) := by
  simp [Operator.ToBSON, OperatorEq, OperatorNe]

/-- C7: Like renders `v, rest...` as it renders `v` alone, the regex whose pattern is the
printed form of the first value; the further values are ignored. -/
theorem Like_first_value_only [SliceSorter] (lib : Value → String) (v : Value) (rest : List Value) :
    Operator.ToBSON lib OperatorLike (v :: rest) = Operator.ToBSON lib OperatorLike [v] ∧
    Operator.ToBSON lib OperatorLike [v] = some (some [("$regex", .regex (Sprint lib v))]) := by
  simp [Operator.ToBSON, OperatorEq, OperatorNe, OperatorGt, OperatorGte, OperatorLt,
    OperatorLte, OperatorLike]

end bsonbuilder

namespace controllers

open bsonbuilder

/-! ## The suffixes of `QueryBSON` -/

theorem suffixes_exclusive :
    ∀ e1 ∈ suffixes, ∀ e2 ∈ suffixes, e1.1.data <:+ e2.1.data → e1 = e2 := by
  decide

theorem HasSuffix_unique (key : String) (e1 e2 : String × Operator)
    (h1 : e1 ∈ suffixes) (h2 : e2 ∈ suffixes)
    (m1 : HasSuffix key e1.1 = true) (m2 : HasSuffix key e2.1 = true) : e1 = e2 := by
  simp only [HasSuffix, decide_eq_true_eq] at m1 m2
  rcases Nat.le_total e1.1.data.length e2.1.data.length with hle | hle
  · exact suffixes_exclusive e1 h1 e2 h2 (List.suffix_of_suffix_length_le m1 m2 hle)
  · exact (suffixes_exclusive e2 h2 e1 h1 (List.suffix_of_suffix_length_le m2 m1 hle)).symm

theorem splitKey_match (key : String) (e : String × Operator) :
    ∀ (table : List (String × Operator)), e ∈ table → HasSuffix key e.1 = true →
      (∀ e1 ∈ table, HasSuffix key e1.1 = true → e1 = e) →
      splitKey table key = (TrimSuffix key e.1, e.2) := by
  intro table
  induction table with
  | nil => intro h; simp at h
  | cons e1 table ih =>
    intro hmem hm huniq
    obtain ⟨s1, o1⟩ := e1
    by_cases h1 : HasSuffix key s1 = true
    · have := huniq (s1, o1) (List.mem_cons_self _ _) h1
      subst this
      simp [splitKey, h1]
    · have hmem1 : e ∈ table := by
        rcases List.mem_cons.mp hmem with h | h
        · subst h
          exact absurd hm h1
        · exact h
      simp only [splitKey, h1, Bool.false_eq_true, ↓reduceIte]
      exact ih hmem1 hm (fun e2 h2 => huniq e2 (List.mem_cons_of_mem _ h2))

theorem splitKey_none (key : String) :
    ∀ (table : List (String × Operator)), (∀ e ∈ table, HasSuffix key e.1 = false) →
      splitKey table key = (key, OperatorEq) := by
  intro table
  induction table with
  | nil => intro _; rfl
  | cons e1 table ih =>
    intro h
    obtain ⟨s1, o1⟩ := e1
    have h1 : HasSuffix key s1 = false := h (s1, o1) (List.mem_cons_self _ _)
    simp only [splitKey, h1, Bool.false_eq_true, ↓reduceIte]
    exact ih (fun e he => h e (List.mem_cons_of_mem _ he))

theorem TrimSuffix_append (key suffix : String) (h : HasSuffix key suffix = true) :
    (TrimSuffix key suffix).data ++ suffix.data = key.data := by
  simp only [HasSuffix, decide_eq_true_eq] at h
  have h1 : HasSuffix key suffix = true := by simpa [HasSuffix] using h
  obtain ⟨t, ht⟩ := h
  simp only [TrimSuffix, h1, ↓reduceIte]
  rw [← ht]
  simp

/-- C9: for every key at most one of the six suffixes is a suffix of the key, so whatever
the order `table` in which the suffixes are tried, `QueryBSON` chooses the same operator and
field: the operator of the matching suffix and the key with that suffix removed, or Eq and
the key unchanged when no suffix matches. -/
theorem splitKey_order_irrelevant (key : String) (table : List (String × Operator))
    (hperm : table.Perm suffixes) :
    (∀ e1 ∈ suffixes, ∀ e2 ∈ suffixes,
      HasSuffix key e1.1 = true → HasSuffix key e2.1 = true → e1 = e2) ∧
    splitKey table key = splitKey suffixes key ∧
    (∀ e ∈ suffixes, HasSuffix key e.1 = true →
      splitKey table key = (TrimSuffix key e.1, e.2) ∧
      (TrimSuffix key e.1).data ++ e.1.data = key.data) ∧
    ((∀ e ∈ suffixes, HasSuffix key e.1 = false) → splitKey table key = (key, OperatorEq)) := by
  have huniq := fun e1 h1 e2 h2 => HasSuffix_unique key e1 e2 h1 h2
  have hmatch : ∀ (t : List (String × Operator)), t.Perm suffixes → ∀ e ∈ suffixes,
      HasSuffix key e.1 = true → splitKey t key = (TrimSuffix key e.1, e.2) :=
    fun t ht e he hm => splitKey_match key e t (ht.symm.subset he) hm
      (fun e1 h1 m1 => huniq e1 (ht.subset h1) e he m1 hm)
  have hnone : ∀ (t : List (String × Operator)), t.Perm suffixes →
      (∀ e ∈ suffixes, HasSuffix key e.1 = false) → splitKey t key = (key, OperatorEq) :=
    fun t ht h => splitKey_none key t (fun e he => h e (ht.subset he))
  refine ⟨huniq, ?_, fun e he hm => ⟨hmatch table hperm e he hm, TrimSuffix_append key e.1 hm⟩,
    hnone table hperm⟩
  by_cases hex : ∃ e ∈ suffixes, HasSuffix key e.1 = true
  · obtain ⟨e, he, hm⟩ := hex
    rw [hmatch table hperm e he hm, hmatch suffixes (List.Perm.refl _) e he hm]
  · have hall : ∀ e ∈ suffixes, HasSuffix key e.1 = false := by
      intro e he
      cases hm : HasSuffix key e.1 with
      | false => rfl
      | true => exact absurd ⟨e, he, hm⟩ hex
    rw [hnone table hperm hall, hnone suffixes (List.Perm.refl _) hall]

theorem splitKey_order_irrelevant_witness :
    (suffixes.reverse).Perm suffixes ∧
    (∀ e1 ∈ suffixes, ∀ e2 ∈ suffixes,
      HasSuffix "age_gte" e1.1 = true → HasSuffix "age_gte" e2.1 = true → e1 = e2) ∧
    splitKey suffixes.reverse "age_gte" = splitKey suffixes "age_gte" ∧
    (∀ e ∈ suffixes, HasSuffix "age_gte" e.1 = true →
      splitKey suffixes.reverse "age_gte" = (TrimSuffix "age_gte" e.1, e.2) ∧
      (TrimSuffix "age_gte" e.1).data ++ e.1.data = "age_gte".data) ∧
    ((∀ e ∈ suffixes, HasSuffix "age_gte" e.1 = false) →
      splitKey suffixes.reverse "age_gte" = ("age_gte", OperatorEq)) :=
  ⟨List.reverse_perm _, splitKey_order_irrelevant "age_gte" suffixes.reverse (List.reverse_perm _)⟩

/-! ## `strings.Replace` of `.id` by `._id` -/

theorem replaceScan_match (rest : List Char) :
    replaceScan ['.', 'i', 'd'] ['.', '_', 'i', 'd'] 0 ('.' :: 'i' :: 'd' :: rest)
      = '.' :: '_' :: 'i' :: 'd' :: replaceScan ['.', 'i', 'd'] ['.', '_', 'i', 'd'] 0 rest := by
  simp [replaceScan]

theorem replaceScan_miss (c : Char) (cs : List Char) (h : ¬ ['.', 'i', 'd'] <+: c :: cs) :
    replaceScan ['.', 'i', 'd'] ['.', '_', 'i', 'd'] 0 (c :: cs)
      = c :: replaceScan ['.', 'i', 'd'] ['.', '_', 'i', 'd'] 0 cs := by
  simp [replaceScan, h]

theorem prefix_id_cases (s : List Char) (h : ['.', 'i', 'd'] <+: s) :
    ∃ rest, s = '.' :: 'i' :: 'd' :: rest := by
  obtain ⟨rest, hr⟩ := h
  exact ⟨rest, by simpa using hr.symm⟩

theorem replaceScan_head (s : List Char) (c : Char) (t : List Char) (hc : c ≠ '.')
    (h : replaceScan ['.', 'i', 'd'] ['.', '_', 'i', 'd'] 0 s = c :: t) :
    ∃ s1, s = c :: s1 ∧ replaceScan ['.', 'i', 'd'] ['.', '_', 'i', 'd'] 0 s1 = t := by
  cases s with
  | nil => simp [replaceScan] at h
  | cons c0 cs =>
    by_cases hp : ['.', 'i', 'd'] <+: c0 :: cs
    · obtain ⟨rest, hr⟩ := prefix_id_cases _ hp
      rw [hr, replaceScan_match] at h
      simp only [List.cons.injEq] at h
      exact absurd h.1.symm hc
    · rw [replaceScan_miss c0 cs hp] at h
      simp only [List.cons.injEq] at h
      exact ⟨cs, by rw [h.1], h.2⟩

theorem replaceScan_no_id :
    ∀ (n : Nat) (s : List Char), s.length ≤ n →
      ¬ ['.', 'i', 'd'] <:+: replaceScan ['.', 'i', 'd'] ['.', '_', 'i', 'd'] 0 s := by
  intro n
  induction n with
  | zero =>
    intro s hs
    have : s = [] := List.length_eq_zero.mp (Nat.le_zero.mp hs)
    subst this
    simp [replaceScan]
  | succ n ih =>
    intro s hs
    cases s with
    | nil => simp [replaceScan]
    | cons c cs =>
      have hcs : cs.length ≤ n := by simpa using hs
      by_cases hp : ['.', 'i', 'd'] <+: c :: cs
      · obtain ⟨rest, hr⟩ := prefix_id_cases _ hp
        have hrest : rest.length ≤ n := by
          have : (c :: cs).length = ('.' :: 'i' :: 'd' :: rest).length := by rw [hr]
          simp only [List.length_cons] at this hs
          omega
        rw [hr, replaceScan_match]
        intro hin
        rcases List.infix_cons_iff.mp hin with h | h
        · simp at h
        · rcases List.infix_cons_iff.mp h with h | h
          · simp at h
          · rcases List.infix_cons_iff.mp h with h | h
            · simp at h
            · rcases List.infix_cons_iff.mp h with h | h
              · simp at h
              · exact ih rest hrest h
      · rw [replaceScan_miss c cs hp]
        intro hin
        rcases List.infix_cons_iff.mp hin with h | h
        · obtain ⟨t, ht⟩ := h
          simp only [List.cons_append, List.cons.injEq, List.nil_append] at ht
          obtain ⟨hc, ht⟩ := ht
          obtain ⟨s1, hs1, ht1⟩ := replaceScan_head cs 'i' _ (by decide) ht.symm
          obtain ⟨s2, hs2, _⟩ := replaceScan_head s1 'd' _ (by decide) ht1
          apply hp
          rw [← hc, hs1, hs2]
          exact ⟨s2, rfl⟩
        · exact ih cs hcs h

theorem Replace_no_id (s : String) : Contains (Replace s ".id" "._id") ".id" = false := by
  have h := replaceScan_no_id s.data.length s.data (Nat.le_refl _)
  simpa [Contains, Replace] using h

/-! ## The coercion chain and the identifier rule -/

theorem convert_eq_findSome (convertors : List (String → String → Value))
    (actualKey val : String) :
    convert convertors actualKey val =
      (convertors.map
        (fun c => if c actualKey val = .null then none else some (c actualKey val))).findSome? id := by
  induction convertors with
  | nil => rfl
  | cons c cs ih =>
    by_cases h : c actualKey val = .null
    · simp [convert, h, ih]
    · simp [convert, h]

theorem coerce_eq_firstSuccess (lib : Lib) (convertors : List (String → String → Value))
    (actualKey val : String) :
    coerce lib convertors actualKey val
      = firstSuccess (attempts lib convertors actualKey val) val := by
  unfold coerce firstSuccess attempts
  rw [convert_eq_findSome]
  cases ParseInt val <;> cases lib.parseFloat val <;> cases ParseBool val <;>
    cases lib.parseTime val <;> simp [List.findSome?_append]
  cases List.findSome? id
    (List.map (fun c => if c actualKey val = Value.null then none else some (c actualKey val))
      convertors) <;> rfl

/-- C8: for a raw value that the identifier rule does not capture, the value `QueryBSON`
adds is the first success among, in this order, base-10 integer, 64-bit float, boolean,
timestamp, the custom convertors in call order (a `nil` result is a miss), and otherwise the
raw string.  Every value that parses as an integer is added as that integer: `"1"` and
`"0"`, which the boolean parser accepts, are added as 1 and 0. -/
theorem QueryBSON_coercion_order (lib : Lib) (convertors : List (String → String → Value))
    (table : List (String × Operator)) (q : query) (key val : String)
    (hid : idRule q (splitKey table key).1 (splitKey table key).2 val = none) :
    addParam lib convertors table q key val
      = q.Add (splitKey table key).1 (splitKey table key).2
          [firstSuccess (attempts lib convertors (splitKey table key).1 val) val] ∧
    (∀ i, ParseInt val = some i →
      addParam lib convertors table q key val
        = q.Add (splitKey table key).1 (splitKey table key).2 [.int i]) ∧
    ParseInt "1" = some 1 ∧ ParseBool "1" = some true ∧
    ParseInt "0" = some 0 ∧ ParseBool "0" = some false := by
  have h1 : addParam lib convertors table q key val
      = q.Add (splitKey table key).1 (splitKey table key).2
          [coerce lib convertors (splitKey table key).1 val] := by
    simp [addParam, hid]
  refine ⟨by rw [h1, coerce_eq_firstSuccess], ?_, by decide, by decide, by decide, by decide⟩
  intro i hi
  rw [h1]
  simp [coerce, hi]

theorem QueryBSON_coercion_order_witness :
    idRule New (splitKey suffixes "age_gt").1 (splitKey suffixes "age_gt").2 "1" = none ∧
    (addParam ⟨fun _ => "", fun _ => none, fun _ => none⟩ [] suffixes New "age_gt" "1"
      = New.Add (splitKey suffixes "age_gt").1 (splitKey suffixes "age_gt").2
          [firstSuccess (attempts ⟨fun _ => "", fun _ => none, fun _ => none⟩ []
            (splitKey suffixes "age_gt").1 "1") "1"] ∧
    (∀ i, ParseInt "1" = some i →
      addParam ⟨fun _ => "", fun _ => none, fun _ => none⟩ [] suffixes New "age_gt" "1"
        = New.Add (splitKey suffixes "age_gt").1 (splitKey suffixes "age_gt").2 [.int i]) ∧
    ParseInt "1" = some 1 ∧ ParseBool "1" = some true ∧
    ParseInt "0" = some 0 ∧ ParseBool "0" = some false) :=
  ⟨by decide,
    QueryBSON_coercion_order ⟨fun _ => "", fun _ => none, fun _ => none⟩ [] suffixes New
      "age_gt" "1" (by decide)⟩

theorem Contains_id : Contains "id" ".id" = false := by decide

/-- C10: for every value that is a valid 24-hex-character identifier, a suffix-stripped field
equal to `id` is added as `_id`, and one that contains `.id` is added with every `.id`
replaced by `._id` (no `.id` is left), both with the object identifier as value, not a
string; for every other value the field name is unchanged and the value goes through the
coercion chain. -/
theorem QueryBSON_id_rewrite (lib : Lib) (convertors : List (String → String → Value))
    (table : List (String × Operator)) (q : query) (key val : String) :
    (IsObjectIdHex val = true → (splitKey table key).1 = "id" →
      addParam lib convertors table q key val
        = q.Add "_id" (splitKey table key).2 [ObjectIdHex val]) ∧
    (IsObjectIdHex val = true → Contains (splitKey table key).1 ".id" = true →
      addParam lib convertors table q key val
        = q.Add (Replace (splitKey table key).1 ".id" "._id") (splitKey table key).2
            [ObjectIdHex val]) ∧
    Contains (Replace (splitKey table key).1 ".id" "._id") ".id" = false ∧
    (∃ hex, ObjectIdHex val = .objectId hex) ∧
    (IsObjectIdHex val = false →
      addParam lib convertors table q key val
        = q.Add (splitKey table key).1 (splitKey table key).2
            [coerce lib convertors (splitKey table key).1 val]) := by
  refine ⟨?_, ?_, Replace_no_id _, ⟨_, rfl⟩, ?_⟩
  · intro hv hk
    simp [addParam, idRule, hv, hk]
  · intro hv hk
    have hne : (splitKey table key).1 ≠ "id" := by
      intro e
      rw [e, Contains_id] at hk
      exact absurd hk (by simp)
    simp [addParam, idRule, hv, hk, hne]
  · intro hv
    simp [addParam, idRule, hv]

theorem QueryBSON_id_rewrite_witness :
    IsObjectIdHex "58db2700cf2f6715b00021a7" = true ∧
    (splitKey suffixes "id_ne").1 = "id" ∧
    addParam ⟨fun _ => "", fun _ => none, fun _ => none⟩ [] suffixes New "id_ne"
        "58db2700cf2f6715b00021a7"
      = New.Add "_id" (splitKey suffixes "id_ne").2 [ObjectIdHex "58db2700cf2f6715b00021a7"] ∧
    Contains (splitKey suffixes "user.id").1 ".id" = true ∧
    addParam ⟨fun _ => "", fun _ => none, fun _ => none⟩ [] suffixes New "user.id"
        "58db2700cf2f6715b00021a7"
      = New.Add (Replace (splitKey suffixes "user.id").1 ".id" "._id")
          (splitKey suffixes "user.id").2 [ObjectIdHex "58db2700cf2f6715b00021a7"] ∧
    IsObjectIdHex "mary" = false ∧
    addParam ⟨fun _ => "", fun _ => none, fun _ => none⟩ [] suffixes New "id" "mary"
      = New.Add (splitKey suffixes "id").1 (splitKey suffixes "id").2
          [coerce ⟨fun _ => "", fun _ => none, fun _ => none⟩ [] (splitKey suffixes "id").1
            "mary"] :=
  ⟨by decide, by decide,
    (QueryBSON_id_rewrite ⟨fun _ => "", fun _ => none, fun _ => none⟩ [] suffixes New "id_ne"
      "58db2700cf2f6715b00021a7").1 (by decide) (by decide),
    by decide,
    (QueryBSON_id_rewrite ⟨fun _ => "", fun _ => none, fun _ => none⟩ [] suffixes New "user.id"
      "58db2700cf2f6715b00021a7").2.1 (by decide) (by decide),
    by decide,
    (QueryBSON_id_rewrite ⟨fun _ => "", fun _ => none, fun _ => none⟩ [] suffixes New "id"
      "mary").2.2.2.2 (by decide)⟩

end controllers

namespace bsonbuilder

/-! ## Maps as association lists -/

theorem get_set {κ α : Type} [DecidableEq κ] (m : List (κ × α)) (k k1 : κ) (a : α) :
    get (set m k a) k1 = if k = k1 then some a else get m k1 := by
  induction m with
  | nil => simp [set, get]
  | cons e m ih =>
    obtain ⟨k0, b⟩ := e
    by_cases h0 : k0 = k
    · subst h0
      by_cases h1 : k0 = k1 <;> simp [set, get, h1]
    · by_cases h1 : k = k1
      · subst h1
        simp [set, get, h0, ih]
      · by_cases h2 : k0 = k1
        · subst h2
          simp [set, get, h0, h1]
        · simp [set, get, h0, h1, h2, ih]

theorem get_eq_none {κ α : Type} [DecidableEq κ] (m : List (κ × α)) (k : κ) :
    get m k = none ↔ k ∉ m.map Prod.fst := by
  induction m with
  | nil => simp [get]
  | cons e m ih =>
    obtain ⟨k0, b⟩ := e
    by_cases h : k0 = k
    · simp [get, h]
    · simp only [get, h, ↓reduceIte, ih, List.map_cons, List.mem_cons, not_or]
      exact ⟨fun h1 => ⟨fun e => h e.symm, h1⟩, fun h1 => h1.2⟩

theorem mem_of_get {κ α : Type} [DecidableEq κ] (m : List (κ × α)) (k : κ) (a : α)
    (h : get m k = some a) : (k, a) ∈ m := by
  induction m with
  | nil => simp [get] at h
  | cons e m ih =>
    obtain ⟨k0, b⟩ := e
    by_cases h0 : k0 = k
    · simp only [get, h0, ↓reduceIte, Option.some.injEq] at h
      simp [h0, h]
    · simp only [get, h0, ↓reduceIte] at h
      exact List.mem_cons_of_mem _ (ih h)

theorem get_of_mem {κ α : Type} [DecidableEq κ] (m : List (κ × α)) (k : κ) (a : α)
    (hnd : (m.map Prod.fst).Nodup) (h : (k, a) ∈ m) : get m k = some a := by
  induction m with
  | nil => simp at h
  | cons e m ih =>
    obtain ⟨k0, b⟩ := e
    simp only [List.map_cons, List.nodup_cons] at hnd
    rcases List.mem_cons.mp h with h1 | h1
    · simp only [Prod.mk.injEq] at h1
      simp [get, h1.1, h1.2]
    · have hk : k ∈ m.map Prod.fst := List.mem_map.mpr ⟨(k, a), h1, rfl⟩
      have hne : k0 ≠ k := fun e => hnd.1 (e ▸ hk)
      simp only [get, hne, ↓reduceIte]
      exact ih hnd.2 h1

theorem keys_set {κ α : Type} [DecidableEq κ] (m : List (κ × α)) (k : κ) (a : α) :
    (set m k a).map Prod.fst
      = if k ∈ m.map Prod.fst then m.map Prod.fst else m.map Prod.fst ++ [k] := by
  induction m with
  | nil => simp [set]
  | cons e m ih =>
    obtain ⟨k0, b⟩ := e
    by_cases h0 : k0 = k
    · simp [set, h0]
    · have h1 : ¬ k = k0 := fun e => h0 e.symm
      by_cases h2 : k ∈ m.map Prod.fst
      · simp only [set, h0, ↓reduceIte, List.map_cons, ih, h2, List.mem_cons, or_true]
      · simp only [set, h0, ↓reduceIte, List.map_cons, ih, h2, List.mem_cons, h1, or_self,
          List.cons_append]

theorem nodup_set {κ α : Type} [DecidableEq κ] (m : List (κ × α)) (k : κ) (a : α)
    (h : (m.map Prod.fst).Nodup) : ((set m k a).map Prod.fst).Nodup := by
  rw [keys_set]
  split
  · exact h
  · rename_i hk
    exact List.nodup_append.mpr ⟨h, List.nodup_singleton _, by
      intro x hx hx1
      rw [List.mem_singleton] at hx1
      exact hk (hx1 ▸ hx)⟩

theorem mem_set {κ α : Type} [DecidableEq κ] (m : List (κ × α)) (k : κ) (a : α)
    (e : κ × α) (h : e ∈ set m k a) : e = (k, a) ∨ e ∈ m := by
  induction m with
  | nil => simpa [set] using h
  | cons e0 m ih =>
    obtain ⟨k0, b⟩ := e0
    by_cases h0 : k0 = k
    · simp only [set, h0, ↓reduceIte, List.mem_cons] at h
      rcases h with h | h
      · exact Or.inl h
      · exact Or.inr (List.mem_cons_of_mem _ h)
    · simp only [set, h0, ↓reduceIte, List.mem_cons] at h
      rcases h with h | h
      · exact Or.inr (h ▸ List.mem_cons_self _ _)
      · rcases ih h with h1 | h1
        · exact Or.inl h1
        · exact Or.inr (List.mem_cons_of_mem _ h1)

/-! ## The state of the builder -/

theorem Add_get (q : query) (key : String) (op : Operator) (val : List Value) (f : String) :
    get (q.Add key op val) f =
      if key = f then
        some (set ((get q key).getD []) op ((get2 q key op).getD [] ++ val))
      else get q f := by
  unfold query.Add query.init get2
  cases h : get q key with
  | none =>
    by_cases hf : key = f
    · simp [get_set, hf, get]
    · simp [get_set, hf]
  | some ops =>
    by_cases hf : key = f
    · subst hf
      simp [get_set, h]
    · simp [get_set, hf]

theorem Add_get2 (q : query) (key : String) (op : Operator) (val : List Value)
    (f : String) (o : Operator) :
    get2 (q.Add key op val) f o =
      if f = key ∧ o = op then some ((get2 q f o).getD [] ++ val) else get2 q f o := by
  unfold get2
  rw [Add_get]
  by_cases hf : key = f
  · subst hf
    by_cases ho : op = o
    · subst ho
      simp [get_set, get2]
    · have ho1 : ¬ o = op := fun e => ho e.symm
      rw [if_pos rfl, if_neg (fun e => ho1 e.2)]
      show get (set ((get q key).getD []) op ((get2 q key op).getD [] ++ val)) o = _
      rw [get_set, if_neg ho]
      cases get q key <;> simp [get]
  · have hf1 : ¬ f = key := fun e => hf e.symm
    rw [if_neg hf, if_neg (fun e => hf1 e.1)]

theorem Distinct_Add (q : query) (key : String) (op : Operator) (val : List Value)
    (h : Distinct q) : Distinct (q.Add key op val) := by
  have hinit : Distinct (query.init q key) := by
    unfold query.init
    cases hg : get q key with
    | none =>
      refine ⟨nodup_set _ _ _ h.1, ?_⟩
      intro e he
      rcases mem_set _ _ _ _ he with h1 | h1
      · simp [h1]
      · exact h.2 e h1
    | some ops => exact h
  unfold query.Add
  refine ⟨nodup_set _ _ _ hinit.1, ?_⟩
  intro e he
  rcases mem_set _ _ _ _ he with h1 | h1
  · rw [h1]
    apply nodup_set
    cases hg : get (query.init q key) key with
    | none => simp
    | some ops => exact hinit.2 _ (mem_of_get _ _ _ hg)
  · exact hinit.2 e h1

theorem Distinct_foldl (adds : List AddCall) :
    ∀ q : query, Distinct q → Distinct (adds.foldl (fun q a => q.Add a.key a.op a.val) q) := by
  induction adds with
  | nil => intro q h; exact h
  | cons a adds ih => intro q h; exact ih _ (Distinct_Add q a.key a.op a.val h)

theorem Distinct_build (adds : List AddCall) : Distinct (build adds) :=
  Distinct_foldl adds New ⟨List.nodup_nil, by simp [New]⟩

theorem valuesUnder_nil (adds : List AddCall) (f : String) (o : Operator)
    (h : ¬ ∃ a ∈ adds, a.key = f ∧ a.op = o) : valuesUnder adds f o = [] := by
  induction adds with
  | nil => rfl
  | cons a adds ih =>
    have h1 : ¬ (a.key = f ∧ a.op = o) := fun e => h ⟨a, List.mem_cons_self _ _, e⟩
    have h2 : ¬ ∃ b ∈ adds, b.key = f ∧ b.op = o :=
      fun ⟨b, hb, e⟩ => h ⟨b, List.mem_cons_of_mem _ hb, e⟩
    simp [valuesUnder, h1, ih h2]

theorem foldl_get2 (f : String) (o : Operator) (adds : List AddCall) :
    ∀ q : query, get2 (adds.foldl (fun q a => q.Add a.key a.op a.val) q) f o =
      if ∃ a ∈ adds, a.key = f ∧ a.op = o then
        some ((get2 q f o).getD [] ++ valuesUnder adds f o)
      else get2 q f o := by
  induction adds with
  | nil => intro q; simp
  | cons a adds ih =>
    intro q
    rw [List.foldl_cons, ih, Add_get2]
    by_cases ha : a.key = f ∧ a.op = o
    · have ha1 : f = a.key ∧ o = a.op := ⟨ha.1.symm, ha.2.symm⟩
      have hex : ∃ b ∈ a :: adds, b.key = f ∧ b.op = o := ⟨a, List.mem_cons_self _ _, ha⟩
      rw [if_pos hex, if_pos ha1]
      by_cases hrest : ∃ b ∈ adds, b.key = f ∧ b.op = o
      · rw [if_pos hrest]
        simp [valuesUnder, ha]
      · rw [if_neg hrest, valuesUnder, if_pos ha, valuesUnder_nil adds f o hrest,
          List.append_nil]
    · have ha1 : ¬ (f = a.key ∧ o = a.op) := fun e => ha ⟨e.1.symm, e.2.symm⟩
      rw [if_neg ha1]
      by_cases hrest : ∃ b ∈ adds, b.key = f ∧ b.op = o
      · have hex : ∃ b ∈ a :: adds, b.key = f ∧ b.op = o :=
          hrest.elim fun b hb => ⟨b, List.mem_cons_of_mem _ hb.1, hb.2⟩
        rw [if_pos hrest, if_pos hex, valuesUnder, if_neg ha, List.nil_append]
      · have hex : ¬ ∃ b ∈ a :: adds, b.key = f ∧ b.op = o := by
          rintro ⟨b, hb, e⟩
          rcases List.mem_cons.mp hb with h1 | h1
          · exact ha (h1 ▸ e)
          · exact hrest ⟨b, h1, e⟩
        rw [if_neg hrest, if_neg hex]

theorem build_get2 (adds : List AddCall) (f : String) (o : Operator) :
    get2 (build adds) f o =
      if ∃ a ∈ adds, a.key = f ∧ a.op = o then some (valuesUnder adds f o) else none := by
  unfold build
  rw [foldl_get2]
  simp [get2, New, get]

theorem foldl_get_none (f : String) (adds : List AddCall) :
    ∀ q : query,
      get (adds.foldl (fun (q : query) (a : AddCall) => q.Add a.key a.op a.val) q) f = none ↔
      get q f = none ∧ ∀ a ∈ adds, a.key ≠ f := by
  induction adds with
  | nil => intro q; simp
  | cons a adds ih =>
    intro q
    rw [List.foldl_cons, ih, Add_get]
    by_cases ha : a.key = f
    · simp [ha]
    · simp [ha]

theorem build_get_none (adds : List AddCall) (f : String) :
    get (build adds) f = none ↔ ∀ a ∈ adds, a.key ≠ f := by
  unfold build
  rw [foldl_get_none]
  simp [New, get]

/-! ## Rendering -/

theorem ToBSON_shape [SliceSorter] (lib : Value → String) (o : Operator) (vals : List Value) (fr : M Elem)
    (h : Operator.ToBSON lib o vals = some (some fr)) :
    ∃ k e, fr = [(k, e)] ∧ opOfKey k = some o := by
  unfold Operator.ToBSON at h
  split at h
  · simp at h
  · simp only at h
    repeat' split at h
    all_goals first
      | (simp at h; done)
      | (simp only [Option.some.injEq] at h
         subst h
         refine ⟨_, _, rfl, ?_⟩
         simp_all [opOfKey, OperatorEq, OperatorNe, OperatorGt, OperatorGte, OperatorLt,
           OperatorLte, OperatorLike])

theorem fragment_shape [SliceSorter] (lib : Value → String) (e : Operator × List Value) :
    fragment lib e = none ∨ ∃ k v, fragment lib e = some [(k, v)] ∧ opOfKey k = some e.1 := by
  unfold fragment
  cases h : Operator.ToBSON lib e.1 e.2 with
  | none => exact Or.inl rfl
  | some r =>
    cases r with
    | none => exact Or.inl rfl
    | some fr =>
      obtain ⟨k, v, h1, h2⟩ := ToBSON_shape lib e.1 e.2 fr h
      exact Or.inr ⟨k, v, by simp [h1], h2⟩

theorem renderOps_none [SliceSorter] (lib : Value → String) (ops : List (Operator × List Value)) :
    ∀ qs, renderOps lib ops qs = none ↔ ∃ e ∈ ops, Operator.ToBSON lib e.1 e.2 = none := by
  induction ops with
  | nil => intro qs; simp [renderOps]
  | cons e ops ih =>
    intro qs
    obtain ⟨o, vals⟩ := e
    cases h : Operator.ToBSON lib o vals with
    | none => simp [renderOps, h]
    | some fr => simp [renderOps, h, ih]

theorem renderOps_some [SliceSorter] (lib : Value → String) (ops : List (Operator × List Value)) :
    ∀ qs r, renderOps lib ops qs = some r → r = qs ++ ops.map (fragment lib) := by
  induction ops with
  | nil => intro qs r h; simp [renderOps] at h; simp [h]
  | cons e ops ih =>
    intro qs r h
    obtain ⟨o, vals⟩ := e
    cases h1 : Operator.ToBSON lib o vals with
    | none => simp [renderOps, h1] at h
    | some fr =>
      simp only [renderOps, h1] at h
      rw [ih _ _ h]
      simp [fragment, h1]

theorem merge_fold_get (k : String) (v : Elem) (frs : List (Option (M Elem))) :
    ∀ bm : M Elem,
      (∀ fr ∈ frs, fr = none ∨ ∃ k1 v1, fr = some [(k1, v1)]) →
      frs.Pairwise (fun a b => ∀ k1 v1 v2, a = some [(k1, v1)] → b ≠ some [(k1, v2)]) →
      (get (frs.foldl MergeWithOverwrite bm) k = some v ↔
        some [(k, v)] ∈ frs ∨ ((∀ v1, some [(k, v1)] ∉ frs) ∧ get bm k = some v)) := by
  induction frs with
  | nil => intro bm _ _; simp
  | cons fr frs ih =>
    intro bm hshape hpw
    have hshape1 : ∀ fr1 ∈ frs, fr1 = none ∨ ∃ k1 v1, fr1 = some [(k1, v1)] :=
      fun fr1 h1 => hshape fr1 (List.mem_cons_of_mem _ h1)
    obtain ⟨hhead, hpw1⟩ := List.pairwise_cons.mp hpw
    rw [List.foldl_cons, ih _ hshape1 hpw1]
    rcases hshape fr (List.mem_cons_self _ _) with h | ⟨k1, v1, h⟩
    · subst h
      simp [MergeWithOverwrite]
    · subst h
      simp only [MergeWithOverwrite, List.foldl_cons, List.foldl_nil, get_set, List.mem_cons,
        Option.some.injEq, List.cons.injEq, Prod.mk.injEq, and_true, not_or, not_and]
      by_cases hk : k1 = k
      · subst hk
        have hno : ∀ v2, some [(k1, v2)] ∉ frs := fun v2 hm => hhead _ hm k1 v1 v2 rfl rfl
        constructor
        · rintro (h | ⟨_, h⟩)
          · exact absurd h (hno v)
          · simp only [↓reduceIte, Option.some.injEq] at h
            exact Or.inl (Or.inl ⟨rfl, h.symm⟩)
        · rintro (h | ⟨h, _⟩)
          · rcases h with h | h
            · exact Or.inr ⟨hno, by simp [h.2]⟩
            · exact absurd h (hno v)
          · exact absurd rfl ((h v1).1 rfl)
      · have hk1 : ¬ k = k1 := fun e => hk e.symm
        simp only [hk, ↓reduceIte, hk1, false_and, false_or, IsEmpty.forall_iff, implies_true,
          true_and]

theorem merge_get [SliceSorter] (lib : Value → String) (ops : List (Operator × List Value))
    (hnd : (ops.map Prod.fst).Nodup) (k : String) (v : Elem) :
    get (merge (ops.map (fragment lib))) k = some v ↔
      ∃ o vals fr, (o, vals) ∈ ops ∧ Operator.ToBSON lib o vals = some (some fr) ∧
        get fr k = some v := by
  have hshape : ∀ fr ∈ ops.map (fragment lib), fr = none ∨ ∃ k1 v1, fr = some [(k1, v1)] := by
    intro fr hfr
    obtain ⟨e, _, he⟩ := List.mem_map.mp hfr
    rcases fragment_shape lib e with h | ⟨k1, v1, h, _⟩
    · exact Or.inl (he ▸ h)
    · exact Or.inr ⟨k1, v1, he ▸ h⟩
  have hpw : (ops.map (fragment lib)).Pairwise
      (fun a b => ∀ k1 v1 v2, a = some [(k1, v1)] → b ≠ some [(k1, v2)]) := by
    rw [List.pairwise_map]
    have h1 : ops.Pairwise (fun a b => a.1 ≠ b.1) := List.pairwise_map.mp hnd
    refine h1.imp ?_
    intro a b hab k1 v1 v2 ha hb
    rcases fragment_shape lib a with h | ⟨ka, va, h, hka⟩
    · rw [h] at ha; simp at ha
    · rcases fragment_shape lib b with h2 | ⟨kb, vb, h2, hkb⟩
      · rw [h2] at hb; simp at hb
      · rw [h] at ha
        rw [h2] at hb
        simp only [Option.some.injEq, List.cons.injEq, Prod.mk.injEq, and_true] at ha hb
        rw [ha.1] at hka
        rw [hb.1, hka] at hkb
        exact hab (Option.some.inj hkb)
  unfold merge
  rw [merge_fold_get k v _ [] hshape hpw]
  simp only [get, List.mem_map]
  constructor
  · rintro (⟨e, he, hfr⟩ | ⟨_, hbm⟩)
    swap
    · exact absurd hbm (by simp)
    obtain ⟨o, vals⟩ := e
    refine ⟨o, vals, [(k, v)], he, ?_, by simp [get]⟩
    unfold fragment at hfr
    cases h : Operator.ToBSON lib o vals with
    | none => simp [h] at hfr
    | some r => simpa [h] using hfr
  · rintro ⟨o, vals, fr, he, hfr, hget⟩
    refine Or.inl ⟨(o, vals), he, ?_⟩
    obtain ⟨k1, v1, h1, _⟩ := ToBSON_shape lib o vals fr hfr
    subst h1
    by_cases hk : k1 = k
    · simp only [get, hk, ↓reduceIte, Option.some.injEq] at hget
      simp [fragment, hfr, hk, hget]
    · simp [get, hk] at hget

theorem renderFields_none [SliceSorter] (lib : Value → String) (q : query) :
    ∀ bm, renderFields lib q bm = none ↔
      ∃ e ∈ q, ∃ e1 ∈ e.2, Operator.ToBSON lib e1.1 e1.2 = none := by
  induction q with
  | nil => intro bm; simp [renderFields]
  | cons e q ih =>
    intro bm
    obtain ⟨key, ops⟩ := e
    cases h : renderOps lib ops [] with
    | none =>
      obtain ⟨e1, he1, h1⟩ := (renderOps_none lib ops []).mp h
      simp only [renderFields, h, List.mem_cons, exists_eq_or_imp, true_iff]
      exact Or.inl ⟨e1, he1, h1⟩
    | some qs =>
      have hn : ¬ ∃ e1 ∈ ops, Operator.ToBSON lib e1.1 e1.2 = none := by
        intro hex
        rw [(renderOps_none lib ops []).mpr hex] at h
        exact absurd h (by simp)
      simp only [renderFields, h, ih, List.mem_cons, exists_eq_or_imp, hn, false_or]

theorem renderFields_some [SliceSorter] (lib : Value → String) (q : query) :
    ∀ bm m, (q.map Prod.fst).Nodup → renderFields lib q bm = some m →
      ∀ f, get m f = match get q f with
        | some ops => some (merge (ops.map (fragment lib)))
        | none => get bm f := by
  induction q with
  | nil => intro bm m _ h f; simp [renderFields] at h; simp [get, h]
  | cons e q ih =>
    intro bm m hnd h f
    obtain ⟨key, ops⟩ := e
    simp only [List.map_cons, List.nodup_cons] at hnd
    cases h1 : renderOps lib ops [] with
    | none => simp [renderFields, h1] at h
    | some qs =>
      simp only [renderFields, h1] at h
      have hqs : qs = ops.map (fragment lib) := by
        simpa using renderOps_some lib ops [] qs h1
      rw [ih _ _ hnd.2 h f]
      by_cases hk : key = f
      · subst hk
        have : get q key = none := (get_eq_none q key).mpr hnd.1
        simp [get, this, get_set, hqs]
      · simp only [get, hk, ↓reduceIte, get_set]

/-! ## Lists without a `*time.Time` -/

theorem Max_total [SliceSorter] (vals : List Value) (h : ∀ v ∈ vals, isTimePtr v = false) :
    Max vals ≠ none := by
  have := SortVals_total vals h
  unfold Max
  cases hs : SortVals vals with
  | none => exact absurd hs this
  | some r => simp only; split <;> simp

theorem Min_total [SliceSorter] (vals : List Value) (h : ∀ v ∈ vals, isTimePtr v = false) :
    Min vals ≠ none := by
  have := SortVals_total vals h
  unfold Min
  cases hs : SortVals vals with
  | none => exact absurd hs this
  | some r => simp only; split <;> simp

theorem ToBSON_total [SliceSorter] (lib : Value → String) (o : Operator) (vals : List Value)
    (h : ∀ v ∈ vals, isTimePtr v = false) : Operator.ToBSON lib o vals ≠ none := by
  have hmax := Max_total vals h
  have hmin := Min_total vals h
  unfold Operator.ToBSON
  cases vals with
  | nil => simp
  | cons v rest =>
    simp only
    cases hx : Max (v :: rest) with
    | none => exact absurd hx hmax
    | some mx =>
      cases hn : Min (v :: rest) with
      | none => exact absurd hn hmin
      | some mn =>
        simp only
        repeat' split
        all_goals simp

theorem mem_valuesUnder (adds : List AddCall) (f : String) (o : Operator) (v : Value)
    (h : v ∈ valuesUnder adds f o) : ∃ a ∈ adds, v ∈ a.val := by
  induction adds with
  | nil => simp [valuesUnder] at h
  | cons a adds ih =>
    simp only [valuesUnder, List.mem_append] at h
    rcases h with h | h
    · split at h
      · exact ⟨a, List.mem_cons_self _ _, h⟩
      · simp at h
    · obtain ⟨b, hb, hv⟩ := ih h
      exact ⟨b, List.mem_cons_of_mem _ hb, hv⟩

/-- Two or more elements that do not all belong to one class, and no `*time.Time`: Sort, Max
and Min return `nil` and Gt, Gte, Lt and Lte render no fragment; for a list of more than 6
elements, under the contract of `sort.Slice` and provided no element is a NaN. -/
theorem not_one_class_nil [SliceSorter] (hlib : SortsSlices) (lib : Value → String)
    (vals : List Value) (hlen : 2 ≤ vals.length)
    (hp : ∀ v ∈ vals, isTimePtr v = false)
    (hn : 6 < vals.length → ∀ v ∈ vals, isNaN v = false)
    (hmix : ¬ ∃ c, ∀ v ∈ vals, inClass c v = true) :
    SortVals vals = some none ∧ Max vals = some .null ∧ Min vals = some .null ∧
    Operator.ToBSON lib OperatorGt vals = some none ∧
    Operator.ToBSON lib OperatorGte vals = some none ∧
    Operator.ToBSON lib OperatorLt vals = some none ∧
    Operator.ToBSON lib OperatorLte vals = some none := by
  have hs : SortVals vals = some none := by
    cases h : SortVals vals with
    | none => exact absurd h (SortVals_total vals hp)
    | some r =>
      cases r with
      | none => rfl
      | some out =>
        match vals, hlen, hp, hn, hmix, h with
        | v :: w :: rest, _, hp, hn, hmix, h =>
          exact absurd (SortVals_some_class hlib v w rest out (fun _ => hp) hn h) hmix
  have hmax : Max vals = some .null := by simp [Max, hs, len]
  have hmin : Min vals = some .null := by simp [Min, hs, len]
  refine ⟨hs, hmax, hmin, ?_⟩
  cases vals with
  | nil => simp at hlen
  | cons v rest =>
    simp [Operator.ToBSON, hmax, hmin, OperatorEq, OperatorNe, OperatorGt, OperatorGte,
      OperatorLt, OperatorLte]

/-- Two elements of different classes and no `*time.Time`: Sort, Max and Min return `nil` and
Gt, Gte, Lt and Lte render no fragment; for a list of more than 6 elements, under the
contract of `sort.Slice` and provided no element is a NaN. -/
theorem mixed_nil [SliceSorter] (hlib : SortsSlices) (lib : Value → String) (vals : List Value)
    (a b : Value) (ca cb : Class) (hp : ∀ v ∈ vals, isTimePtr v = false)
    (hn : 6 < vals.length → ∀ v ∈ vals, isNaN v = false)
    (ha : a ∈ vals) (hb : b ∈ vals) (hca : inClass ca a = true) (hcb : inClass cb b = true)
    (hne : ca ≠ cb) :
    SortVals vals = some none ∧ Max vals = some .null ∧ Min vals = some .null ∧
    Operator.ToBSON lib OperatorGt vals = some none ∧
    Operator.ToBSON lib OperatorGte vals = some none ∧
    Operator.ToBSON lib OperatorLt vals = some none ∧
    Operator.ToBSON lib OperatorLte vals = some none := by
  have hs := SortVals_mixed hlib vals a b ca cb hp hn ha hb hca hcb hne
  have hmax : Max vals = some .null := by simp [Max, hs, len]
  have hmin : Min vals = some .null := by simp [Min, hs, len]
  refine ⟨hs, hmax, hmin, ?_⟩
  cases vals with
  | nil => simp at ha
  | cons v rest =>
    simp [Operator.ToBSON, hmax, hmin, OperatorEq, OperatorNe, OperatorGt, OperatorGte,
      OperatorLt, OperatorLte]

/-! ## Layouts of the same map -/

theorem forall₂_entries (q mid : query)
    (h : List.Forall₂ (fun e e1 => e.1 = e1.1 ∧ e.2.Perm e1.2) q mid) :
    q.map Prod.fst = mid.map Prod.fst ∧
    (∀ e1 ∈ mid, ∃ e ∈ q, e.1 = e1.1 ∧ e.2.Perm e1.2) ∧
    (∀ e ∈ q, ∃ e1 ∈ mid, e.1 = e1.1 ∧ e.2.Perm e1.2) := by
  induction h with
  | nil => simp
  | @cons a b l1 l2 hab _ ih =>
    obtain ⟨ih1, ih2, ih3⟩ := ih
    refine ⟨by simp [hab.1, ih1], ?_, ?_⟩
    · intro e1 he1
      rcases List.mem_cons.mp he1 with h1 | h1
      · exact ⟨a, List.mem_cons_self _ _, h1 ▸ hab⟩
      · obtain ⟨e, he, hr⟩ := ih2 e1 h1
        exact ⟨e, List.mem_cons_of_mem _ he, hr⟩
    · intro e he
      rcases List.mem_cons.mp he with h1 | h1
      · exact ⟨b, List.mem_cons_self _ _, h1 ▸ hab⟩
      · obtain ⟨e1, he1, hr⟩ := ih3 e h1
        exact ⟨e1, List.mem_cons_of_mem _ he1, hr⟩

theorem Reordered_keys (q q1 : query) (h : Reordered q q1) :
    (q.map Prod.fst).Perm (q1.map Prod.fst) := by
  obtain ⟨mid, h1, h2⟩ := h
  rw [(forall₂_entries q mid h1).1]
  exact h2.map _

theorem Reordered_Distinct (q q1 : query) (h : Reordered q q1) (hd : Distinct q) :
    Distinct q1 := by
  refine ⟨(Reordered_keys q q1 h).nodup_iff.mp hd.1, ?_⟩
  obtain ⟨mid, h1, h2⟩ := h
  intro e1 he1
  obtain ⟨e, he, _, hp⟩ := (forall₂_entries q mid h1).2.1 e1 (h2.symm.subset he1)
  exact (hp.map Prod.fst).nodup_iff.mp (hd.2 e he)

theorem Reordered_entries (q q1 : query) (h : Reordered q q1) (f : String) (o : Operator)
    (vals : List Value) :
    (∃ ops1, (f, ops1) ∈ q1 ∧ (o, vals) ∈ ops1) ↔ (∃ ops, (f, ops) ∈ q ∧ (o, vals) ∈ ops) := by
  obtain ⟨mid, h1, h2⟩ := h
  obtain ⟨_, hback, hforth⟩ := forall₂_entries q mid h1
  constructor
  · rintro ⟨ops1, hm, ho⟩
    obtain ⟨e, he, hk, hp⟩ := hback (f, ops1) (h2.symm.subset hm)
    obtain ⟨k, ops⟩ := e
    simp only at hk hp
    subst hk
    exact ⟨ops, he, hp.symm.subset ho⟩
  · rintro ⟨ops, hm, ho⟩
    obtain ⟨e1, he1, hk, hp⟩ := hforth (f, ops) hm
    obtain ⟨k, ops1⟩ := e1
    simp only at hk hp
    subst hk
    exact ⟨ops1, h2.subset he1, hp.subset ho⟩

theorem entries_iff_get2 (q : query) (hd : Distinct q) (f : String) (o : Operator)
    (vals : List Value) :
    (∃ ops, (f, ops) ∈ q ∧ (o, vals) ∈ ops) ↔ get2 q f o = some vals := by
  unfold get2
  constructor
  · rintro ⟨ops, hm, ho⟩
    rw [get_of_mem q f ops hd.1 hm]
    exact get_of_mem ops o vals (hd.2 _ hm) ho
  · intro h
    cases hg : get q f with
    | none => simp [hg] at h
    | some ops =>
      rw [hg] at h
      exact ⟨ops, mem_of_get q f ops hg, mem_of_get ops o vals h⟩

theorem Reordered_build_entries (adds : List AddCall) (q1 : query)
    (h : Reordered (build adds) q1) (f : String) (o : Operator) (vals : List Value) :
    (∃ ops1, (f, ops1) ∈ q1 ∧ (o, vals) ∈ ops1) ↔
      (∃ a ∈ adds, a.key = f ∧ a.op = o) ∧ vals = valuesUnder adds f o := by
  rw [Reordered_entries _ _ h, entries_iff_get2 _ (Distinct_build adds), build_get2]
  by_cases hex : ∃ a ∈ adds, a.key = f ∧ a.op = o
  · rw [if_pos hex]
    simp only [Option.some.injEq, hex, true_and]
    exact eq_comm
  · rw [if_neg hex]
    simp [hex]

/-- After any sequence `adds` of Add calls on a fresh builder, and whatever the order `q1` in
which the maps are visited, ToBSON maps each field that was added to the union, over the
operators used with the field, of the fragments `op.ToBSON` renders from all the values added
under the field and the operator, in insertion order, duplicates kept; it maps no other
field; it panics exactly when one of these fragments does, and never when no value is a
`*time.Time`.  Add is total; it appends its values to the entry of its field and operator and
leaves every other entry as it is. -/
theorem ToBSON_union_of_fragments [SliceSorter] (lib : Value → String) (adds : List AddCall) (q1 : query)
    (h : Reordered (build adds) q1) :
    (∀ (q : query) key op val f o,
      get2 (q.Add key op val) f o =
        if f = key ∧ o = op then some ((get2 q f o).getD [] ++ val) else get2 q f o) ∧
    (∀ f o, get2 (build adds) f o =
      if ∃ a ∈ adds, a.key = f ∧ a.op = o then some (valuesUnder adds f o) else none) ∧
    (query.ToBSON lib q1 = none ↔
      ∃ f o, (∃ a ∈ adds, a.key = f ∧ a.op = o) ∧
        Operator.ToBSON lib o (valuesUnder adds f o) = none) ∧
    (∀ m, query.ToBSON lib q1 = some m → ∀ f,
      (get m f = none ↔ ∀ a ∈ adds, a.key ≠ f) ∧
      ∀ sub, get m f = some sub → ∀ k v,
        (get sub k = some v ↔
          ∃ o fr, (∃ a ∈ adds, a.key = f ∧ a.op = o) ∧
            Operator.ToBSON lib o (valuesUnder adds f o) = some (some fr) ∧
            get fr k = some v)) ∧
    ((∀ a ∈ adds, ∀ v ∈ a.val, isTimePtr v = false) → ∃ m, query.ToBSON lib q1 = some m) := by
  have hd1 : Distinct q1 := Reordered_Distinct _ _ h (Distinct_build adds)
  have hpanic : query.ToBSON lib q1 = none ↔
      ∃ f o, (∃ a ∈ adds, a.key = f ∧ a.op = o) ∧
        Operator.ToBSON lib o (valuesUnder adds f o) = none := by
    unfold query.ToBSON
    rw [renderFields_none]
    constructor
    · rintro ⟨⟨f, ops1⟩, he, ⟨o, vals⟩, he1, hp⟩
      obtain ⟨hused, hv⟩ := (Reordered_build_entries adds q1 h f o vals).mp ⟨ops1, he, he1⟩
      exact ⟨f, o, hused, hv ▸ hp⟩
    · rintro ⟨f, o, hused, hp⟩
      obtain ⟨ops1, he, he1⟩ := (Reordered_build_entries adds q1 h f o _).mpr ⟨hused, rfl⟩
      exact ⟨(f, ops1), he, (o, _), he1, hp⟩
  refine ⟨Add_get2, build_get2 adds, hpanic, ?_, ?_⟩
  swap
  · intro hptr
    cases hq : query.ToBSON lib q1 with
    | some m => exact ⟨m, rfl⟩
    | none =>
      obtain ⟨f, o, _, hp⟩ := hpanic.mp hq
      refine absurd hp (ToBSON_total lib o _ ?_)
      intro v hv
      obtain ⟨a, ha, hva⟩ := mem_valuesUnder adds f o v hv
      exact hptr a ha v hva
  · intro m hm f
    have hget := renderFields_some lib q1 [] m hd1.1 hm f
    constructor
    · have hkeys : get q1 f = none ↔ get (build adds) f = none := by
        rw [get_eq_none, get_eq_none]
        exact not_congr (Reordered_keys _ _ h).symm.mem_iff
      rw [← build_get_none, ← hkeys, hget]
      cases get q1 f <;> simp [get]
    · intro sub hsub k v
      cases hq : get q1 f with
      | none => rw [hq] at hget; simp [get, hget] at hsub
      | some ops1 =>
        rw [hq, hsub] at hget
        simp only [Option.some.injEq] at hget
        have hmem : (f, ops1) ∈ q1 := mem_of_get q1 f ops1 hq
        rw [hget, merge_get lib ops1 (hd1.2 _ hmem)]
        constructor
        · rintro ⟨o, vals, fr, ho, hfr, hk⟩
          obtain ⟨hused, hv⟩ := (Reordered_build_entries adds q1 h f o vals).mp ⟨ops1, hmem, ho⟩
          exact ⟨o, fr, hused, hv ▸ hfr, hk⟩
        · rintro ⟨o, fr, hused, hfr, hk⟩
          obtain ⟨ops2, he, he1⟩ := (Reordered_build_entries adds q1 h f o _).mpr ⟨hused, rfl⟩
          have : ops2 = ops1 :=
            Option.some.inj ((get_of_mem q1 f ops2 hd1.1 he).symm.trans hq)
          exact ⟨o, _, fr, this ▸ he1, hfr, hk⟩

theorem ToBSON_union_of_fragments_witness :
    Reordered (build sampleAdds) (build sampleAdds).reverse ∧
    ((∀ (q : query) key op val f o,
      get2 (q.Add key op val) f o =
        if f = key ∧ o = op then some ((get2 q f o).getD [] ++ val) else get2 q f o) ∧
    (∀ f o, get2 (build sampleAdds) f o =
      if ∃ a ∈ sampleAdds, a.key = f ∧ a.op = o then some (valuesUnder sampleAdds f o)
      else none) ∧
    (query.ToBSON (fun _ => "") (build sampleAdds).reverse = none ↔
      ∃ f o, (∃ a ∈ sampleAdds, a.key = f ∧ a.op = o) ∧
        Operator.ToBSON (fun _ => "") o (valuesUnder sampleAdds f o) = none) ∧
    (∀ m, query.ToBSON (fun _ => "") (build sampleAdds).reverse = some m → ∀ f,
      (get m f = none ↔ ∀ a ∈ sampleAdds, a.key ≠ f) ∧
      ∀ sub, get m f = some sub → ∀ k v,
        (get sub k = some v ↔
          ∃ o fr, (∃ a ∈ sampleAdds, a.key = f ∧ a.op = o) ∧
            Operator.ToBSON (fun _ => "") o (valuesUnder sampleAdds f o) = some (some fr) ∧
            get fr k = some v)) ∧
    ((∀ a ∈ sampleAdds, ∀ v ∈ a.val, isTimePtr v = false) →
      ∃ m, query.ToBSON (fun _ => "") (build sampleAdds).reverse = some m)) :=
  ⟨⟨build sampleAdds, List.forall₂_same.mpr (fun _ _ => ⟨rfl, List.Perm.refl _⟩),
      (List.reverse_perm _).symm⟩,
    ToBSON_union_of_fragments (fun _ => "") sampleAdds (build sampleAdds).reverse
      ⟨build sampleAdds, List.forall₂_same.mpr (fun _ _ => ⟨rfl, List.Perm.refl _⟩),
        (List.reverse_perm _).symm⟩⟩

/-- C1 at the failing input: after `Add("born_at", OperatorGt, &t1, &t2)` with two pointers to
times, or after two calls that add one pointer each, the values are stored, in order, under
the field and the operator, and ToBSON panics instead of returning a mapping. -/
theorem ToBSON_pointer_times_panics [SliceSorter] :
    get2 (New.Add "born_at" OperatorGt [.timePtr 1, .timePtr 2]) "born_at" OperatorGt
      = some [.timePtr 1, .timePtr 2] ∧
    (∀ lib, query.ToBSON lib (New.Add "born_at" OperatorGt [.timePtr 1, .timePtr 2]) = none) ∧
    get2 ((New.Add "born_at" OperatorGt [.timePtr 1]).Add "born_at" OperatorGt [.timePtr 2])
        "born_at" OperatorGt
      = some [.timePtr 1, .timePtr 2] ∧
    (∀ lib, query.ToBSON lib
      ((New.Add "born_at" OperatorGt [.timePtr 1]).Add "born_at" OperatorGt [.timePtr 2])
        = none) :=
  ⟨by decide, fun _ => rfl, by decide, fun _ => rfl⟩

end bsonbuilder

namespace controllers

open bsonbuilder

/-- The loop over the parameters skips the reserved keys. -/
theorem foldl_withoutReserved (lib : Lib) (keys : QueryKeys)
    (convertors : List (String → String → Value)) (params : List (String × List String)) :
    ∀ q0 : query,
      params.foldl
        (fun q kv =>
          if kv.1 = keys.page ∨ kv.1 = keys.limit ∨ kv.1 = keys.sort ∨ kv.1 = keys.order then q
          else kv.2.foldl (fun q1 val => addParam lib convertors suffixes q1 kv.1 val) q) q0 =
      (withoutReserved keys params).foldl
        (fun q kv =>
          if kv.1 = keys.page ∨ kv.1 = keys.limit ∨ kv.1 = keys.sort ∨ kv.1 = keys.order then q
          else kv.2.foldl (fun q1 val => addParam lib convertors suffixes q1 kv.1 val) q) q0 := by
  induction params with
  | nil => intro q0; rfl
  | cons kv rest ih =>
    intro q0
    by_cases h : kv.1 = keys.page ∨ kv.1 = keys.limit ∨ kv.1 = keys.sort ∨ kv.1 = keys.order
    · have hf : withoutReserved keys (kv :: rest) = withoutReserved keys rest :=
        List.filter_cons_of_neg (by simp only [decide_eq_true h]; decide)
      rw [hf, List.foldl_cons, if_pos h]
      exact ih q0
    · have hf : withoutReserved keys (kv :: rest) = kv :: withoutReserved keys rest :=
        List.filter_cons_of_pos (by simp only [decide_eq_false h]; decide)
      rw [hf, List.foldl_cons, List.foldl_cons]
      exact ih _

/-- C11: the reserved keys (the page, limit, sort and order keys, by default _page, _limit,
_sort and _order) never reach Add: the builder QueryBSON fills, and so the filter it returns,
is the same as on the parameter set with those keys removed, whatever values they carry. -/
theorem QueryBSON_reserved_keys_skipped [SliceSorter] (lib : Lib) (keys : QueryKeys)
    (convertors : List (String → String → Value)) (params : List (String × List String)) :
    scanParams lib keys convertors params =
      scanParams lib keys convertors (withoutReserved keys params) ∧
    QueryBSON lib keys convertors params =
      QueryBSON lib keys convertors (withoutReserved keys params) ∧
    (∀ kv ∈ withoutReserved keys params,
      kv.1 ≠ keys.page ∧ kv.1 ≠ keys.limit ∧ kv.1 ≠ keys.sort ∧ kv.1 ≠ keys.order) ∧
    (∀ vals : List String,
      withoutReserved { } [("_page", vals), ("_limit", vals), ("_sort", vals), ("_order", vals)]
        = []) := by
  have h := foldl_withoutReserved lib keys convertors params New
  refine ⟨h, ?_, ?_, ?_⟩
  · unfold QueryBSON
    exact congrArg _ h
  · intro kv hkv
    have h2 := (List.mem_filter.1 hkv).2
    by_cases h3 : kv.1 = keys.page ∨ kv.1 = keys.limit ∨ kv.1 = keys.sort ∨ kv.1 = keys.order
    · simp only [decide_eq_true h3] at h2
      exact absurd h2 (by decide)
    · exact ⟨fun e => h3 (Or.inl e), fun e => h3 (Or.inr (Or.inl e)),
        fun e => h3 (Or.inr (Or.inr (Or.inl e))), fun e => h3 (Or.inr (Or.inr (Or.inr e)))⟩
  · intro vals
    rfl

end controllers

namespace controllers

open bsonbuilder

/-- Split never returns the empty list. -/
theorem splitChars_ne_nil (sep : Char) (cs : List Char) : splitChars sep cs ≠ [] := by
  induction cs with
  | nil => simp [splitChars]
  | cons c cs ih =>
    unfold splitChars
    by_cases h : c = sep
    · simp [h]
    · rw [if_neg h]
      cases hs : splitChars sep cs with
      | nil => simp
      | cons p ps => simp

/-- Split returns more than one piece exactly when the separator occurs. -/
theorem splitChars_length (sep : Char) (cs : List Char) :
    1 < (splitChars sep cs).length ↔ sep ∈ cs := by
  induction cs with
  | nil => simp [splitChars]
  | cons c cs ih =>
    unfold splitChars
    by_cases h : c = sep
    · rw [if_pos h]
      have := List.length_pos.2 (splitChars_ne_nil sep cs)
      simp [h]
      omega
    · rw [if_neg h]
      cases hs : splitChars sep cs with
      | nil => exact absurd hs (splitChars_ne_nil sep cs)
      | cons p ps =>
        rw [hs] at ih
        simp only [List.length_cons] at ih ⊢
        rw [ih, List.mem_cons]
        constructor
        · exact Or.inr
        · rintro (h1 | h1)
          · exact absurd h1.symm h
          · exact h1

/-- The pieces of Split, joined by the separator, give the text back. -/
theorem splitChars_intercalate (sep : Char) (cs : List Char) :
    List.intercalate [sep] (splitChars sep cs) = cs := by
  induction cs with
  | nil => simp [splitChars, List.intercalate]
  | cons c cs ih =>
    unfold splitChars
    by_cases h : c = sep
    · rw [if_pos h]
      cases hs : splitChars sep cs with
      | nil => exact absurd hs (splitChars_ne_nil sep cs)
      | cons p ps =>
        rw [hs] at ih
        simp only [List.intercalate] at ih ⊢
        rw [List.intersperse_cons_cons, List.flatten_cons, List.flatten_cons, ih, h]
        rfl
    · rw [if_neg h]
      cases hs : splitChars sep cs with
      | nil => exact absurd hs (splitChars_ne_nil sep cs)
      | cons p ps =>
        rw [hs] at ih
        cases ps with
        | nil =>
          simp only [List.intercalate, List.intersperse_single, List.flatten_cons, List.flatten_nil,
            List.append_nil] at ih ⊢
          rw [ih]
        | cons p2 ps =>
          simp only [List.intercalate, List.intersperse_cons_cons, List.flatten_cons] at ih ⊢
          rw [← ih]
          rfl

/-- No piece of Split holds the separator. -/
theorem splitChars_no_sep (sep : Char) (cs : List Char) :
    ∀ p ∈ splitChars sep cs, sep ∉ p := by
  induction cs with
  | nil => simp [splitChars]
  | cons c cs ih =>
    unfold splitChars
    by_cases h : c = sep
    · rw [if_pos h]
      intro p hp
      rcases List.mem_cons.1 hp with h1 | h1
      · rw [h1]; exact List.not_mem_nil _
      · exact ih p h1
    · rw [if_neg h]
      cases hs : splitChars sep cs with
      | nil => exact absurd hs (splitChars_ne_nil sep cs)
      | cons p1 ps =>
        rw [hs] at ih
        intro p hp
        rcases List.mem_cons.1 hp with h1 | h1
        · rw [h1]
          intro hm
          rcases List.mem_cons.1 hm with h2 | h2
          · exact h h2.symm
          · exact ih p1 (List.mem_cons_self _ _) h2
        · exact ih p (List.mem_cons_of_mem _ h1)

/-- C19: SortAsMultiple returns the empty list when the sort parameter is empty, whatever the
order parameter; the comma-separated parts of the sort parameter verbatim (more than one, none
holding a comma, giving the parameter back when joined by commas) when it contains a comma,
whatever the order parameter; and otherwise the one-element list of the sort parameter,
prefixed with "-" exactly when the order parameter is "desc" after lower-casing and the sort
parameter does not already start with "-".  So "field" with order=desc (in any case) yields
["-field"], as does "-field" with no order. -/
theorem SortAsMultiple_cases (keys : QueryKeys) (params : List (String × List String)) :
    (URLParam params keys.sort = "" → SortAsMultiple keys params = []) ∧
    (',' ∈ (URLParam params keys.sort).data →
      SortAsMultiple keys params = Split (URLParam params keys.sort) ',' ∧
      1 < (Split (URLParam params keys.sort) ',').length ∧
      List.intercalate [','] ((Split (URLParam params keys.sort) ',').map String.data) =
        (URLParam params keys.sort).data ∧
      ∀ part ∈ Split (URLParam params keys.sort) ',', ',' ∉ part.data) ∧
    (URLParam params keys.sort ≠ "" → ',' ∉ (URLParam params keys.sort).data →
      SortAsMultiple keys params =
        [if ToLower (URLParam params keys.order) = "desc" ∧
            ¬ "-".data <+: (URLParam params keys.sort).data
          then "-" ++ URLParam params keys.sort else URLParam params keys.sort]) ∧
    SortAsMultiple { } [("_sort", ["field"]), ("_order", ["desc"])] = ["-field"] ∧
    SortAsMultiple { } [("_sort", ["field"]), ("_order", ["DeSC"])] = ["-field"] ∧
    SortAsMultiple { } [("_sort", ["-field"])] = ["-field"] ∧
    SortAsMultiple { } [("_sort", ["-field"]), ("_order", ["desc"])] = ["-field"] ∧
    SortAsMultiple { } [("_sort", ["field"]), ("_order", ["asc"])] = ["field"] ∧
    SortAsMultiple { } [("_sort", ["-field,field2"]), ("_order", ["desc"])]
      = ["-field", "field2"] ∧
    SortAsMultiple { } [("_order", ["desc"])] = [] := by
  have hq : ∀ key, QueryString params key "" = URLParam params key := by
    intro key
    unfold QueryString
    by_cases h : URLParam params key = ""
    · rw [if_neg (not_not.2 h), h]
    · rw [if_pos h]
  have hlen : 1 < (Split (URLParam params keys.sort) ',').length ↔
      ',' ∈ (URLParam params keys.sort).data := by
    unfold Split
    rw [List.length_map]
    exact splitChars_length ',' _
  refine ⟨?_, ?_, ?_, by decide, by decide, by decide, by decide, by decide, by decide,
    by decide⟩
  · intro h
    unfold SortAsMultiple
    simp only [hq]
    rw [if_neg (not_not.2 h)]
  · intro h
    have hne : URLParam params keys.sort ≠ "" := by
      intro h0
      rw [h0] at h
      exact absurd h (by decide)
    refine ⟨?_, hlen.2 h, ?_, ?_⟩
    · unfold SortAsMultiple
      simp only [hq]
      rw [if_pos hne, if_pos (hlen.2 h)]
    · unfold Split
      rw [List.map_map]
      have : (String.data ∘ String.mk) = id := by
        funext x; rfl
      rw [this, List.map_id]
      exact splitChars_intercalate ',' _
    · intro part hpart
      unfold Split at hpart
      rcases List.mem_map.1 hpart with ⟨p, hp, rfl⟩
      exact splitChars_no_sep ',' _ p hp
  · intro hne hno
    unfold SortAsMultiple
    simp only [hq]
    rw [if_pos hne, if_neg (fun hl => hno (hlen.1 hl))]
    congr 1
    by_cases h1 : ToLower (URLParam params keys.order) = "desc"
    · by_cases h2 : "-".data <+: (URLParam params keys.sort).data
      · simp [HasPrefix, OrderDescending, h1, h2]
      · simp [HasPrefix, OrderDescending, h1, h2]
    · simp [HasPrefix, OrderDescending, h1]

end controllers

namespace mgobase

open bsonbuilder

/-- C12: for every marker with field f and boundary b and every base filter Q: with direction
First or Last, QueryStatement(Q) is Q unchanged (so nil stays nil); with direction Next it is
the conjunction, $and of the list [Q, range] where range is f: ($gt: b), and with Prev the same
with $lt, or the range condition alone when Q is nil.  SortField is f for First and Next and
"-" followed by f for Last and Prev. -/
theorem QueryStatement_SortField (f : String) (b : Value) (Q : Doc) :
    marker.QueryStatement ⟨f, b, PageFirst⟩ Q = Q ∧
    marker.QueryStatement ⟨f, b, PageLast⟩ Q = Q ∧
    marker.QueryStatement ⟨f, b, PageNext⟩ (.val .null) = .map [(f, .map [("$gt", .val b)])] ∧
    marker.QueryStatement ⟨f, b, PagePrev⟩ (.val .null) = .map [(f, .map [("$lt", .val b)])] ∧
    (Q ≠ .val .null →
      marker.QueryStatement ⟨f, b, PageNext⟩ Q =
        .map [("$and", .arr [Q, .map [(f, .map [("$gt", .val b)])]])] ∧
      marker.QueryStatement ⟨f, b, PagePrev⟩ Q =
        .map [("$and", .arr [Q, .map [(f, .map [("$lt", .val b)])]])]) ∧
    marker.SortField ⟨f, b, PageFirst⟩ = f ∧
    marker.SortField ⟨f, b, PageNext⟩ = f ∧
    marker.SortField ⟨f, b, PageLast⟩ = "-" ++ f ∧
    marker.SortField ⟨f, b, PagePrev⟩ = "-" ++ f := by
  refine ⟨rfl, rfl, rfl, rfl, ?_, rfl, rfl, rfl, rfl⟩
  intro hQ
  constructor
  · show (match Q with
      | .val .null => Doc.map [(f, .map [("$gt", .val b)])]
      | _ => Doc.map [("$and", .arr [Q, .map [(f, .map [("$gt", .val b)])]])]) = _
    split
    · exact absurd rfl hQ
    · rfl
  · show (match Q with
      | .val .null => Doc.map [(f, .map [("$lt", .val b)])]
      | _ => Doc.map [("$and", .arr [Q, .map [(f, .map [("$lt", .val b)])]])]) = _
    split
    · exact absurd rfl hQ
    · rfl

/-- C13: for a marker whose direction is one of First, Last, Next, Prev, validate fails if and
only if the field is empty, or the direction is Next or Prev and the boundary value is nil (so
First and Last need no boundary); a marker whose direction is any other string is rejected. -/
theorem validate_fails_iff (m : marker) :
    (m.page = PageFirst ∨ m.page = PageLast ∨ m.page = PageNext ∨ m.page = PagePrev →
      (m.validate ≠ none ↔
        m.field = "" ∨ ((m.page = PageNext ∨ m.page = PagePrev) ∧ m.value = .null))) ∧
    (m.page = PageFirst ∨ m.page = PageLast → m.field ≠ "" → m.validate = none) ∧
    (¬ (m.page = PageFirst ∨ m.page = PageLast ∨ m.page = PageNext ∨ m.page = PagePrev) →
      m.validate ≠ none) := by
  have hne : ∀ p : String, (p = PageFirst ∨ p = PageLast) → ¬ (p = PageNext ∨ p = PagePrev) := by
    rintro p (h | h) <;> rw [h] <;> decide
  refine ⟨?_, ?_, ?_⟩
  · intro hp
    unfold marker.validate
    by_cases hf : m.field = ""
    · simp [hf]
    · rw [if_neg hf]
      by_cases h1 : m.page = PageFirst ∨ m.page = PageLast
      · rw [if_pos h1]
        simp [hf, hne m.page h1]
      · rw [if_neg h1]
        have h2 : m.page = PageNext ∨ m.page = PagePrev := by
          rcases hp with h | h | h | h
          · exact absurd (Or.inl h) h1
          · exact absurd (Or.inr h) h1
          · exact Or.inl h
          · exact Or.inr h
        rw [if_pos h2]
        by_cases hv : m.value = .null
        · simp [hv, h2]
        · simp [hv, hf]
  · intro hp hf
    unfold marker.validate
    rw [if_neg hf, if_pos hp]
  · intro hp
    unfold marker.validate
    by_cases hf : m.field = ""
    · simp [hf]
    · rw [if_neg hf, if_neg (fun h => hp (h.elim Or.inl (fun h => Or.inr (Or.inl h)))),
        if_neg (fun h => hp (h.elim (fun h => Or.inr (Or.inr (Or.inl h)))
          (fun h => Or.inr (Or.inr (Or.inr h)))))]
      simp

end mgobase

namespace mgobase

open bsonbuilder

/-- The element at the end of a prefix. -/
theorem getElem?_length_append {α : Type} (a : List α) (x : α) (t : List α) :
    (a ++ x :: t)[a.length]? = some x := by
  induction a with
  | nil => simp
  | cons c a ih => simpa using ih

/-- Setting the element at the end of a prefix. -/
theorem set_length_append {α : Type} (a : List α) (x y : α) (t : List α) :
    (a ++ x :: t).set a.length y = a ++ y :: t := by
  induction a with
  | nil => rfl
  | cons c a ih => simp [ih]

/-- One round of the loop of Reverse exchanges the two ends of the middle part. -/
theorem swap_ends {α : Type} (a mid b : List α) (x y : α) :
    swap (a ++ (x :: (mid ++ y :: b))) a.length (a.length + (mid.length + 1)) =
      a ++ (y :: (mid ++ x :: b)) := by
  have e : a.length + (mid.length + 1) = (a ++ x :: mid).length := by simp
  have e2 : a.length + (mid.length + 1) = (a ++ y :: mid).length := by simp
  have h1 := getElem?_length_append a x (mid ++ y :: b)
  have h2 : (a ++ (x :: (mid ++ y :: b)))[a.length + (mid.length + 1)]? = some y := by
    rw [e]
    have := getElem?_length_append (a ++ x :: mid) y b
    simp at this
    simp [this]
  unfold swap
  rw [h1, h2]
  show ((a ++ (x :: (mid ++ y :: b))).set a.length y).set (a.length + (mid.length + 1)) x = _
  rw [set_length_append, e2]
  have := set_length_append (a ++ y :: mid) y x b
  simp at this
  simp [this]

/-- The loop of Reverse reverses the part between its two indices. -/
theorem reverseLoop_spec {α : Type} (n : Nat) :
    ∀ (a mid b : List α), mid.length ≤ n →
      reverseLoop n a.length (a.length + mid.length - 1) (a ++ (mid ++ b)) =
        a ++ (mid.reverse ++ b) := by
  induction n with
  | zero =>
    intro a mid b h
    have : mid = [] := List.length_eq_zero.1 (Nat.le_zero.1 h)
    subst this
    rfl
  | succ n ih =>
    intro a mid b h
    unfold reverseLoop
    cases mid with
    | nil =>
      rw [if_neg (by simp)]
      rfl
    | cons x mid1 =>
      rcases List.eq_nil_or_concat mid1 with h1 | ⟨mid2, y, h1⟩
      · subst h1
        rw [if_neg (by simp)]
        rfl
      · rw [List.concat_eq_append] at h1
        subst h1
        rw [if_pos (by simp)]
        have e : a.length + (x :: (mid2 ++ [y])).length - 1 = a.length + (mid2.length + 1) := by
          simp
        rw [e]
        have e3 : x :: (mid2 ++ [y]) ++ b = x :: (mid2 ++ y :: b) := by simp
        rw [e3, swap_ends]
        have e4 : a.length + (mid2.length + 1) - 1 = (a ++ [y]).length + mid2.length - 1 := by
          simp
        have e5 : a.length + 1 = (a ++ [y]).length := by simp
        have e6 : a ++ y :: (mid2 ++ x :: b) = (a ++ [y]) ++ (mid2 ++ x :: b) := by simp
        rw [e4, e5, e6, ih (a ++ [y]) mid2 (x :: b) (by simp at h; omega)]
        simp

/-- Reverse returns the rows in reverse order. -/
theorem Reverse_eq_reverse {α : Type} (rows : List α) : Reverse rows = rows.reverse := by
  have h := reverseLoop_spec rows.length [] rows [] (le_refl _)
  simp only [List.length_nil, Nat.zero_add, List.nil_append, List.append_nil] at h
  exact h

/-- The loop of field returns the value of the first field that has the name, or whose bson
tag starts with it: it panics when that field is not exported, and returns nil when there is
no such field. -/
theorem fieldLoop_eq_find (name : String) (fields : List Field) :
    fieldLoop name fields =
      match fields.find? (fun f => decide (f.name = name) ||
          decide (f.bson ≠ "" ∧ (controllers.Split f.bson ',').head? = some name)) with
      | none => some .null
      | some f => if f.exported then some f.value else none := by
  induction fields with
  | nil => rfl
  | cons f fields ih =>
    unfold fieldLoop
    by_cases h1 : f.name = name
    · simp [h1, Field.Value]
    · rw [if_neg h1]
      by_cases h2 : f.bson ≠ "" ∧ (controllers.Split f.bson ',').head? = some name
      · rw [if_pos h2]
        simp [List.find?_cons, h1, h2, Field.Value]
      · rw [if_neg h2, ih]
        simp only [List.find?_cons, decide_eq_false h1, decide_eq_false h2, Bool.or_self]

/-- What PrevNext does on the results it handles as meant: nil, nil for a result that is not a
slice and for an empty slice; for a slice whose element type is a struct or a pointer to a
struct, the marker field of the first and of the last row, when `field` finds no unexported
field there (it panics when it does); for a slice whose element type is a map with string
keys and values that are not of a struct type, the entries of the first and of the last row
under the marker field, when they have one. -/
theorem PrevNext_spec (m : marker) :
    m.PrevNext .other = some (.null, .null) ∧
    (∀ elemt, m.PrevNext (.slice elemt []) = some (.null, .null)) ∧
    (∀ elemt first rows last, elemt = .struct ∨ elemt = .ptr .struct →
      (∀ prev next, field first m.field = some prev → field last m.field = some next →
        m.PrevNext (.slice elemt [first]) = some (prev, prev) ∧
        m.PrevNext (.slice elemt (first :: (rows ++ [last]))) = some (prev, next)) ∧
      (field first m.field = none ∨ field last m.field = none →
        m.PrevNext (.slice elemt (first :: (rows ++ [last]))) = none)) ∧
    (∀ e first rows last prev next, e.Kind ≠ .Struct →
      get first m.field = some prev → get last m.field = some next →
      (m.PrevNext (.slice (.map .string e) [.map first]) = some (prev, prev)) ∧
      m.PrevNext (.slice (.map .string e) (.map first :: (rows ++ [.map last]))) =
        some (prev, next)) := by
  refine ⟨rfl, fun _ => rfl, ?_, ?_⟩
  · intro elemt first rows last h
    have hl : (first :: (rows ++ [last])).getLast? = some last := by
      rw [← List.cons_append, List.getLast?_append]
      rfl
    constructor
    · intro prev next h1 h2
      constructor
      · unfold marker.PrevNext
        simp only [List.head?_cons, List.getLast?_singleton, h1]
        rcases h with h | h <;> subst h <;> rfl
      · unfold marker.PrevNext
        simp only [List.head?_cons, hl, h1, h2]
        rcases h with h | h <;> subst h <;> rfl
    · intro hnone
      unfold marker.PrevNext
      simp only [List.head?_cons, hl]
      rcases hnone with e | e <;> rw [e] <;> rcases h with h | h <;> subst h
      · rfl
      · rfl
      · cases field first m.field <;> rfl
      · cases field first m.field <;> rfl
  · intro e first rows last prev next he h1 h2
    have hl : (Row.map first :: (rows ++ [Row.map last])).getLast? = some (Row.map last) := by
      rw [← List.cons_append, List.getLast?_append]
      rfl
    have hk : (GoType.map .string e).Kind = .Map := rfl
    have hk2 : ¬ (GoType.map .string e).Kind = .Struct := by rw [hk]; decide
    have hel : (GoType.map .string e).Elem = some e := rfl
    constructor
    · unfold marker.PrevNext
      simp only [List.head?_cons, List.getLast?_singleton, hel, if_neg hk2, if_neg he, hk,
        if_true, mapIndex, h1]
      rfl
    · unfold marker.PrevNext
      simp only [List.head?_cons, hl, hel, if_neg hk2, if_neg he, hk, if_true, mapIndex, h1, h2]
      rfl

/-- What List does when the marker is valid, the query succeeds and PrevNext does not panic:
it runs the query QueryStatement(query) with the selector, sorted by SortField, with the
limit; it leaves the rows in reverse order for Last and Prev and as returned for First and
Next; prev and next are what PrevNext finds in these rows.  So rows that the storage returns
in the order of SortField (descending for Last and Prev) are left in ascending order. -/
theorem List_spec (m : marker) (find : Doc → Doc → String → Int → List Row × Option String)
    (elemt : GoType) (models : List Row) (query selector : Doc) (limit : Int)
    (rows : List Row) (hv : m.validate = none)
    (hf : find (m.QueryStatement query) selector m.SortField limit = (rows, none)) :
    (m.page = PageFirst ∨ m.page = PageLast ∨ m.page = PageNext ∨ m.page = PagePrev) ∧
    m.List find elemt models query selector limit =
      (m.PrevNext (.slice elemt (if m.page = PageLast ∨ m.page = PagePrev then rows.reverse
          else rows))).map
        (fun pn => ⟨if m.page = PageLast ∨ m.page = PagePrev then rows.reverse else rows,
          pn.1, pn.2, none⟩) ∧
    (∀ asc : Row → Row → Prop,
      (if m.SortField = "-" ++ m.field then rows.Pairwise (fun a b => asc b a)
        else rows.Pairwise asc) →
      ∀ l, m.List find elemt models query selector limit = some l → l.models.Pairwise asc) := by
  have hrev : (m.isReverse = true) ↔ (m.page = PageLast ∨ m.page = PagePrev) := by
    simp [marker.isReverse]
  have hlist : m.List find elemt models query selector limit =
      (m.PrevNext (.slice elemt (if m.page = PageLast ∨ m.page = PagePrev then rows.reverse
          else rows))).map
        (fun pn => ⟨if m.page = PageLast ∨ m.page = PagePrev then rows.reverse else rows,
          pn.1, pn.2, none⟩) := by
    unfold marker.List
    rw [hv]
    simp only [hf]
    by_cases h : m.page = PageLast ∨ m.page = PagePrev
    · rw [if_pos (hrev.2 h), if_pos h, Reverse_eq_reverse]
      cases m.PrevNext (.slice elemt rows.reverse) with
      | none => rfl
      | some pn => rfl
    · rw [if_neg (fun h1 => h (hrev.1 h1)), if_neg h]
      cases m.PrevNext (.slice elemt rows) with
      | none => rfl
      | some pn => rfl
  refine ⟨?_, hlist, ?_⟩
  · by_contra hp
    unfold marker.validate at hv
    by_cases h0 : m.field = ""
    · rw [if_pos h0] at hv
      exact absurd hv (by simp)
    · rw [if_neg h0, if_neg (fun h => hp (h.elim Or.inl (fun h => Or.inr (Or.inl h)))),
        if_neg (fun h => hp (h.elim (fun h => Or.inr (Or.inr (Or.inl h)))
          (fun h => Or.inr (Or.inr (Or.inr h)))))] at hv
      exact absurd hv (by simp)
  · intro asc hs l hl
    rw [hlist] at hl
    have hne : m.field ≠ "-" ++ m.field := by
      intro h
      have h1 := congrArg String.length h
      rw [String.length_append] at h1
      have h2 : "-".length = 1 := rfl
      omega
    by_cases h : m.page = PageLast ∨ m.page = PagePrev
    · rw [if_pos h] at hl
      have hsf : m.SortField = "-" ++ m.field := by
        unfold marker.SortField
        rw [if_pos (hrev.2 h)]
      rw [if_pos hsf] at hs
      cases hp : m.PrevNext (.slice elemt rows.reverse) with
      | none => rw [hp] at hl; exact absurd hl (by simp)
      | some pn =>
        rw [hp] at hl
        simp only [Option.map_some', Option.some.injEq] at hl
        rw [← hl]
        exact List.pairwise_reverse.2 hs
    · rw [if_neg h] at hl
      have hsf : m.SortField = m.field := by
        unfold marker.SortField
        rw [if_neg (fun h1 => h (hrev.1 h1))]
      rw [hsf, if_neg hne] at hs
      cases hp : m.PrevNext (.slice elemt rows) with
      | none => rw [hp] at hl; exact absurd hl (by simp)
      | some pn =>
        rw [hp] at hl
        simp only [Option.map_some', Option.some.injEq] at hl
        rw [← hl]
        exact hs

/-- C14 (code bug): List does not hand back prev and next for every valid marker.  When
`models` points to a `[]interface{}` and the query returns at least one row, List panics in
PrevNext, for the direction First as for Last, whatever the rows are (maps that hold the
marker field, for instance). -/
theorem List_interface_rows_panic (first : Row) (rows models : List Row) (query selector : Doc)
    (limit : Int) :
    marker.validate ⟨"_id", .null, PageFirst⟩ = none ∧
    marker.validate ⟨"_id", .null, PageLast⟩ = none ∧
    marker.List ⟨"_id", .null, PageFirst⟩ (fun _ _ _ _ => (first :: rows, none)) .iface models
      query selector limit = none ∧
    marker.List ⟨"_id", .null, PageLast⟩ (fun _ _ _ _ => (first :: rows, none)) .iface models
      query selector limit = none ∧
    marker.List ⟨"_id", .null, PageFirst⟩
      (fun _ _ _ _ => ([.map [("_id", .int 1)], .map [("_id", .int 2)]], none)) .iface []
      (.val .null) (.val .null) 10 = none := by
  have h1 : marker.validate ⟨"_id", .null, PageFirst⟩ = none := by decide
  have h2 : marker.validate ⟨"_id", .null, PageLast⟩ = none := by decide
  have hp : ∀ (m : marker) (l : List Row), l ≠ [] → m.PrevNext (.slice .iface l) = none := by
    intro m l hl
    cases l with
    | nil => exact absurd rfl hl
    | cons a l =>
      unfold marker.PrevNext
      cases hg : (a :: l).getLast? with
      | none => simp at hg
      | some last => rfl
  refine ⟨h1, h2, ?_, ?_, ?_⟩
  · unfold marker.List
    rw [h1]
    simp only []
    rw [hp _ _ (by
      show (if marker.isReverse ⟨"_id", .null, PageFirst⟩ = true then Reverse (first :: rows)
        else first :: rows) ≠ []
      rw [if_neg (by decide)]
      exact List.cons_ne_nil _ _)]
  · unfold marker.List
    rw [h2]
    simp only []
    rw [hp _ _ (by
      show (if marker.isReverse ⟨"_id", .null, PageLast⟩ = true then Reverse (first :: rows)
        else first :: rows) ≠ []
      rw [if_pos (by decide), Reverse_eq_reverse]
      simp)]
  · rfl

/-- C15 (code bug): PrevNext does not return the marker-field values for every non-empty page
of map rows that contain the marker field.  It asks the element type of the slice for its
element type without looking at its kind: on a `[]interface{}` this panics, whatever the
rows are, and on a slice of maps whose values are of a struct type (`map[string]time.Time`)
the rows are handled as structs and prev and next are nil, although every row holds the
marker field. -/
theorem PrevNext_misses_map_rows (m : marker) :
    (∀ first rows, m.PrevNext (.slice .iface (first :: rows)) = none) ∧
    (∀ key entries rows, m.PrevNext (.slice (.map key .struct) [.map entries]) =
        some (.null, .null) ∧
      m.PrevNext (.slice (.map key .struct) (.map entries :: (rows ++ [.map entries]))) =
        some (.null, .null)) ∧
    marker.PrevNext ⟨"_id", .null, PageFirst⟩
      (.slice .iface [.map [("_id", .int 1)], .map [("_id", .int 2)]]) = none ∧
    get [("created", Value.time 5)] "created" = some (.time 5) ∧
    marker.PrevNext ⟨"created", .null, PageFirst⟩
      (.slice (.map .string .struct) [.map [("created", .time 5)]]) = some (.null, .null) := by
  refine ⟨?_, ?_, rfl, by decide, rfl⟩
  · intro first rows
    unfold marker.PrevNext
    cases hg : (first :: rows).getLast? with
    | none => simp at hg
    | some last => rfl
  · intro key entries rows
    have hl : (Row.map entries :: (rows ++ [Row.map entries])).getLast? =
        some (Row.map entries) := by
      rw [← List.cons_append, List.getLast?_append]
      rfl
    constructor
    · rfl
    · unfold marker.PrevNext
      simp only [List.head?_cons, hl]
      rfl

end mgobase

namespace mgobase

open bsonbuilder

/-- An operation whose exact result fits into an int yields that result. -/
theorem wrap_eq (x : Int) (h : isInt x) : wrap x = x := by
  unfold isInt at h
  unfold wrap
  omega

/-- The result of an operation on ints is an int. -/
theorem wrap_isInt (x : Int) : isInt (wrap x) := by
  unfold isInt wrap
  omega

/-- The conversion to int yields an int when the platform's conversion does. -/
theorem toInt_isInt (conv : F64 → Int) (hc : ∀ f, isInt (conv f)) (f : F64) :
    isInt (toInt conv f) := by
  unfold toInt
  cases f with
  | fin q =>
    simp only []
    split
    · rename_i h
      exact h
    · exact hc _
  | nan => exact hc _
  | ninf => exact hc _
  | pinf => exact hc _

/-- The first loop keeps the set free of duplicates and within the ints. -/
theorem loopLeft_inv (stop totalPages : Int) :
    ∀ (fuel : Nat) (cursor : Int) (pages pages1 : List Int),
      loopLeft stop totalPages fuel cursor pages = some pages1 →
      isInt cursor → pages.Nodup → (∀ n ∈ pages, isInt n) →
      pages1.Nodup ∧ ∀ n ∈ pages1, isInt n := by
  intro fuel
  induction fuel with
  | zero => intro cursor pages pages1 h; simp [loopLeft] at h
  | succ fuel ih =>
    intro cursor pages pages1 h hc hn hi
    unfold loopLeft at h
    split at h
    · refine ih _ _ _ h (wrap_isInt _) (hn.insert) ?_
      intro n hm
      rcases List.mem_insert_iff.1 hm with h1 | h1
      · rw [h1]; exact hc
      · exact hi n h1
    · simp only [Option.some.injEq] at h
      rw [← h]
      exact ⟨hn, hi⟩

/-- The second loop keeps the set free of duplicates and within the ints. -/
theorem loopCurrent_inv (conv : F64 → Int) (hconv : ∀ f, isInt (conv f)) (stop : Int) :
    ∀ (fuel : Nat) (cursor : Int) (pages pages1 : List Int),
      loopCurrent conv stop fuel cursor pages = some pages1 →
      pages.Nodup → (∀ n ∈ pages, isInt n) →
      pages1.Nodup ∧ ∀ n ∈ pages1, isInt n := by
  intro fuel
  induction fuel with
  | zero => intro cursor pages pages1 h; simp [loopCurrent] at h
  | succ fuel ih =>
    intro cursor pages pages1 h hn hi
    unfold loopCurrent at h
    split at h
    · refine ih _ _ _ h (hn.insert) ?_
      intro n hm
      rcases List.mem_insert_iff.1 hm with h1 | h1
      · rw [h1]; exact toInt_isInt conv hconv _
      · exact hi n h1
    · simp only [Option.some.injEq] at h
      rw [← h]
      exact ⟨hn, hi⟩

/-- The third loop keeps the set free of duplicates and within the ints. -/
theorem loopRight_inv (stop : Int) :
    ∀ (fuel : Nat) (cursor : Int) (pages pages1 : List Int),
      loopRight stop fuel cursor pages = some pages1 →
      isInt cursor → pages.Nodup → (∀ n ∈ pages, isInt n) →
      pages1.Nodup ∧ ∀ n ∈ pages1, isInt n := by
  intro fuel
  induction fuel with
  | zero => intro cursor pages pages1 h; simp [loopRight] at h
  | succ fuel ih =>
    intro cursor pages pages1 h hc hn hi
    unfold loopRight at h
    split at h
    · refine ih _ _ _ h (wrap_isInt _) (hn.insert) ?_
      intro n hm
      rcases List.mem_insert_iff.1 hm with h1 | h1
      · rw [h1]; exact hc
      · exact hi n h1
    · simp only [Option.some.injEq] at h
      rw [← h]
      exact ⟨hn, hi⟩

/-- What IterRange returns is the last loop run over keys that are ints in strictly ascending
order. -/
theorem IterRange_keys (conv : F64 → Int) (hconv : ∀ f, isInt (conv f)) (p : paginater)
    (hp : isInt p.totalPages) (fuel : Nat) (leftEdge leftCurrent rightCurrent rightEdge : Int)
    (items : List PageItem)
    (h : p.IterRange conv fuel leftEdge leftCurrent rightCurrent rightEdge = some items) :
    ∃ keys : List Int, keys.Pairwise (· < ·) ∧ (∀ k ∈ keys, isInt k) ∧
      items = itemsLoop 0 keys := by
  unfold paginater.IterRange at h
  cases h1 : loopLeft (wrap (1 + leftEdge)) p.totalPages fuel 1 [] with
  | none => rw [h1] at h; simp at h
  | some pages1 =>
    rw [h1] at h
    simp only [] at h
    cases h2 : loopCurrent conv
        (min (roundInt (wrap (p.page + rightCurrent))) (roundInt p.totalPages)) fuel
        (max 1 (roundInt (wrap (p.page - leftCurrent)))) pages1 with
    | none => rw [h2] at h; simp at h
    | some pages2 =>
      rw [h2] at h
      simp only [] at h
      cases h3 : loopRight (wrap (p.totalPages - rightEdge)) fuel p.totalPages pages2 with
      | none => rw [h3] at h; simp at h
      | some pages3 =>
        rw [h3] at h
        simp only [Option.some.injEq] at h
        have i1 := loopLeft_inv _ _ _ _ _ _ h1 (by unfold isInt; omega) List.nodup_nil
          (by simp)
        have i2 := loopCurrent_inv conv hconv _ _ _ _ _ h2 i1.1 i1.2
        have i3 := loopRight_inv _ _ _ _ _ h3 hp i2.1 i2.2
        refine ⟨pages3.insertionSort (· ≤ ·), ?_, ?_, h.symm⟩
        · have hs := List.sorted_insertionSort (· ≤ ·) pages3
          have hn : (pages3.insertionSort (· ≤ ·)).Nodup :=
            (List.perm_insertionSort (· ≤ ·) pages3).nodup_iff.2 i3.1
          exact hs.lt_of_le hn
        · intro k hk
          exact i3.2 k ((List.perm_insertionSort (· ≤ ·) pages3).mem_iff.1 hk)

/-- On ints in strictly ascending order the last loop of IterRange yields what the
specification describes. -/
theorem itemsLoop_eq_withGaps :
    ∀ (keys : List Int) (lastKey : Int), isInt lastKey → (∀ k ∈ keys, isInt k) →
      (lastKey :: keys).Pairwise (· < ·) → itemsLoop lastKey keys = withGapsFrom lastKey keys := by
  intro keys
  induction keys with
  | nil => intro lastKey _ _ _; rfl
  | cons k ks ih =>
    intro lastKey hl hk hp
    have hlt : lastKey < k := (List.pairwise_cons.1 hp).1 k (List.mem_cons_self _ _)
    have hki : isInt k := hk k (List.mem_cons_self _ _)
    have hw : wrap (lastKey + 1) = lastKey + 1 := by
      apply wrap_eq
      unfold isInt at *
      omega
    have ih1 := ih k hki (fun x hx => hk x (List.mem_cons_of_mem _ hx)) (List.pairwise_cons.1 hp).2
    unfold itemsLoop withGapsFrom
    rw [hw, List.zip_cons_cons, List.flatMap_cons]
    unfold withGapsFrom at ih1
    by_cases h : lastKey + 1 = k
    · rw [if_neg (not_not.2 h), ih1]
      simp only [h, if_true, List.singleton_append]
    · rw [if_pos h, ih1]
      simp only [h, if_false, List.cons_append, List.nil_append]

/-- The page numbers of the output are the keys, in their order. -/
theorem pageNumbers_itemsLoop :
    ∀ (keys : List Int) (lastKey : Int), pageNumbers (itemsLoop lastKey keys) = keys := by
  intro keys
  induction keys with
  | nil => intro lastKey; rfl
  | cons k ks ih =>
    intro lastKey
    unfold itemsLoop
    by_cases h : wrap (lastKey + 1) ≠ k
    · rw [if_pos h]
      have := ih k
      unfold pageNumbers at this ⊢
      simp only [List.filter_cons, Bool.not_true, Bool.not_false, if_true, List.map_cons]
      simp [this]
    · rw [if_neg h]
      have := ih k
      unfold pageNumbers at this ⊢
      simp only [List.filter_cons, Bool.not_false, if_true, List.map_cons]
      simp [this]

/-- The output is empty or starts with a page or with a placeholder and a page. -/
theorem itemsLoop_head (lastKey k : Int) (ks : List Int) :
    itemsLoop lastKey (k :: ks) =
      (if wrap (lastKey + 1) ≠ k then [⟨0, true⟩] else []) ++ ⟨k, false⟩ :: itemsLoop k ks := by
  conv => lhs; unfold itemsLoop
  by_cases h : wrap (lastKey + 1) ≠ k
  · rw [if_pos h, if_pos h]; rfl
  · rw [if_neg h, if_neg h]; rfl

/-- The output never has two placeholders in a row. -/
theorem itemsLoop_no_two :
    ∀ (keys : List Int) (lastKey : Int),
      (itemsLoop lastKey keys).Chain'
        (fun a b => ¬ (a.IsPlaceHolder = true ∧ b.IsPlaceHolder = true)) := by
  intro keys
  induction keys with
  | nil => intro lastKey; exact List.chain'_nil
  | cons k ks ih =>
    intro lastKey
    have hrest : (⟨k, false⟩ :: itemsLoop k ks).Chain'
        (fun a b => ¬ (a.IsPlaceHolder = true ∧ b.IsPlaceHolder = true)) := by
      cases hks : itemsLoop k ks with
      | nil => exact List.chain'_singleton _
      | cons x xs =>
        rw [List.chain'_cons]
        refine ⟨fun h => absurd h.1 (by simp), ?_⟩
        rw [← hks]
        exact ih k
    rw [itemsLoop_head]
    by_cases h : wrap (lastKey + 1) ≠ k
    · rw [if_pos h]
      show List.Chain' _ (⟨0, true⟩ :: ⟨k, false⟩ :: itemsLoop k ks)
      rw [List.chain'_cons]
      exact ⟨fun h => absurd h.2 (by simp), hrest⟩
    · rw [if_neg h]
      exact hrest

/-- The output never ends with a placeholder. -/
theorem itemsLoop_last :
    ∀ (keys : List Int) (lastKey : Int) (a : PageItem),
      (itemsLoop lastKey keys).getLast? = some a → a.IsPlaceHolder = false := by
  intro keys
  induction keys with
  | nil => intro lastKey a h; simp [itemsLoop] at h
  | cons k ks ih =>
    intro lastKey a h
    have hrest : (⟨k, false⟩ :: itemsLoop k ks : List PageItem).getLast? = some a →
        a.IsPlaceHolder = false := by
      intro h1
      cases hks : itemsLoop k ks with
      | nil =>
        rw [hks] at h1
        simp only [List.getLast?_singleton, Option.some.injEq] at h1
        rw [← h1]
      | cons x xs =>
        rw [hks, List.getLast?_cons_cons, ← hks] at h1
        exact ih k a h1
    rw [itemsLoop_head] at h
    by_cases h0 : wrap (lastKey + 1) ≠ k
    · rw [if_pos h0] at h
      exact hrest (by simpa [List.getLast?_cons_cons] using h)
    · rw [if_neg h0] at h
      exact hrest h

/-- A number below `2 ^ k` has at most `k` binary digits. -/
theorem bitLen_le : ∀ (fuel n k : Nat), n < 2 ^ k → bitLen fuel n ≤ k := by
  intro fuel
  induction fuel with
  | zero => intro n k _; exact Nat.zero_le _
  | succ fuel ih =>
    intro n k h
    unfold bitLen
    by_cases h0 : n = 0
    · rw [if_pos h0]; exact Nat.zero_le _
    · rw [if_neg h0]
      cases k with
      | zero => simp at h; exact absurd h h0
      | succ k =>
        have : n / 2 < 2 ^ k := by
          rw [Nat.div_lt_iff_lt_mul (by decide)]
          rw [pow_succ] at h
          exact h
        have := ih (n / 2) k this
        omega

/-- An integer below `2 ^ 53` in absolute value is a float64. -/
theorem roundInt_eq (x : Int) (h1 : - 2 ^ 53 < x) (h2 : x < 2 ^ 53) : roundInt x = x := by
  have hn : x.natAbs < 2 ^ 53 := by omega
  have hr : roundNat x.natAbs = x.natAbs := by
    unfold roundNat
    simp only []
    rw [if_pos (bitLen_le _ _ 53 hn)]
  unfold roundInt
  rw [hr]
  split <;> omega

/-- The conversion to int of a float64 that is a whole number within the ints. -/
theorem toInt_intCast (conv : F64 → Int) (c : Int) (h : isInt c) :
    toInt conv (.fin (c : ℚ)) = c := by
  unfold toInt
  simp only [Rat.intCast_num, Rat.intCast_den, Nat.cast_one, Int.tdiv_one]
  exact if_pos h

/-- The first loop ends and adds the numbers from the cursor on that are below `stop` and at
most `totalPages`. -/
theorem loopLeft_spec (stop totalPages : Int) (ht : totalPages < 2 ^ 63 - 1) :
    ∀ (fuel : Nat) (cursor : Int) (pages : List Int), - 2 ^ 63 ≤ cursor →
      (totalPages + 1 - cursor).toNat < fuel →
      ∃ pages1, loopLeft stop totalPages fuel cursor pages = some pages1 ∧
        ∀ n, n ∈ pages1 ↔ n ∈ pages ∨ (cursor ≤ n ∧ n < stop ∧ n ≤ totalPages) := by
  intro fuel
  induction fuel with
  | zero => intro cursor pages _ h; exact absurd h (Nat.not_lt_zero _)
  | succ fuel ih =>
    intro cursor pages hc hf
    unfold loopLeft
    by_cases h : cursor < stop ∧ cursor ≤ totalPages
    · rw [if_pos h, wrap_eq _ (by unfold isInt; omega)]
      obtain ⟨pages1, h1, h2⟩ := ih (cursor + 1) (pages.insert cursor) (by omega) (by omega)
      refine ⟨pages1, h1, ?_⟩
      intro n
      rw [h2, List.mem_insert_iff]
      constructor
      · rintro ((h3 | h3) | h3)
        · exact Or.inr ⟨by omega, by omega, by omega⟩
        · exact Or.inl h3
        · exact Or.inr ⟨by omega, h3.2.1, h3.2.2⟩
      · rintro (h3 | h3)
        · exact Or.inl (Or.inr h3)
        · by_cases h4 : n = cursor
          · exact Or.inl (Or.inl h4)
          · exact Or.inr ⟨by omega, h3.2.1, h3.2.2⟩
    · rw [if_neg h]
      refine ⟨pages, rfl, ?_⟩
      intro n
      constructor
      · exact Or.inl
      · rintro (h3 | h3)
        · exact h3
        · exact absurd ⟨by omega, by omega⟩ h

/-- The second loop ends, below `2 ^ 53`, and adds the numbers from the cursor to `stop`. -/
theorem loopCurrent_spec (conv : F64 → Int) (stop : Int) (hs : stop < 2 ^ 53 - 1) :
    ∀ (fuel : Nat) (cursor : Int) (pages : List Int), - 2 ^ 53 < cursor →
      (stop + 1 - cursor).toNat < fuel →
      ∃ pages1, loopCurrent conv stop fuel cursor pages = some pages1 ∧
        ∀ n, n ∈ pages1 ↔ n ∈ pages ∨ (cursor ≤ n ∧ n ≤ stop) := by
  intro fuel
  induction fuel with
  | zero => intro cursor pages _ h; exact absurd h (Nat.not_lt_zero _)
  | succ fuel ih =>
    intro cursor pages hc hf
    unfold loopCurrent
    by_cases h : cursor ≤ stop
    · rw [if_pos h, roundInt_eq _ (by omega) (by omega),
        toInt_intCast conv cursor (by unfold isInt; omega)]
      obtain ⟨pages1, h1, h2⟩ := ih (cursor + 1) (pages.insert cursor) (by omega) (by omega)
      refine ⟨pages1, h1, ?_⟩
      intro n
      rw [h2, List.mem_insert_iff]
      constructor
      · rintro ((h3 | h3) | h3)
        · exact Or.inr ⟨by omega, by omega⟩
        · exact Or.inl h3
        · exact Or.inr ⟨by omega, h3.2⟩
      · rintro (h3 | h3)
        · exact Or.inl (Or.inr h3)
        · by_cases h4 : n = cursor
          · exact Or.inl (Or.inl h4)
          · exact Or.inr ⟨by omega, h3.2⟩
    · rw [if_neg h]
      refine ⟨pages, rfl, ?_⟩
      intro n
      constructor
      · exact Or.inl
      · rintro (h3 | h3)
        · exact h3
        · exact absurd (by omega) h

/-- The third loop ends and adds the numbers from the cursor down that are above `stop` and
at least 1. -/
theorem loopRight_spec (stop : Int) :
    ∀ (fuel : Nat) (cursor : Int) (pages : List Int), cursor < 2 ^ 63 →
      cursor.toNat < fuel →
      ∃ pages1, loopRight stop fuel cursor pages = some pages1 ∧
        ∀ n, n ∈ pages1 ↔ n ∈ pages ∨ (n ≤ cursor ∧ n > stop ∧ n ≥ 1) := by
  intro fuel
  induction fuel with
  | zero => intro cursor pages _ h; exact absurd h (Nat.not_lt_zero _)
  | succ fuel ih =>
    intro cursor pages hc hf
    unfold loopRight
    by_cases h : cursor > stop ∧ cursor ≥ 1
    · rw [if_pos h, wrap_eq _ (by unfold isInt; omega)]
      obtain ⟨pages1, h1, h2⟩ := ih (cursor - 1) (pages.insert cursor) (by omega) (by omega)
      refine ⟨pages1, h1, ?_⟩
      intro n
      rw [h2, List.mem_insert_iff]
      constructor
      · rintro ((h3 | h3) | h3)
        · exact Or.inr ⟨by omega, by omega, by omega⟩
        · exact Or.inl h3
        · exact Or.inr ⟨by omega, h3.2.1, h3.2.2⟩
      · rintro (h3 | h3)
        · exact Or.inl (Or.inr h3)
        · by_cases h4 : n = cursor
          · exact Or.inl (Or.inl h4)
          · exact Or.inr ⟨by omega, h3.2.1, h3.2.2⟩
    · rw [if_neg h]
      refine ⟨pages, rfl, ?_⟩
      intro n
      constructor
      · exact Or.inl
      · rintro (h3 | h3)
        · exact h3
        · exact absurd ⟨by omega, by omega⟩ h

/-- What IterRange does on a paginater and arguments below `2 ^ 52` in absolute value: it
returns, and the page numbers of its output are, in strictly ascending order, the integers
from 1 to TotalPages that lie in [1, leftEdge], in [Page - leftCurrent, Page + rightCurrent]
or in [TotalPages - rightEdge + 1, TotalPages]. -/
theorem IterRange_spec (conv : F64 → Int) (hconv : ∀ f, isInt (conv f)) (p : paginater)
    (leftEdge leftCurrent rightCurrent rightEdge : Int)
    (hpage : small p.page) (htotal : small p.totalPages) (hle : small leftEdge)
    (hlc : small leftCurrent) (hrc : small rightCurrent) (hre : small rightEdge)
    (fuel : Nat) (hf : p.totalPages.toNat < fuel) :
    ∃ items, p.IterRange conv fuel leftEdge leftCurrent rightCurrent rightEdge = some items ∧
      (pageNumbers items).Pairwise (· < ·) ∧
      ∀ n, n ∈ pageNumbers items ↔
        1 ≤ n ∧ n ≤ p.totalPages ∧
          (n ≤ leftEdge ∨ (p.page - leftCurrent ≤ n ∧ n ≤ p.page + rightCurrent) ∨
            p.totalPages - rightEdge + 1 ≤ n) := by
  unfold small at *
  have w1 : wrap (1 + leftEdge) = 1 + leftEdge := wrap_eq _ (by unfold isInt; omega)
  have w2 : wrap (p.page + rightCurrent) = p.page + rightCurrent :=
    wrap_eq _ (by unfold isInt; omega)
  have w3 : wrap (p.page - leftCurrent) = p.page - leftCurrent :=
    wrap_eq _ (by unfold isInt; omega)
  have w4 : wrap (p.totalPages - rightEdge) = p.totalPages - rightEdge :=
    wrap_eq _ (by unfold isInt; omega)
  have r1 : roundInt (p.page + rightCurrent) = p.page + rightCurrent :=
    roundInt_eq _ (by omega) (by omega)
  have r2 : roundInt (p.page - leftCurrent) = p.page - leftCurrent :=
    roundInt_eq _ (by omega) (by omega)
  have r3 : roundInt p.totalPages = p.totalPages := roundInt_eq _ (by omega) (by omega)
  obtain ⟨pages1, h1, m1⟩ := loopLeft_spec (1 + leftEdge) p.totalPages (by omega) fuel 1 []
    (by omega) (by omega)
  obtain ⟨pages2, h2, m2⟩ := loopCurrent_spec conv (min (p.page + rightCurrent) p.totalPages)
    (by omega) fuel (max 1 (p.page - leftCurrent)) pages1 (by omega) (by omega)
  obtain ⟨pages3, h3, m3⟩ := loopRight_spec (p.totalPages - rightEdge) fuel p.totalPages pages2
    (by omega) hf
  have hres : p.IterRange conv fuel leftEdge leftCurrent rightCurrent rightEdge =
      some (itemsLoop 0 (pages3.insertionSort (· ≤ ·))) := by
    unfold paginater.IterRange
    rw [w1, w2, w3, w4, r1, r2, r3, h1]
    simp only []
    rw [h2]
    simp only []
    rw [h3]
  refine ⟨_, hres, ?_, ?_⟩
  · obtain ⟨keys, hk1, _, hk3⟩ := IterRange_keys conv hconv p (by unfold isInt; omega) fuel
      leftEdge leftCurrent rightCurrent rightEdge _ hres
    rw [hk3, pageNumbers_itemsLoop]
    exact hk1
  · intro n
    rw [pageNumbers_itemsLoop, (List.perm_insertionSort (· ≤ ·) pages3).mem_iff, m3, m2, m1]
    simp only [List.not_mem_nil, false_or]
    constructor
    · rintro ((h | h) | h) <;> omega
    · intro h
      omega

/-- The second loop never ends when the cursor is at most `stop` and its successor rounds
back to it. -/
theorem loopCurrent_stuck (conv : F64 → Int) (stop cursor : Int) (h1 : cursor ≤ stop)
    (h2 : roundInt (cursor + 1) = cursor) :
    ∀ (fuel : Nat) (pages : List Int), loopCurrent conv stop fuel cursor pages = none := by
  intro fuel
  induction fuel with
  | zero => intro pages; rfl
  | succ fuel ih =>
    intro pages
    unfold loopCurrent
    rw [if_pos h1, h2]
    exact ih _

/-- IterRange never returns when the second loop starts at a cursor whose successor rounds
back to it. -/
theorem IterRange_stuck (conv : F64 → Int) (p : paginater)
    (leftEdge leftCurrent rightCurrent rightEdge : Int)
    (h1 : max 1 (roundInt (wrap (p.page - leftCurrent))) ≤
      min (roundInt (wrap (p.page + rightCurrent))) (roundInt p.totalPages))
    (h2 : roundInt (max 1 (roundInt (wrap (p.page - leftCurrent))) + 1) =
      max 1 (roundInt (wrap (p.page - leftCurrent))))
    (fuel : Nat) :
    p.IterRange conv fuel leftEdge leftCurrent rightCurrent rightEdge = none := by
  unfold paginater.IterRange
  cases loopLeft (wrap (1 + leftEdge)) p.totalPages fuel 1 [] with
  | none => rfl
  | some pages1 =>
    simp only []
    rw [loopCurrent_stuck conv _ _ h1 h2]

/-- C17 (code bug): the page numbers of IterRange are not, for every paginater with
TotalPages >= 1 and every argument, the integers of [1, TotalPages] in one of the three
ranges.  With leftEdge the largest int, `1+leftEdge` wraps around and the first loop adds
nothing: on page 1 of 10, IterRange(MaxInt64, 0, 0, 0) returns page 1 only, although every
page from 1 to 10 lies in [1, leftEdge].  And on page `2 ^ 53` of `2 ^ 54`,
IterRange(0, 0, 1, 0) never returns: the cursor of the second loop is a float64 whose
increment rounds back to itself. -/
theorem IterRange_left_edge_wraps (conv : F64 → Int) :
    NewPaginater conv 0 10 100 = ⟨1, 10, 100, 10⟩ ∧
    (∀ fuel, 2 ≤ fuel →
      paginater.IterRange conv ⟨1, 10, 100, 10⟩ fuel (2 ^ 63 - 1) 0 0 0 = some [⟨1, false⟩]) ∧
    NewPaginater conv (2 ^ 53 - 1) 1 (2 ^ 54) = ⟨2 ^ 53, 1, 2 ^ 54, 2 ^ 54⟩ ∧
    (∀ fuel, paginater.IterRange conv ⟨2 ^ 53, 1, 2 ^ 54, 2 ^ 54⟩ fuel 0 0 1 0 = none) := by
  refine ⟨rfl, ?_, rfl, ?_⟩
  · intro fuel hf
    obtain ⟨f, rfl⟩ : ∃ f, fuel = f + 2 := ⟨fuel - 2, by omega⟩
    rfl
  · intro fuel
    exact IterRange_stuck conv _ 0 0 1 0 (by decide) (by decide) fuel

/-- C18, counterexample: on page 5 of 10, IterRange(0, 1, 1, 0) keeps the pages 4, 5 and 6 and
starts with a placeholder. -/
theorem IterRange_starts_with_placeholder :
    NewPaginater (fun _ => 0) 40 10 100 = ⟨5, 10, 100, 10⟩ ∧
    paginater.IterRange (fun _ => 0) ⟨5, 10, 100, 10⟩ 11 0 1 1 0 =
      some [⟨0, true⟩, ⟨4, false⟩, ⟨5, false⟩, ⟨6, false⟩] ∧
    ¬ (∀ (conv : F64 → Int) (p : paginater) (fuel : Nat)
        (leftEdge leftCurrent rightCurrent rightEdge : Int) (items : List PageItem),
        p.IterRange conv fuel leftEdge leftCurrent rightCurrent rightEdge = some items →
        ∀ a, items.head? = some a → a.IsPlaceHolder = false) := by
  refine ⟨by decide, by decide, ?_⟩
  intro h
  have := h (fun _ => 0) ⟨5, 10, 100, 10⟩ 11 0 1 1 0
    [⟨0, true⟩, ⟨4, false⟩, ⟨5, false⟩, ⟨6, false⟩] (by decide) ⟨0, true⟩ rfl
  exact absurd this (by decide)

/-- C18, as the code has it: in the output of IterRange a placeholder stands exactly in front
of each kept page number that is not the successor of the kept page number before it, the
first kept page number being compared with 0: so between two consecutive kept page numbers
that are not adjacent integers, and at the start when the first kept page number is not 1,
and nowhere else.  The output never ends with a placeholder and never has two placeholders in
a row.  (IterRange returns whenever the paginater and the arguments are below `2 ^ 52` in
absolute value.) -/
theorem IterRange_placeholders (conv : F64 → Int) (hconv : ∀ f, isInt (conv f)) (p : paginater)
    (hp : isInt p.totalPages) (leftEdge leftCurrent rightCurrent rightEdge : Int) :
    (∀ fuel items,
      p.IterRange conv fuel leftEdge leftCurrent rightCurrent rightEdge = some items →
      (pageNumbers items).Pairwise (· < ·) ∧
      items = withGapsFrom 0 (pageNumbers items) ∧
      (∀ a, items.head? = some a →
        (a.IsPlaceHolder = true ↔ (pageNumbers items).head? ≠ some 1)) ∧
      (∀ a, items.getLast? = some a → a.IsPlaceHolder = false) ∧
      items.Chain' (fun a b => ¬ (a.IsPlaceHolder = true ∧ b.IsPlaceHolder = true))) ∧
    (small p.page → small p.totalPages → small leftEdge → small leftCurrent →
      small rightCurrent → small rightEdge →
      ∃ items, p.IterRange conv (p.totalPages.toNat + 1) leftEdge leftCurrent rightCurrent
        rightEdge = some items) := by
  constructor
  · intro fuel items h
    obtain ⟨keys, hk1, hk2, hk3⟩ := IterRange_keys conv hconv p hp fuel leftEdge leftCurrent
      rightCurrent rightEdge items h
    have hpn : pageNumbers items = keys := by rw [hk3, pageNumbers_itemsLoop]
    rw [hpn]
    refine ⟨hk1, ?_, ?_, ?_, ?_⟩
    · rw [hk3]
      cases keys with
      | nil => rfl
      | cons k ks =>
        have hk : isInt k := hk2 k (List.mem_cons_self _ _)
        by_cases h0 : 0 < k
        · exact itemsLoop_eq_withGaps (k :: ks) 0 (by unfold isInt; omega) hk2
            (List.pairwise_cons.2 ⟨fun x hx => by
              rcases List.mem_cons.1 hx with h1 | h1
              · rw [h1]; exact h0
              · exact lt_trans h0 ((List.pairwise_cons.1 hk1).1 x h1), hk1⟩)
        · have hrest := itemsLoop_eq_withGaps ks k hk
            (fun x hx => hk2 x (List.mem_cons_of_mem _ hx)) hk1
          have hw : wrap (0 + 1) ≠ k := by
            rw [wrap_eq _ (by unfold isInt; omega)]
            omega
          rw [itemsLoop_head, if_pos hw, hrest]
          unfold withGapsFrom
          rw [List.zip_cons_cons, List.flatMap_cons]
          have hne : ¬ ((0 : Int), k).1 + 1 = ((0 : Int), k).2 := by
            show ¬ (0 : Int) + 1 = k
            omega
          rw [if_neg hne]
          rfl
    · intro a ha
      rw [hk3] at ha
      cases keys with
      | nil => simp [itemsLoop] at ha
      | cons k ks =>
        have hw : wrap (0 + 1) = 1 := by decide
        rw [itemsLoop_head, hw] at ha
        by_cases h1 : (1 : Int) ≠ k
        · rw [if_pos h1] at ha
          simp only [List.singleton_append, List.head?_cons, Option.some.injEq] at ha
          rw [← ha]
          simp only [List.head?_cons, ne_eq, Option.some.injEq, true_iff]
          exact fun h => h1 h.symm
        · rw [if_neg h1] at ha
          simp only [List.nil_append, List.head?_cons, Option.some.injEq] at ha
          rw [← ha]
          simp only [List.head?_cons, ne_eq, Option.some.injEq, Bool.false_eq_true, false_iff,
            not_not]
          exact (not_not.1 h1).symm
    · intro a ha
      rw [hk3] at ha
      exact itemsLoop_last keys 0 a ha
    · rw [hk3]
      exact itemsLoop_no_two keys 0
  · intro h1 h2 h3 h4 h5 h6
    obtain ⟨items, hi, _⟩ := IterRange_spec conv hconv p leftEdge leftCurrent rightCurrent
      rightEdge h1 h2 h3 h4 h5 h6 (p.totalPages.toNat + 1) (by omega)
    exact ⟨items, hi⟩

/-- C18, witness: page 9 of 17 with IterRange(2, 5, 5, 2), the case of the tests. -/
theorem IterRange_placeholders_witness :
    (∀ f : F64, isInt ((fun _ => 0) f)) ∧ isInt (paginater.mk 9 10 166 17).totalPages ∧
    paginater.IterRange (fun _ => 0) ⟨9, 10, 166, 17⟩ 18 2 5 5 2 =
      some (withGapsFrom 0 [1, 2, 4, 5, 6, 7, 8, 9, 10, 11, 12, 13, 14, 16, 17]) ∧
    (withGapsFrom 0 [1, 2, 4, 5, 6, 7, 8, 9, 10, 11, 12, 13, 14, 16, 17]).Chain'
      (fun a b => ¬ (a.IsPlaceHolder = true ∧ b.IsPlaceHolder = true)) ∧
    ∃ items, paginater.IterRange (fun _ => 0) ⟨9, 10, 166, 17⟩
      ((paginater.mk 9 10 166 17).totalPages.toNat + 1) 2 5 5 2 = some items :=
  ⟨fun _ => (by unfold isInt; decide : isInt 0), by unfold isInt; decide, by decide,
    ((IterRange_placeholders (fun _ => 0) (fun _ => (by unfold isInt; decide : isInt 0))
      ⟨9, 10, 166, 17⟩ (by unfold isInt; decide) 2 5 5 2).1 18 _ (by decide)).2.2.2.2,
    (IterRange_placeholders (fun _ => 0) (fun _ => (by unfold isInt; decide : isInt 0))
      ⟨9, 10, 166, 17⟩ (by unfold isInt; decide) 2 5 5 2).2 (by unfold small; decide)
      (by unfold small; decide) (by unfold small; decide) (by unfold small; decide)
      (by unfold small; decide) (by unfold small; decide)⟩

/-- Navigation on a paginater whose page is an int: HasPrev holds iff Page > 1, PrevPage is
Page - 1 when Page > 1 and Page otherwise, HasNext holds iff Page < TotalPages, and NextPage is
Page + 1 when Page < TotalPages and Page otherwise. -/
theorem paginater_navigation (p : paginater) (hpage : isInt p.page)
    (htotal : isInt p.totalPages) :
    (p.HasPrev = true ↔ p.Page > 1) ∧
    p.PrevPage = (if p.Page > 1 then p.Page - 1 else p.Page) ∧
    (p.HasNext = true ↔ p.Page < p.TotalPages) ∧
    p.NextPage = (if p.Page < p.TotalPages then p.Page + 1 else p.Page) := by
  unfold isInt at *
  unfold paginater.HasPrev paginater.PrevPage paginater.HasNext paginater.NextPage
    paginater.Page paginater.TotalPages
  refine ⟨by simp, ?_, by simp, ?_⟩
  · by_cases h : p.page > 1
    · rw [if_pos h, if_pos h, wrap_eq _ (by unfold isInt; omega)]
    · rw [if_neg h, if_neg h]
  · by_cases h : p.page < p.totalPages
    · rw [if_pos h, if_pos h, wrap_eq _ (by unfold isInt; omega)]
    · rw [if_neg h, if_neg h]

/-- C16 (code bug): NewPaginater does not give the ceiling of count / |limit|, the absolute
value of limit and floor(skip / |limit|) + 1 for every skip, count and limit other than 0.
The division is one of float64 values: with count = `2 ^ 53 + 1` and limit = 1 it yields
TotalPages = `2 ^ 53`, one less than the ceiling.  And the ints wrap around: the smallest int
as limit stays negative (with TotalPages = 0 for count = 5), and skip = the largest int with
limit = 1 gives the smallest int as Page. -/
theorem NewPaginater_float_and_wrap (conv : F64 → Int) :
    NewPaginater conv 0 1 (2 ^ 53 + 1) = ⟨1, 1, 2 ^ 53 + 1, 2 ^ 53⟩ ∧
    (NewPaginater conv 0 1 (2 ^ 53 + 1)).TotalPages ≠
      ⌈(((2 ^ 53 + 1 : Int) : ℚ) / ((|1| : Int) : ℚ))⌉ ∧
    NewPaginater conv 0 (- 2 ^ 63) 5 = ⟨1, - 2 ^ 63, 5, 0⟩ ∧
    NewPaginater conv (2 ^ 63 - 1) 1 5 = ⟨- 2 ^ 63, 1, 5, 5⟩ ∧
    NewPaginater conv 80 10 166 = ⟨9, 10, 166, 17⟩ := by
  refine ⟨rfl, ?_, rfl, rfl, rfl⟩
  have h : (NewPaginater conv 0 1 (2 ^ 53 + 1)).TotalPages = 2 ^ 53 := rfl
  rw [h]
  norm_num

end mgobase

namespace bsonbuilder

theorem below_orderable (a b : Value) (h : below a b = true) :
    ∃ c, orderable c a = true ∧ orderable c b = true := by
  obtain ⟨hr, h4⟩ := below_classRank a b h
  obtain ⟨c, hca, hcb⟩ := inClass_of_classRank a b hr h4
  refine ⟨c, (orderable_iff c a).mpr ⟨hca, ?_, ?_⟩, (orderable_iff c b).mpr ⟨hcb, ?_, ?_⟩⟩
  all_goals
    cases a <;> cases b <;> simp_all [below, isTimePtr, isNaN, IsNumeric, toFloat64]
  all_goals
    rename_i f g
    cases f <;> cases g <;> simp_all [F64.lt]

/-- A list of two or more values with a strict maximum or a strict minimum is of one class,
with no NaN and no `*time.Time`. -/
theorem strict_orderable (vals : List Value) (m : Value) (hlen : 2 ≤ vals.length)
    (hcount : vals.count m = 1)
    (h : ∀ v ∈ vals, v ≠ m → below v m = true ∨ below m v = true) :
    ∃ c, ∀ v ∈ vals, orderable c v = true := by
  -- some value differs from `m`
  have hex : ∃ v ∈ vals, v ≠ m := by
    by_contra hno
    push_neg at hno
    have hall : ∀ v ∈ vals, v = m := hno
    have : vals = List.replicate vals.length m := List.eq_replicate_iff.mpr ⟨rfl, hall⟩
    rw [this, List.count_replicate_self] at hcount
    omega
  obtain ⟨w, hw, hne⟩ := hex
  have hcm : ∃ c, orderable c m = true := by
    rcases h w hw hne with e | e
    · obtain ⟨c, _, h2⟩ := below_orderable w m e
      exact ⟨c, h2⟩
    · obtain ⟨c, h1, _⟩ := below_orderable m w e
      exact ⟨c, h1⟩
  obtain ⟨c, hc⟩ := hcm
  refine ⟨c, ?_⟩
  intro v hv
  by_cases hvm : v = m
  · exact hvm ▸ hc
  · have key : ∃ d, orderable d v = true ∧ orderable d m = true := by
      rcases h v hv hvm with e | e
      · exact below_orderable v m e
      · obtain ⟨d, h1, h2⟩ := below_orderable m v e
        exact ⟨d, h2, h1⟩
    obtain ⟨d, h1, h2⟩ := key
    have : c = d := inClass_unique c d m ((orderable_iff c m).mp hc).1
      ((orderable_iff d m).mp h2).1
    exact this ▸ h1

theorem Max_strictTop [SliceSorter] (hlib : SortsSlices) (vals : List Value) (m : Value)
    (hm : m ∈ vals) (hcount : vals.count m = 1)
    (h : ∀ v ∈ vals, v ≠ m → below v m = true) : Max vals = some m := by
  by_cases hlen : 2 ≤ vals.length
  · obtain ⟨c, hc⟩ := strict_orderable vals m hlen hcount (fun v hv hne => Or.inl (h v hv hne))
    obtain ⟨mx, e1, m1, t1⟩ := Max_orderable hlib c vals (List.ne_nil_of_mem hm) hc
    by_cases hmx : mx = m
    · exact hmx ▸ e1
    · have := h mx m1 hmx
      rw [t1 m hm] at this
      exact absurd this (by decide)
  · match vals, hm, hlen with
    | [x], hm, _ =>
      rw [List.mem_singleton.mp hm]
      exact Max_singleton x
    | _ :: _ :: _, _, hlen => exact absurd (by simp) hlen

theorem Min_strictBottom [SliceSorter] (hlib : SortsSlices) (vals : List Value) (m : Value)
    (hm : m ∈ vals) (hcount : vals.count m = 1)
    (h : ∀ v ∈ vals, v ≠ m → below m v = true) : Min vals = some m := by
  by_cases hlen : 2 ≤ vals.length
  · obtain ⟨c, hc⟩ := strict_orderable vals m hlen hcount (fun v hv hne => Or.inr (h v hv hne))
    obtain ⟨mn, e1, m1, t1⟩ := Min_orderable hlib c vals (List.ne_nil_of_mem hm) hc
    by_cases hmn : mn = m
    · exact hmn ▸ e1
    · have := h mn m1 hmn
      rw [t1 m hm] at this
      exact absurd this (by decide)
  · match vals, hm, hlen with
    | [x], hm, _ =>
      rw [List.mem_singleton.mp hm]
      exact Min_singleton x
    | _ :: _ :: _, _, hlen => exact absurd (by simp) hlen

/-- Under Gt, Gte, Lt and Lte the order of the values does not show in the fragment, and the
fragment is rendered without a panic. -/
theorem ToBSON_bound_perm [SliceSorter] (hlib : SortsSlices) (lib : Value → String)
    (o : Operator) (ho : isBound o) (vals vals1 : List Value) (hp : vals1.Perm vals)
    (hf : orderFree o vals) :
    Operator.ToBSON lib o vals1 = Operator.ToBSON lib o vals ∧
    Operator.ToBSON lib o vals ≠ none := by
  rcases hf with hnil | ⟨hlen, hptr, hn, hmix⟩ | ⟨hgt, m, hm, hcount, htop⟩ |
    ⟨hlt, m, hm, hcount, hbot⟩
  · subst hnil
    rw [List.Perm.eq_nil hp]
    exact ⟨rfl, by simp [Operator.ToBSON]⟩
  · have r := not_one_class_nil hlib lib vals hlen hptr hn hmix
    have r1 := not_one_class_nil hlib lib vals1 (hp.length_eq ▸ hlen)
      (fun v hv => hptr v (hp.subset hv))
      (fun h6 v hv => hn (hp.length_eq ▸ h6) v (hp.subset hv))
      (fun ⟨c, hc⟩ => hmix ⟨c, fun v hv => hc v (hp.symm.subset hv)⟩)
    rcases ho with h | h | h | h <;> subst h
    · rw [r.2.2.2.1, r1.2.2.2.1]; exact ⟨rfl, by simp⟩
    · rw [r.2.2.2.2.1, r1.2.2.2.2.1]; exact ⟨rfl, by simp⟩
    · rw [r.2.2.2.2.2.1, r1.2.2.2.2.2.1]; exact ⟨rfl, by simp⟩
    · rw [r.2.2.2.2.2.2, r1.2.2.2.2.2.2]; exact ⟨rfl, by simp⟩
  · have e := Max_strictTop hlib vals m hm hcount htop
    have e1 := Max_strictTop hlib vals1 m (hp.symm.subset hm) (hp.count_eq m ▸ hcount)
      (fun v hv => htop v (hp.subset hv))
    cases vals with
    | nil => simp at hm
    | cons v rest =>
      cases vals1 with
      | nil => exact absurd (List.Perm.eq_nil hp.symm) (List.cons_ne_nil _ _)
      | cons v1 rest1 =>
        rcases hgt with h | h <;> subst h <;>
          simp [Operator.ToBSON, e, e1, OperatorGt, OperatorGte, OperatorEq, OperatorNe] <;>
          split <;> simp
  · have e := Min_strictBottom hlib vals m hm hcount hbot
    have e1 := Min_strictBottom hlib vals1 m (hp.symm.subset hm) (hp.count_eq m ▸ hcount)
      (fun v hv => hbot v (hp.subset hv))
    cases vals with
    | nil => simp at hm
    | cons v rest =>
      cases vals1 with
      | nil => exact absurd (List.Perm.eq_nil hp.symm) (List.cons_ne_nil _ _)
      | cons v1 rest1 =>
        rcases hlt with h | h <;> subst h <;>
          simp [Operator.ToBSON, e, e1, OperatorGt, OperatorGte, OperatorEq, OperatorNe,
            OperatorLt, OperatorLte] <;>
          split <;> simp

/-- Outside Gt, Gte, Lt and Lte no fragment panics. -/
theorem ToBSON_unbound_total [SliceSorter] (lib : Value → String) (o : Operator) (ho : ¬ isBound o)
    (vals : List Value) : Operator.ToBSON lib o vals ≠ none := by
  unfold isBound at ho
  unfold Operator.ToBSON
  cases vals with
  | nil => simp
  | cons v rest =>
    simp only
    have h1 : ¬ (o = OperatorGt ∨ o = OperatorGte) := fun h => ho (by tauto)
    have h2 : ¬ (o = OperatorLt ∨ o = OperatorLte) := fun h => ho (by tauto)
    rw [if_neg h1, if_neg h2]
    split
    · split <;> simp
    · split
      · split <;> simp
      · split <;> simp

/-- C20, counterexample: two builders that received the same two values under one field and
one operator, in the two orders, render different filters: under Like the pattern is the
first value, under Eq the list under $in keeps the insertion order, and under Gt an int and a
float64 that compare equal are both the maximum, the later one being rendered. -/
theorem ToBSON_depends_on_insertion_order :
    (∀ lib, query.ToBSON lib (New.Add "name" OperatorLike [.str "a", .str "b"]) =
      some [("name", [("$regex", .regex "a")])]) ∧
    (∀ lib, query.ToBSON lib (New.Add "name" OperatorLike [.str "b", .str "a"]) =
      some [("name", [("$regex", .regex "b")])]) ∧
    (∀ lib, query.ToBSON lib (New.Add "name" OperatorEq [.str "tom", .str "jery"]) =
      some [("name", [("$in", .vals [.str "tom", .str "jery"])])]) ∧
    (∀ lib, query.ToBSON lib (New.Add "name" OperatorEq [.str "jery", .str "tom"]) =
      some [("name", [("$in", .vals [.str "jery", .str "tom"])])]) ∧
    (∀ lib, query.ToBSON lib (New.Add "age" OperatorGt [.int 1, .float (.fin 1)]) =
      some [("age", [("$gt", .val (.float (.fin 1)))])]) ∧
    (∀ lib, query.ToBSON lib (New.Add "age" OperatorGt [.float (.fin 1), .int 1]) =
      some [("age", [("$gt", .val (.int 1))])]) ∧
    ¬ (∀ (lib : Value → String) (adds adds1 : List AddCall),
        (∀ f o, (∃ a ∈ adds, a.key = f ∧ a.op = o) ↔ (∃ a ∈ adds1, a.key = f ∧ a.op = o)) →
        (∀ f o, (valuesUnder adds1 f o).Perm (valuesUnder adds f o)) →
        ∀ m m1, query.ToBSON lib (build adds) = some m →
          query.ToBSON lib (build adds1) = some m1 → sameFilter m m1) := by
  refine ⟨fun _ => rfl, fun _ => rfl, fun _ => rfl, fun _ => rfl, fun _ => rfl, fun _ => rfl, ?_⟩
  intro h
  have h1 := h (fun _ => "") [⟨"name", OperatorLike, [.str "a", .str "b"]⟩]
    [⟨"name", OperatorLike, [.str "b", .str "a"]⟩]
    (by
      intro f o
      simp only [List.mem_singleton, exists_eq_left])
    (by
      intro f o
      unfold valuesUnder valuesUnder
      by_cases hfo : "name" = f ∧ OperatorLike = o
      · simp only [hfo, and_self, if_true, List.append_nil]
        exact List.Perm.swap _ _ _
      · simp only [hfo, if_false, List.append_nil]
        exact List.Perm.refl _)
    _ _ rfl rfl "name"
  have h2 := h1.2 _ _ rfl rfl "$regex"
  exact absurd h2 (by decide)

/-- C20, as the code has it: the insertion order of the values under Gt, Gte, Lt and Lte is
irrelevant to the rendered filter.  If two builders received the same values under each
(field, operator) pair, in the same order under Eq, Ne and Like and in any order under Gt,
Gte, Lt and Lte, and the values under each Gt or Gte pair have a strict maximum (one value,
occurring once, with every other value strictly below it), those under each Lt or Lte pair a
strict minimum, or the values under the pair are two or more values not all of one class,
without a `*time.Time` (and without a NaN when they are more than 6), then ToBSON returns on
both builders and the two results are equal, whatever the order in which the maps are visited
and whatever algorithm `sort.Slice` runs within its contract. -/
theorem ToBSON_insertion_order [SliceSorter] (hlib : SortsSlices) (lib : Value → String)
    (adds adds1 : List AddCall)
    (q1 q2 : query) (hq1 : Reordered (build adds) q1) (hq2 : Reordered (build adds1) q2)
    (hused : ∀ f o, (∃ a ∈ adds, a.key = f ∧ a.op = o) ↔ (∃ a ∈ adds1, a.key = f ∧ a.op = o))
    (hbound : ∀ a ∈ adds, isBound a.op →
      (valuesUnder adds1 a.key a.op).Perm (valuesUnder adds a.key a.op) ∧
      orderFree a.op (valuesUnder adds a.key a.op))
    (hrest : ∀ a ∈ adds, ¬ isBound a.op →
      valuesUnder adds1 a.key a.op = valuesUnder adds a.key a.op) :
    ∃ m m1, query.ToBSON lib q1 = some m ∧ query.ToBSON lib q2 = some m1 ∧ sameFilter m m1 := by
  obtain ⟨_, _, p1, c1, _⟩ := ToBSON_union_of_fragments lib adds q1 hq1
  obtain ⟨_, _, p2, c2, _⟩ := ToBSON_union_of_fragments lib adds1 q2 hq2
  have key : ∀ f o, (∃ a ∈ adds, a.key = f ∧ a.op = o) →
      Operator.ToBSON lib o (valuesUnder adds1 f o) =
        Operator.ToBSON lib o (valuesUnder adds f o) := by
    rintro f o ⟨a, ha, rfl, rfl⟩
    by_cases hb : isBound a.op
    · exact (ToBSON_bound_perm hlib lib a.op hb _ _ (hbound a ha hb).1 (hbound a ha hb).2).1
    · rw [hrest a ha hb]
  have total : ∀ f o, (∃ a ∈ adds, a.key = f ∧ a.op = o) →
      Operator.ToBSON lib o (valuesUnder adds f o) ≠ none := by
    rintro f o ⟨a, ha, rfl, rfl⟩
    by_cases hb : isBound a.op
    · exact (ToBSON_bound_perm hlib lib a.op hb _ _ (hbound a ha hb).1 (hbound a ha hb).2).2
    · exact ToBSON_unbound_total lib a.op hb _
  cases hm : query.ToBSON lib q1 with
  | none =>
    obtain ⟨f, o, hu, hp⟩ := p1.1 hm
    exact absurd hp (total f o hu)
  | some m =>
    cases hm1 : query.ToBSON lib q2 with
    | none =>
      obtain ⟨f, o, hu, hp⟩ := p2.1 hm1
      rw [key f o ((hused f o).2 hu)] at hp
      exact absurd hp (total f o ((hused f o).2 hu))
    | some m1 =>
      refine ⟨m, m1, rfl, rfl, ?_⟩
      intro f
      have hkeys : (∀ a ∈ adds, a.key ≠ f) ↔ (∀ a ∈ adds1, a.key ≠ f) := by
        constructor
        · intro h a ha hk
          obtain ⟨b, hb, hbk, _⟩ := (hused f a.op).2 ⟨a, ha, hk, rfl⟩
          exact h b hb hbk
        · intro h a ha hk
          obtain ⟨b, hb, hbk, _⟩ := (hused f a.op).1 ⟨a, ha, hk, rfl⟩
          exact h b hb hbk
      refine ⟨by rw [(c1 m hm f).1, (c2 m1 hm1 f).1, hkeys], ?_⟩
      intro sub sub1 hs hs1 k
      apply Option.ext
      intro v
      show get sub k = some v ↔ get sub1 k = some v
      rw [(c1 m hm f).2 sub hs k v, (c2 m1 hm1 f).2 sub1 hs1 k v]
      constructor
      · rintro ⟨o, fr, hu, hfr, hk⟩
        exact ⟨o, fr, (hused f o).1 hu, (key f o hu).trans hfr, hk⟩
      · rintro ⟨o, fr, hu, hfr, hk⟩
        exact ⟨o, fr, (hused f o).2 hu, (key f o ((hused f o).2 hu)).symm.trans hfr, hk⟩

/-- C20, witness: seven ages under Gt in one call and in two calls in another order, and a
boolean and a number under Lt in the two orders. -/
theorem ToBSON_insertion_order_witness :
    SortsSlices ∧
    Reordered (build agesAdds) (build agesAdds) ∧
    Reordered (build agesAddsShuffled) (build agesAddsShuffled) ∧
    (∀ f o, (∃ a ∈ agesAdds, a.key = f ∧ a.op = o) ↔
      (∃ a ∈ agesAddsShuffled, a.key = f ∧ a.op = o)) ∧
    (∀ a ∈ agesAdds, isBound a.op →
      (valuesUnder agesAddsShuffled a.key a.op).Perm (valuesUnder agesAdds a.key a.op) ∧
      orderFree a.op (valuesUnder agesAdds a.key a.op)) ∧
    (∀ a ∈ agesAdds, ¬ isBound a.op →
      valuesUnder agesAddsShuffled a.key a.op = valuesUnder agesAdds a.key a.op) ∧
    query.ToBSON (fun _ => "") (build agesAdds) =
      some [("age", [("$gt", .val (.int 7))]), ("name", [("$eq", .val (.str "tom"))]),
        ("flag", [])] ∧
    ∃ m m1, query.ToBSON (fun _ => "") (build agesAdds) = some m ∧
      query.ToBSON (fun _ => "") (build agesAddsShuffled) = some m1 ∧ sameFilter m m1 :=
  have r1 : Reordered (build agesAdds) (build agesAdds) :=
    ⟨build agesAdds, List.forall₂_same.mpr (fun _ _ => ⟨rfl, List.Perm.refl _⟩),
      List.Perm.refl _⟩
  have r2 : Reordered (build agesAddsShuffled) (build agesAddsShuffled) :=
    ⟨build agesAddsShuffled, List.forall₂_same.mpr (fun _ _ => ⟨rfl, List.Perm.refl _⟩),
      List.Perm.refl _⟩
  have hused : ∀ f o, (∃ a ∈ agesAdds, a.key = f ∧ a.op = o) ↔
      (∃ a ∈ agesAddsShuffled, a.key = f ∧ a.op = o) := by
    intro f o
    simp only [agesAdds, agesAddsShuffled, List.mem_cons, List.mem_singleton,
      List.not_mem_nil, or_false, exists_eq_or_imp, exists_eq_left]
    tauto
  have hbound : ∀ a ∈ agesAdds, isBound a.op →
      (valuesUnder agesAddsShuffled a.key a.op).Perm (valuesUnder agesAdds a.key a.op) ∧
      orderFree a.op (valuesUnder agesAdds a.key a.op) := by
    intro a ha hb
    simp only [agesAdds, List.mem_cons, List.mem_singleton, List.not_mem_nil, or_false] at ha
    rcases ha with rfl | rfl | rfl
    · exact ⟨by decide,
        Or.inr (Or.inr (Or.inl ⟨Or.inl rfl, .int 7, by decide, by decide, by decide⟩))⟩
    · exact absurd hb (by unfold isBound; decide)
    · refine ⟨by decide, Or.inr (Or.inl ⟨by decide, by decide, by decide, ?_⟩)⟩
      rintro ⟨c, hc⟩
      have := hc (.bool true) (by decide)
      cases c <;> exact absurd this (by decide)
  have hrest : ∀ a ∈ agesAdds, ¬ isBound a.op →
      valuesUnder agesAddsShuffled a.key a.op = valuesUnder agesAdds a.key a.op := by
    intro a ha hb
    simp only [agesAdds, List.mem_cons, List.mem_singleton, List.not_mem_nil, or_false] at ha
    rcases ha with rfl | rfl | rfl
    · exact absurd (Or.inl rfl) hb
    · decide
    · exact absurd (Or.inr (Or.inr (Or.inl rfl))) hb
  ⟨insertionSorter_sorts, r1, r2, hused, hbound, hrest, by decide,
    ToBSON_insertion_order insertionSorter_sorts (fun _ => "") agesAdds agesAddsShuffled _ _
      r1 r2 hused hbound hrest⟩

end bsonbuilder

namespace mgobase

open bsonbuilder

/-- A number is below two to the number of its binary digits. -/
theorem lt_two_pow_bitLen : ∀ (fuel n : Nat), n ≤ fuel → n < 2 ^ bitLen fuel n := by
  intro fuel
  induction fuel with
  | zero => intro n h; simp [bitLen]; omega
  | succ fuel ih =>
    intro n h
    unfold bitLen
    by_cases h0 : n = 0
    · rw [if_pos h0, h0]; decide
    · rw [if_neg h0]
      have := ih (n / 2) (by omega)
      rw [pow_succ]
      omega

/-- A positive number has a binary digit. -/
theorem bitLen_pos (n : Nat) (h : 0 < n) : 0 < bitLen n n := by
  cases n with
  | zero => exact absurd h (by decide)
  | succ n =>
    unfold bitLen
    rw [if_neg (by omega)]
    omega

/-- The rounding of the quotient of two positive numbers below `2 ^ 53`: the unit in the last
place is `2 ^ (-s)` for an `s` with `d < 2 * 2 ^ s`, and the significand is the quotient of
`n * 2 ^ s` by `d`, rounded to the nearest integer. -/
theorem roundRatio_small (n d : Nat) (hn : 0 < n) (hn53 : n < 2 ^ 53) (hd : 0 < d)
    (hd53 : d < 2 ^ 53) :
    ∃ s : Nat, d < 2 * 2 ^ s ∧
      roundRatio n d =
        (if d < 2 * (n * 2 ^ s % d) ∨ (2 * (n * 2 ^ s % d) = d ∧ n * 2 ^ s / d % 2 = 1)
          then n * 2 ^ s / d + 1 else n * 2 ^ s / d, - (s : Int)) := by
  have b1 := bitLen_le n n 53 hn53
  have b2 := bitLen_le d d 53 hd53
  have b3 := bitLen_pos n hn
  have b4 := bitLen_pos d hd
  have b5 := lt_two_pow_bitLen d d (le_refl _)
  unfold roundRatio
  generalize bitLen n n = bn at b1 b3
  generalize bitLen d d = bd at b2 b4 b5
  simp only []
  have key : ∀ k : Int, - 53 ≤ k → k ≤ 52 → d < 2 * 2 ^ (52 - k).toNat →
      ∃ s : Nat, d < 2 * 2 ^ s ∧
        ((if d * 2 ^ (max (k - 52) (-1074)).toNat <
              2 * (n * 2 ^ (-max (k - 52) (-1074)).toNat % (d * 2 ^ (max (k - 52) (-1074)).toNat)) ∨
            (2 * (n * 2 ^ (-max (k - 52) (-1074)).toNat % (d * 2 ^ (max (k - 52) (-1074)).toNat)) =
              d * 2 ^ (max (k - 52) (-1074)).toNat ∧
              n * 2 ^ (-max (k - 52) (-1074)).toNat / (d * 2 ^ (max (k - 52) (-1074)).toNat) % 2 = 1)
          then n * 2 ^ (-max (k - 52) (-1074)).toNat / (d * 2 ^ (max (k - 52) (-1074)).toNat) + 1
          else n * 2 ^ (-max (k - 52) (-1074)).toNat / (d * 2 ^ (max (k - 52) (-1074)).toNat),
          max (k - 52) (-1074)) =
        (if d < 2 * (n * 2 ^ s % d) ∨ (2 * (n * 2 ^ s % d) = d ∧ n * 2 ^ s / d % 2 = 1)
          then n * 2 ^ s / d + 1 else n * 2 ^ s / d, - (s : Int))) := by
    intro k hk1 hk2 hkf
    refine ⟨(52 - k).toNat, hkf, ?_⟩
    have e1 : max (k - 52) (-1074) = - (((52 - k).toNat : Nat) : Int) := by omega
    rw [e1]
    have e2 : (- (((52 - k).toNat : Nat) : Int)).toNat = 0 := by omega
    have e3 : (- - (((52 - k).toNat : Nat) : Int)).toNat = (52 - k).toNat := by omega
    rw [e2, e3, pow_zero, Nat.mul_one]
  by_cases hcond : d * 2 ^ ((bn : Int) - bd).toNat ≤ n * 2 ^ (-((bn : Int) - bd)).toNat
  · rw [if_pos hcond]
    apply key _ (by omega) (by omega)
    by_cases hs : bd ≤ bn
    · have t1 : ((bn : Int) - bd).toNat = bn - bd := by omega
      have t2 : (-((bn : Int) - bd)).toNat = 0 := by omega
      have t3 : (52 - ((bn : Int) - bd)).toNat = 52 - (bn - bd) := by omega
      rw [t1, t2, pow_zero, Nat.mul_one] at hcond
      rw [t3]
      have h53 : (2 : Nat) ^ 53 = 2 * 2 ^ (52 - (bn - bd)) * 2 ^ (bn - bd) := by
        rw [← pow_succ', ← pow_add]
        congr 1
        omega
      have : d * 2 ^ (bn - bd) < 2 * 2 ^ (52 - (bn - bd)) * 2 ^ (bn - bd) := by
        rw [← h53]; omega
      exact Nat.lt_of_mul_lt_mul_right this
    · have t1 : ((bn : Int) - bd).toNat = 0 := by omega
      have t2 : (-((bn : Int) - bd)).toNat = bd - bn := by omega
      have t3 : (52 - ((bn : Int) - bd)).toNat = 52 + (bd - bn) := by omega
      rw [t1, t2, pow_zero, Nat.mul_one] at hcond
      rw [t3]
      have h1 : n * 2 ^ (bd - bn) < 2 ^ 53 * 2 ^ (bd - bn) :=
        Nat.mul_lt_mul_of_pos_right hn53 (by positivity)
      have h2 : (2 : Nat) ^ 53 * 2 ^ (bd - bn) = 2 * 2 ^ (52 + (bd - bn)) := by
        rw [← pow_succ', ← pow_add]
        congr 1
        omega
      omega
  · rw [if_neg hcond]
    apply key _ (by omega) (by omega)
    have t3 : ∃ j : Nat, (52 - ((bn : Int) - bd - 1)).toNat = bd + j := ⟨53 - bn, by omega⟩
    obtain ⟨j, hj⟩ := t3
    rw [hj, pow_add]
    have : 1 ≤ 2 ^ j := Nat.one_le_two_pow
    nlinarith

/-- Rounding the quotient of `c * P` by `L` to the nearest integer, when `L < 2 * P`: the
result is `(c / L) * P` when `L` divides `c`, and strictly between `(c / L) * P` and
`(c / L + 1) * P` otherwise. -/
theorem round_between (c L P : Nat) (hL : 0 < L) (hP : L < 2 * P) :
    (c % L = 0 →
      (if L < 2 * (c * P % L) ∨ (2 * (c * P % L) = L ∧ c * P / L % 2 = 1) then c * P / L + 1
        else c * P / L) = c / L * P) ∧
    (c % L ≠ 0 →
      c / L * P <
        (if L < 2 * (c * P % L) ∨ (2 * (c * P % L) = L ∧ c * P / L % 2 = 1) then c * P / L + 1
          else c * P / L) ∧
      (if L < 2 * (c * P % L) ∨ (2 * (c * P % L) = L ∧ c * P / L % 2 = 1) then c * P / L + 1
        else c * P / L) < (c / L + 1) * P) := by
  have hc : c = L * (c / L) + c % L := (Nat.div_add_mod c L).symm
  have hR : c % L < L := Nat.mod_lt _ hL
  generalize c / L = K at hc ⊢
  generalize c % L = R at hc hR ⊢
  have hnum : c * P = L * (K * P) + R * P := by rw [hc]; ring
  have hq : c * P / L = K * P + R * P / L := by rw [hnum, Nat.mul_add_div hL]
  have hr : c * P % L = R * P % L := by rw [hnum, Nat.mul_add_mod]
  rw [hq, hr]
  have hdm : R * P = L * (R * P / L) + R * P % L := (Nat.div_add_mod _ L).symm
  have hrl : R * P % L < L := Nat.mod_lt _ hL
  constructor
  · intro h0
    subst h0
    simp only [Nat.zero_mul, Nat.zero_div, Nat.zero_mod, Nat.add_zero, Nat.mul_zero]
    rw [if_neg (by omega)]
  · intro h0
    have hRP : P ≤ R * P := Nat.le_mul_of_pos_left P (by omega)
    have hRL : R * P + P ≤ L * P := by
      have : (R + 1) * P ≤ L * P := Nat.mul_le_mul_right P (by omega)
      rw [Nat.add_mul, Nat.one_mul] at this
      exact this
    have hq1 : R * P / L < P := Nat.div_lt_of_lt_mul (by omega)
    generalize R * P / L = q1 at hdm hq1 ⊢
    generalize R * P % L = r1 at hdm hrl ⊢
    generalize R * P = Y at hdm hRP hRL
    have hKP : (K + 1) * P = K * P + P := by ring
    rw [hKP]
    generalize K * P = A
    constructor
    · by_cases hq0 : q1 = 0
      · subst hq0
        simp only [Nat.mul_zero, Nat.zero_add] at hdm
        rw [if_pos (Or.inl (by omega))]
        omega
      · split <;> omega
    · by_cases hq2 : q1 + 1 = P
      · have hLq : L * q1 + L = L * P := by rw [← hq2]; ring
        rw [if_neg (by
          rintro (h | h)
          · omega
          · omega)]
        omega
      · split <;> omega

/-- math.Ceil, as the ceiling of the rationals. -/
theorem Ceil_fin (q : ℚ) : Ceil (.fin q) = .fin ((⌈q⌉ : Int) : ℚ) := by
  unfold Ceil
  have : ⌈q⌉ = -((-q.num) / (q.den : Int)) := by
    have h := Rat.floor_def (q := -q)
    rw [Rat.neg_num, Rat.neg_den, Int.floor_neg] at h
    omega
  rw [this]

/-- The quotient of two positive ints below `2 ^ 53`, as float64 values. -/
theorem div_small (c L : Nat) (hc : 0 < c) (hc53 : c < 2 ^ 53) (hL : 0 < L)
    (hL53 : L < 2 ^ 53) :
    ∃ (m s : Nat), F64.div (float64 c) (float64 L) = .fin ((m : ℚ) / (2 ^ s : ℚ)) ∧
      (c % L = 0 → m = c / L * 2 ^ s) ∧
      (c % L ≠ 0 → c / L * 2 ^ s < m ∧ m < (c / L + 1) * 2 ^ s) := by
  obtain ⟨s, hs, hr⟩ := roundRatio_small c L hc hc53 hL hL53
  have hb := round_between c L (2 ^ s) hL hs
  generalize (if L < 2 * (c * 2 ^ s % L) ∨ (2 * (c * 2 ^ s % L) = L ∧ c * 2 ^ s / L % 2 = 1)
    then c * 2 ^ s / L + 1 else c * 2 ^ s / L) = m at hr hb
  refine ⟨m, s, ?_, hb.1, hb.2⟩
  unfold float64
  rw [roundInt_eq _ (by omega) (by omega), roundInt_eq _ (by omega) (by omega)]
  unfold F64.div
  have h1 : ¬ (((L : Int) : ℚ) = 0) := by
    intro h
    have : (L : Int) = 0 := by exact_mod_cast h
    omega
  have h2 : ¬ (((c : Int) : ℚ) = 0) := by
    intro h
    have : (c : Int) = 0 := by exact_mod_cast h
    omega
  have h3 : ¬ (((c : Int) : ℚ) < 0) := by
    have : (0 : ℚ) ≤ ((c : Int) : ℚ) := by exact_mod_cast Int.natCast_nonneg c
    exact not_lt.2 this
  have h4 : ¬ (((L : Int) : ℚ) < 0) := by
    have : (0 : ℚ) ≤ ((L : Int) : ℚ) := by exact_mod_cast Int.natCast_nonneg L
    exact not_lt.2 this
  simp only [if_neg h1, if_neg h2, Rat.intCast_num, Rat.intCast_den, Int.natAbs_ofNat,
    Nat.mul_one, Nat.one_mul, hr, decide_eq_false h3, decide_eq_false h4]
  unfold ofScaled
  have e1 : (- (s : Int)).toNat = 0 := by omega
  have e2 : (- - (s : Int)).toNat = s := by omega
  rw [if_neg (by omega), e1, e2]
  simp only [bne_self_eq_false, Bool.false_eq_true, if_false, pow_zero, Nat.mul_one,
    Int.one_mul]
  rw [Rat.divInt_eq_div]
  push_cast
  rfl

/-- The number of pages NewPaginater computes for a count and a limit that are positive and
below `2 ^ 53`: the ceiling of count / limit. -/
theorem totalPages_ceil (conv : F64 → Int) (count limit : Int) (hc : 0 < count)
    (hc53 : count < 2 ^ 53) (hl : 0 < limit) (hl53 : limit < 2 ^ 53) :
    toInt conv (Ceil (F64.div (float64 count) (float64 limit))) =
      ⌈(count : ℚ) / (limit : ℚ)⌉ := by
  obtain ⟨c, rfl⟩ : ∃ c : Nat, count = c := ⟨count.toNat, by omega⟩
  obtain ⟨L, rfl⟩ : ∃ L : Nat, limit = L := ⟨limit.toNat, by omega⟩
  obtain ⟨m, s, hdiv, h0, h1⟩ := div_small c L (by omega) (by omega) (by omega) (by omega)
  have hLq : (0 : ℚ) < (L : ℚ) := by exact_mod_cast hl
  have hPq : (0 : ℚ) < (2 : ℚ) ^ s := by positivity
  have hdm : c = L * (c / L) + c % L := (Nat.div_add_mod c L).symm
  have hRL : c % L < L := Nat.mod_lt c (by omega)
  have hKc : c / L ≤ c := Nat.div_le_self _ _
  generalize c / L = K at hdm h0 h1 hKc
  generalize c % L = R at hdm h0 h1 hRL
  have hcq : ((c : Int) : ℚ) / ((L : Int) : ℚ) = (K : ℚ) + (R : ℚ) / L := by
    have : (c : ℚ) = (L : ℚ) * (K : ℚ) + (R : ℚ) := by exact_mod_cast hdm
    push_cast
    rw [this]
    field_simp
    ring
  rw [hdiv, Ceil_fin]
  by_cases hR : R = 0
  · have hm := h0 hR
    have hval : (m : ℚ) / (2 : ℚ) ^ s = (K : ℚ) := by
      rw [hm]
      push_cast
      field_simp
    have hce : ⌈(m : ℚ) / (2 : ℚ) ^ s⌉ = (K : Int) := by
      rw [hval]
      exact Int.ceil_natCast K
    have hce2 : ⌈((c : Int) : ℚ) / ((L : Int) : ℚ)⌉ = (K : Int) := by
      rw [hcq, hR]
      simp
    rw [hce, hce2]
    apply toInt_intCast
    unfold isInt
    omega
  · obtain ⟨hlo, hhi⟩ := h1 hR
    have hlo1 : (K : ℚ) * (2 : ℚ) ^ s < (m : ℚ) := by exact_mod_cast hlo
    have hhi1 : (m : ℚ) < ((K : ℚ) + 1) * (2 : ℚ) ^ s := by exact_mod_cast hhi
    have hce : ⌈(m : ℚ) / (2 : ℚ) ^ s⌉ = (K : Int) + 1 := by
      rw [Int.ceil_eq_iff]
      constructor
      · rw [lt_div_iff₀ hPq]
        push_cast
        linarith
      · rw [div_le_iff₀ hPq]
        push_cast
        linarith
    have hce2 : ⌈((c : Int) : ℚ) / ((L : Int) : ℚ)⌉ = (K : Int) + 1 := by
      rw [hcq, Int.ceil_eq_iff]
      have hRpos : (0 : ℚ) < (R : ℚ) := by exact_mod_cast Nat.pos_of_ne_zero hR
      have hRlt : (R : ℚ) < (L : ℚ) := by exact_mod_cast hRL
      constructor
      · push_cast
        have : (0 : ℚ) < (R : ℚ) / L := div_pos hRpos hLq
        linarith
      · push_cast
        have : (R : ℚ) / L ≤ 1 := by
          rw [div_le_one hLq]
          exact le_of_lt hRlt
        linarith
    rw [hce, hce2]
    have := toInt_intCast conv ((K : Int) + 1) (by unfold isInt; omega)
    exact_mod_cast this

/-- What NewPaginater does on a skip that is not the largest int and on a limit and a count
below `2 ^ 53` in absolute value, the limit other than 0: Limit = |limit|, TotalItems =
max(count, 0), Page = floor(max(skip, 0) / |limit|) + 1, and TotalPages = 1 when count <= 0,
else the ceiling of count / |limit|.  For limit = 0, Page = 1. -/
theorem NewPaginater_spec (conv : F64 → Int) (skip limit count : Int)
    (hs : isInt skip) (hs1 : skip < 2 ^ 63 - 1) (hl : - 2 ^ 53 < limit) (hl1 : limit < 2 ^ 53)
    (hc : isInt count) (hc1 : count < 2 ^ 53) :
    (limit ≠ 0 →
      (NewPaginater conv skip limit count).Limit = |limit| ∧
      (NewPaginater conv skip limit count).TotalItems = max count 0 ∧
      (NewPaginater conv skip limit count).Page = max skip 0 / |limit| + 1 ∧
      (NewPaginater conv skip limit count).TotalPages =
        if count ≤ 0 then 1 else ⌈(count : ℚ) / ((|limit| : Int) : ℚ)⌉) ∧
    (NewPaginater conv skip 0 count).Page = 1 := by
  unfold isInt at hs hc
  constructor
  · intro hl0
    have habs : (if limit < 0 then wrap (-limit) else limit) = |limit| := by
      by_cases h : limit < 0
      · rw [if_pos h, wrap_eq _ (by unfold isInt; omega), abs_of_neg h]
      · rw [if_neg h, abs_of_nonneg (by omega)]
    have hpos : 0 < |limit| := abs_pos.2 hl0
    have hlt : |limit| < 2 ^ 53 := abs_lt.2 ⟨by omega, hl1⟩
    unfold NewPaginater paginater.Limit paginater.TotalItems paginater.Page
      paginater.TotalPages
    simp only [habs]
    refine ⟨trivial, ?_, ?_, ?_⟩
    · by_cases h : count < 0
      · rw [if_pos h, max_eq_right (by omega)]
      · rw [if_neg h, max_eq_left (by omega)]
    · rw [if_pos hpos]
      have hmax : (if skip < 0 then 0 else skip) = max skip 0 := by
        by_cases h : skip < 0
        · rw [if_pos h, max_eq_right (by omega)]
        · rw [if_neg h, max_eq_left (by omega)]
      rw [hmax]
      apply wrap_eq
      have h1 : 0 ≤ max skip 0 := le_max_right _ _
      have h2 : max skip 0 / |limit| ≤ max skip 0 := Int.ediv_le_self _ h1
      have h3 : 0 ≤ max skip 0 / |limit| := Int.ediv_nonneg h1 (le_of_lt hpos)
      have h4 : max skip 0 < 2 ^ 63 - 1 := max_lt hs1 (by norm_num)
      unfold isInt
      omega
    · by_cases h : count < 0
      · rw [if_pos h, if_neg (by simp), if_pos (by omega)]
      · rw [if_neg h]
        by_cases h0 : count = 0
        · rw [if_neg (not_not.2 h0), if_pos (by omega)]
        · rw [if_pos h0, if_neg (by omega)]
          exact totalPages_ceil conv count |limit| (by omega) hc1 hpos hlt
  · unfold NewPaginater paginater.Page
    simp

end mgobase

namespace mgobase

open bsonbuilder

/-- C22, counterexample: for the directions Next and Prev, the empty base filter, which is not
nil, is wrapped in the conjunction like every other one. -/
theorem QueryStatement_wraps_empty_filter :
    (∀ f b, marker.QueryStatement ⟨f, b, PageNext⟩ (.map []) =
      .map [("$and", .arr [.map [], .map [(f, .map [("$gt", .val b)])]])]) ∧
    (∀ f b, marker.QueryStatement ⟨f, b, PagePrev⟩ (.map []) =
      .map [("$and", .arr [.map [], .map [(f, .map [("$lt", .val b)])]])]) ∧
    ¬ (∀ f b, marker.QueryStatement ⟨f, b, PageNext⟩ (.map []) =
      .map [(f, .map [("$gt", .val b)])]) ∧
    ¬ (∀ f b, marker.QueryStatement ⟨f, b, PagePrev⟩ (.map []) =
      .map [(f, .map [("$lt", .val b)])]) := by
  refine ⟨fun _ _ => rfl, fun _ _ => rfl, ?_, ?_⟩
  · intro h
    have h1 := h "_id" .null
    have h2 : marker.QueryStatement ⟨"_id", .null, PageNext⟩ (.map []) =
        .map [("$and", .arr [.map [], .map [("_id", .map [("$gt", .val .null)])]])] := rfl
    rw [h2] at h1
    simp at h1
  · intro h
    have h1 := h "_id" .null
    have h2 : marker.QueryStatement ⟨"_id", .null, PagePrev⟩ (.map []) =
        .map [("$and", .arr [.map [], .map [("_id", .map [("$lt", .val .null)])]])] := rfl
    rw [h2] at h1
    simp at h1

/-- C22, as the code has it: for the directions Next and Prev and every base filter that is
not nil, the empty filter included, QueryStatement returns the conjunction, $and of the list
[Q, range] with range the condition f: ($gt: b) or f: ($lt: b); it returns the range
condition alone exactly when the base filter is nil. -/
theorem QueryStatement_range_alone_iff_nil (f : String) (b : Value) (Q : Doc) :
    (Q ≠ .val .null →
      marker.QueryStatement ⟨f, b, PageNext⟩ Q =
        .map [("$and", .arr [Q, .map [(f, .map [("$gt", .val b)])]])] ∧
      marker.QueryStatement ⟨f, b, PagePrev⟩ Q =
        .map [("$and", .arr [Q, .map [(f, .map [("$lt", .val b)])]])]) ∧
    (marker.QueryStatement ⟨f, b, PageNext⟩ Q = .map [(f, .map [("$gt", .val b)])] ↔
      Q = .val .null) ∧
    (marker.QueryStatement ⟨f, b, PagePrev⟩ Q = .map [(f, .map [("$lt", .val b)])] ↔
      Q = .val .null) := by
  have hn : Q ≠ .val .null →
      marker.QueryStatement ⟨f, b, PageNext⟩ Q =
        .map [("$and", .arr [Q, .map [(f, .map [("$gt", .val b)])]])] := by
    intro hQ
    show (match Q with
      | .val .null => Doc.map [(f, .map [("$gt", .val b)])]
      | _ => Doc.map [("$and", .arr [Q, .map [(f, .map [("$gt", .val b)])]])]) = _
    split
    · exact absurd rfl hQ
    · rfl
  have hp : Q ≠ .val .null →
      marker.QueryStatement ⟨f, b, PagePrev⟩ Q =
        .map [("$and", .arr [Q, .map [(f, .map [("$lt", .val b)])]])] := by
    intro hQ
    show (match Q with
      | .val .null => Doc.map [(f, .map [("$lt", .val b)])]
      | _ => Doc.map [("$and", .arr [Q, .map [(f, .map [("$lt", .val b)])]])]) = _
    split
    · exact absurd rfl hQ
    · rfl
  refine ⟨fun hQ => ⟨hn hQ, hp hQ⟩, ?_, ?_⟩
  · constructor
    · intro h
      by_contra hQ
      rw [hn hQ] at h
      simp at h
    · intro h
      rw [h]
      rfl
  · constructor
    · intro h
      by_contra hQ
      rw [hp hQ] at h
      simp at h
    · intro h
      rw [h]
      rfl

end mgobase

namespace mgobase

open bsonbuilder

/-- C30 (code bug): PrevNext does fail.  On a non-empty slice of numbers or of strings it
panics when it asks the element type for its element type, and on a slice of maps it panics
as soon as the first row does not hold the marker field, when it takes the interface value of
the zero Value `MapIndex` returns.  (On struct rows without the field it returns nil, as
claimed.) -/
theorem PrevNext_panics (m : marker) :
    (∀ first rows, m.PrevNext (.slice .other (first :: rows)) = none) ∧
    (∀ first rows, m.PrevNext (.slice .string (first :: rows)) = none) ∧
    (∀ key elem entries rows, elem.Kind ≠ .Struct → get entries m.field = none →
      m.PrevNext (.slice (.map key elem) (.map entries :: rows)) = none) ∧
    marker.PrevNext ⟨"_id", .null, PageFirst⟩
      (.slice (.map .string .iface) [.map [("name", .str "tom")]]) = none ∧
    marker.PrevNext ⟨"_id", .null, PageFirst⟩
      (.slice .struct [.struct [⟨"Name", "name", .str "tom", true⟩]]) = some (.null, .null) := by
  refine ⟨?_, ?_, ?_, rfl, by decide⟩
  · intro first rows
    unfold marker.PrevNext
    cases hg : (first :: rows).getLast? with
    | none => simp at hg
    | some last => rfl
  · intro first rows
    unfold marker.PrevNext
    cases hg : (first :: rows).getLast? with
    | none => simp at hg
    | some last => rfl
  · intro key elem entries rows he hk
    unfold marker.PrevNext
    cases hg : (Row.map entries :: rows).getLast? with
    | none => simp at hg
    | some last =>
      have h1 : ¬ (GoType.map key elem).Kind = .Struct := by
        show ¬ Kind.Map = Kind.Struct
        decide
      have h2 : (GoType.map key elem).Elem = some elem := rfl
      have h3 : (GoType.map key elem).Kind = .Map := rfl
      have h4 : mapIndex (.map key elem) (.map entries) m.field = none := by
        unfold mapIndex
        split
        · rename_i e1 e2
          simp only [Row.map.injEq] at e2
          rw [← e2]
          exact hk
        · rename_i e1 e2
          simp only [Row.map.injEq] at e2
          rw [← e2]
          exact hk
        · rfl
      simp only [List.head?_cons, hg, if_neg h1, h2, if_neg he, h3, if_true, h4]
      exact if_neg (by decide)

/-- On struct rows `field` takes the value of the first field with the marker's name or tag
even when that field is not exported, and `Value()` panics on it: PrevNext panics on a row
whose field `id` is not exported. -/
theorem PrevNext_unexported_panics :
    marker.PrevNext ⟨"id", .null, PageFirst⟩
      (.slice .struct [.struct [⟨"id", "", .int 1, false⟩, ⟨"Name", "name", .str "tom", true⟩]])
      = none ∧
    marker.PrevNext ⟨"name", .null, PageFirst⟩
      (.slice .struct [.struct [⟨"id", "", .int 1, false⟩, ⟨"Name", "name", .str "tom", true⟩]])
      = some (.str "tom", .str "tom") := by
  constructor <;> decide

/-- Below `2 ^ 53` the page and the number of pages are at least 1: for a skip that is not
the largest int, a limit other than 0 and a count, both below `2 ^ 53` in absolute value,
NewPaginater gives Page >= 1 and TotalPages >= 1; and for limit = 0 it gives Page = 1, with
TotalPages = 1 when count <= 0. -/
theorem NewPaginater_at_least_one (conv : F64 → Int) (skip limit count : Int)
    (hs : isInt skip) (hs1 : skip < 2 ^ 63 - 1) (hl : - 2 ^ 53 < limit) (hl1 : limit < 2 ^ 53)
    (hc : isInt count) (hc1 : count < 2 ^ 53) :
    (limit ≠ 0 →
      1 ≤ (NewPaginater conv skip limit count).Page ∧
      1 ≤ (NewPaginater conv skip limit count).TotalPages) ∧
    (NewPaginater conv skip 0 count).Page = 1 ∧
    (count ≤ 0 → (NewPaginater conv skip 0 count).TotalPages = 1) := by
  obtain ⟨h1, h2⟩ := NewPaginater_spec conv skip limit count hs hs1 hl hl1 hc hc1
  refine ⟨?_, h2, ?_⟩
  · intro hl0
    obtain ⟨_, _, hp, ht⟩ := h1 hl0
    have hpos : 0 < |limit| := abs_pos.2 hl0
    constructor
    · rw [hp]
      have : 0 ≤ max skip 0 / |limit| :=
        Int.ediv_nonneg (le_max_right _ _) (le_of_lt hpos)
      omega
    · rw [ht]
      by_cases h0 : count ≤ 0
      · rw [if_pos h0]
      · rw [if_neg h0]
        have hq : (0 : ℚ) < (count : ℚ) / ((|limit| : Int) : ℚ) := by
          apply div_pos
          · exact_mod_cast (by omega : 0 < count)
          · exact_mod_cast hpos
        have := Int.ceil_pos.2 hq
        omega
  · intro h0
    unfold NewPaginater paginater.TotalPages
    by_cases h : count < 0
    · simp [h]
    · have : count = 0 := by omega
      simp [this]

/-- Below `2 ^ 53` the page lies within the pages: for a limit and a count that are positive
and below `2 ^ 53` and 0 <= skip < count, NewPaginater gives 1 <= Page <= TotalPages. -/
theorem NewPaginater_page_le_total (conv : F64 → Int) (skip limit count : Int)
    (hl : 0 < limit) (hl1 : limit < 2 ^ 53) (hs : 0 ≤ skip) (hsc : skip < count)
    (hc1 : count < 2 ^ 53) :
    1 ≤ (NewPaginater conv skip limit count).Page ∧
    (NewPaginater conv skip limit count).Page ≤ (NewPaginater conv skip limit count).TotalPages := by
  obtain ⟨h1, _⟩ := NewPaginater_spec conv skip limit count (by unfold isInt; omega) (by omega)
    (by omega) hl1 (by unfold isInt; omega) hc1
  obtain ⟨_, _, hp, ht⟩ := h1 (by omega)
  have habs : |limit| = limit := abs_of_pos hl
  rw [hp, ht, habs, max_eq_left hs, if_neg (by omega)]
  have hk : 0 ≤ skip / limit := Int.ediv_nonneg hs (le_of_lt hl)
  refine ⟨by omega, ?_⟩
  have hlt : skip / limit < ⌈(count : ℚ) / (limit : ℚ)⌉ := by
    rw [Int.lt_ceil]
    have hlq : (0 : ℚ) < (limit : ℚ) := by exact_mod_cast hl
    rw [lt_div_iff₀ hlq]
    have h3 : skip / limit * limit ≤ skip := Int.ediv_mul_le skip (by omega)
    have h4 : ((skip / limit * limit : Int) : ℚ) < (count : ℚ) := by
      exact_mod_cast lt_of_le_of_lt h3 hsc
    push_cast at h4
    exact h4
  omega

/-- C28 (code bug): for limit = 1, skip = `2 ^ 53` and count = `2 ^ 53 + 1`, so that
0 <= skip < count, NewPaginater gives Page = `2 ^ 53 + 1` and TotalPages = `2 ^ 53`: the page
lies beyond the last page. -/
theorem NewPaginater_page_beyond_total (conv : F64 → Int) :
    NewPaginater conv (2 ^ 53) 1 (2 ^ 53 + 1) = ⟨2 ^ 53 + 1, 1, 2 ^ 53 + 1, 2 ^ 53⟩ ∧
    ¬ ((NewPaginater conv (2 ^ 53) 1 (2 ^ 53 + 1)).Page ≤
      (NewPaginater conv (2 ^ 53) 1 (2 ^ 53 + 1)).TotalPages) := by
  have h : NewPaginater conv (2 ^ 53) 1 (2 ^ 53 + 1) = ⟨2 ^ 53 + 1, 1, 2 ^ 53 + 1, 2 ^ 53⟩ := rfl
  refine ⟨h, ?_⟩
  rw [h]
  decide

/-- C29 (code bug): with limit = 0 and a count other than 0, TotalPages is the conversion to
int of the float64 +Inf, which the platform decides (the smallest int on amd64), so it is not
at least 1 for every platform; with the smallest int as limit and count = 5 it is 0, and with
the largest int as skip and limit = 1 the page is the smallest int. -/
theorem NewPaginater_below_one (conv : F64 → Int) :
    NewPaginater conv 0 0 5 = ⟨1, 0, 5, conv .pinf⟩ ∧
    (NewPaginater (fun _ => - 2 ^ 63) 0 0 5).TotalPages = - 2 ^ 63 ∧
    ¬ ((NewPaginater (fun _ => - 2 ^ 63) 0 0 5).TotalPages ≥ 1) ∧
    (NewPaginater conv 0 (- 2 ^ 63) 5).TotalPages = 0 ∧
    (NewPaginater conv (2 ^ 63 - 1) 1 5).Page = - 2 ^ 63 := by
  refine ⟨rfl, rfl, ?_, rfl, rfl⟩
  have h : (NewPaginater (fun _ => - 2 ^ 63) 0 0 5).TotalPages = - 2 ^ 63 := rfl
  rw [h]
  decide

end mgobase

namespace bsonbuilder

/-! ## Max and Min on lists with an incomparable element -/

theorem inClass_IsComparable (c : Class) (v : Value) (h : inClass c v = true) :
    IsComparable v = true := by
  cases c <;> simp only [inClass] at h <;> simp [IsComparable, h]

/-- Two or more elements, one of them not comparable, and no `*time.Time`: Sort, Max and Min
return `nil`; for a list of more than 6 elements, under the contract of `sort.Slice` and
provided no element is a NaN. -/
theorem Max_Min_incomparable [SliceSorter] (hlib : SortsSlices) (v w : Value)
    (rest : List Value) (x : Value)
    (hp : ∀ u ∈ v :: w :: rest, isTimePtr u = false)
    (hn : 6 < (v :: w :: rest).length → ∀ u ∈ v :: w :: rest, isNaN u = false)
    (hx : x ∈ v :: w :: rest) (hc : IsComparable x = false) :
    SortVals (v :: w :: rest) = some none ∧ Max (v :: w :: rest) = some .null ∧
    Min (v :: w :: rest) = some .null := by
  have r := not_one_class_nil hlib (fun _ => "") (v :: w :: rest) (by simp) hp hn
    (fun ⟨c, hall⟩ => by
      have := inClass_IsComparable c x (hall x hx)
      rw [hc] at this
      exact absurd this (by decide))
  exact ⟨r.1, r.2.1, r.2.2.1⟩

/-- C23 (code bug): a list of one element is handed back by Sort without a comparison, so Max
and Min return the element, comparable or not: for the list holding the boolean `true`, for
which IsComparable is false, Max and Min return `true`, not nil, and Gt renders `$gt: true`. -/
theorem Max_Min_single_incomparable [SliceSorter] :
    IsComparable (.bool true) = false ∧
    SortVals [.bool true] = some (some [.bool true]) ∧
    Max [.bool true] = some (.bool true) ∧
    Min [.bool true] = some (.bool true) ∧
    (∀ v : Value, Max [v] = some v ∧ Min [v] = some v) ∧
    (∀ lib : Value → String,
      Operator.ToBSON lib OperatorGt [.bool true] = some (some [("$gt", .val (.bool true))])) ∧
    Max [.bool true, .int 1] = some .null ∧ Min [.bool true, .int 1] = some .null := by
  refine ⟨by decide, rfl, rfl, rfl, ?_, fun _ => rfl, rfl, rfl⟩
  intro v
  constructor
  · simp [Max, SortVals, sortSlice, insertionSort, len]
  · simp [Min, SortVals, sortSlice, insertionSort, len]

end bsonbuilder

namespace bsonbuilder

/-! ## Output keys of the operators, and the fields of the rendered filter -/

theorem opOfKey_cases (k : String) (o : Operator) (h : opOfKey k = some o) :
    (o = OperatorEq ∧ (k = "$eq" ∨ k = "$in")) ∨ (o = OperatorNe ∧ (k = "$ne" ∨ k = "$nin")) ∨
    (o = OperatorGt ∧ k = "$gt") ∨ (o = OperatorGte ∧ k = "$gte") ∨
    (o = OperatorLt ∧ k = "$lt") ∨ (o = OperatorLte ∧ k = "$lte") ∨
    (o = OperatorLike ∧ k = "$regex") := by
  unfold opOfKey at h
  repeat' split at h
  all_goals first
    | (simp at h; done)
    | (simp only [Option.some.injEq] at h; subst h; simp_all)

theorem fragment_key [SliceSorter] (lib : Value → String) (o : Operator) (vals : List Value) (fr : M Elem)
    (k : String) (e : Elem) (h : Operator.ToBSON lib o vals = some (some fr))
    (hk : get fr k = some e) : opOfKey k = some o := by
  obtain ⟨k0, e0, hfr, ho⟩ := ToBSON_shape lib o vals fr h
  subst hfr
  by_cases h0 : k0 = k
  · exact h0 ▸ ho
  · simp [get, h0] at hk

theorem get_all_none {κ α : Type} [DecidableEq κ] (m : List (κ × α))
    (h : ∀ k, get m k = none) : m = [] := by
  cases m with
  | nil => rfl
  | cons e m =>
    obtain ⟨k, a⟩ := e
    have := h k
    simp [get] at this

/-- C26: every key of a fragment is one of the keys of its operator (Eq: `$eq` or `$in`, Ne:
`$ne` or `$nin`, Gt: `$gt`, Gte: `$gte`, Lt: `$lt`, Lte: `$lte`, Like: `$regex`), so two
fragments that share a key come from the same operator; every entry of every fragment of a
field is an entry of the field's sub-filter in the result of ToBSON; and for any two orders in
which the fields and the operators of each field are visited, ToBSON panics on both or on
neither, and the two results map the same fields and each field to the same entries. -/
theorem ToBSON_keys_do_not_collide [SliceSorter] (lib : Value → String) (adds : List AddCall)
    (q1 q2 : query) (h1 : Reordered (build adds) q1) (h2 : Reordered (build adds) q2) :
    (∀ o vals fr k e, Operator.ToBSON lib o vals = some (some fr) → get fr k = some e →
      (o = OperatorEq ∧ (k = "$eq" ∨ k = "$in")) ∨ (o = OperatorNe ∧ (k = "$ne" ∨ k = "$nin")) ∨
      (o = OperatorGt ∧ k = "$gt") ∨ (o = OperatorGte ∧ k = "$gte") ∨
      (o = OperatorLt ∧ k = "$lt") ∨ (o = OperatorLte ∧ k = "$lte") ∨
      (o = OperatorLike ∧ k = "$regex")) ∧
    (∀ o o1 vals vals1 fr fr1 k e e1,
      Operator.ToBSON lib o vals = some (some fr) →
      Operator.ToBSON lib o1 vals1 = some (some fr1) →
      get fr k = some e → get fr1 k = some e1 → o = o1) ∧
    (∀ m, query.ToBSON lib q1 = some m → ∀ f o fr k e,
      (∃ a ∈ adds, a.key = f ∧ a.op = o) →
      Operator.ToBSON lib o (valuesUnder adds f o) = some (some fr) → get fr k = some e →
      ∃ sub, get m f = some sub ∧ get sub k = some e) ∧
    (query.ToBSON lib q1 = none ↔ query.ToBSON lib q2 = none) ∧
    (∀ m1 m2, query.ToBSON lib q1 = some m1 → query.ToBSON lib q2 = some m2 →
      sameFilter m1 m2) := by
  obtain ⟨_, _, p1, c1, _⟩ := ToBSON_union_of_fragments lib adds q1 h1
  obtain ⟨_, _, p2, c2, _⟩ := ToBSON_union_of_fragments lib adds q2 h2
  refine ⟨?_, ?_, ?_, ?_, ?_⟩
  · intro o vals fr k e hfr hk
    exact opOfKey_cases k o (fragment_key lib o vals fr k e hfr hk)
  · intro o o1 vals vals1 fr fr1 k e e1 hfr hfr1 hk hk1
    have a := fragment_key lib o vals fr k e hfr hk
    have b := fragment_key lib o1 vals1 fr1 k e1 hfr1 hk1
    exact Option.some.inj (a.symm.trans b)
  · intro m hm f o fr k e hused hfr hk
    obtain ⟨hn, hsub⟩ := c1 m hm f
    cases hg : get m f with
    | none =>
      obtain ⟨a, ha, hkey, _⟩ := hused
      exact absurd hkey (hn.mp hg a ha)
    | some sub => exact ⟨sub, rfl, (hsub sub hg k e).mpr ⟨o, fr, hused, hfr, hk⟩⟩
  · rw [p1, p2]
  · intro m1 m2 hm1 hm2 f
    obtain ⟨hn1, hs1⟩ := c1 m1 hm1 f
    obtain ⟨hn2, hs2⟩ := c2 m2 hm2 f
    refine ⟨by rw [hn1, hn2], ?_⟩
    intro sub sub1 hg hg1 k
    apply Option.ext
    intro v
    show get sub k = some v ↔ get sub1 k = some v
    rw [hs1 sub hg k v, hs2 sub1 hg1 k v]

theorem ToBSON_keys_do_not_collide_witness :
    Reordered (build sampleAdds) (build sampleAdds) ∧
    Reordered (build sampleAdds) (build sampleAdds).reverse ∧
    ((∀ o vals fr k e, Operator.ToBSON (fun _ => "") o vals = some (some fr) →
      get fr k = some e →
      (o = OperatorEq ∧ (k = "$eq" ∨ k = "$in")) ∨ (o = OperatorNe ∧ (k = "$ne" ∨ k = "$nin")) ∨
      (o = OperatorGt ∧ k = "$gt") ∨ (o = OperatorGte ∧ k = "$gte") ∨
      (o = OperatorLt ∧ k = "$lt") ∨ (o = OperatorLte ∧ k = "$lte") ∨
      (o = OperatorLike ∧ k = "$regex")) ∧
    (∀ o o1 vals vals1 fr fr1 k e e1,
      Operator.ToBSON (fun _ => "") o vals = some (some fr) →
      Operator.ToBSON (fun _ => "") o1 vals1 = some (some fr1) →
      get fr k = some e → get fr1 k = some e1 → o = o1) ∧
    (∀ m, query.ToBSON (fun _ => "") (build sampleAdds) = some m → ∀ f o fr k e,
      (∃ a ∈ sampleAdds, a.key = f ∧ a.op = o) →
      Operator.ToBSON (fun _ => "") o (valuesUnder sampleAdds f o) = some (some fr) →
      get fr k = some e →
      ∃ sub, get m f = some sub ∧ get sub k = some e) ∧
    (query.ToBSON (fun _ => "") (build sampleAdds) = none ↔
      query.ToBSON (fun _ => "") (build sampleAdds).reverse = none) ∧
    (∀ m1 m2, query.ToBSON (fun _ => "") (build sampleAdds) = some m1 →
      query.ToBSON (fun _ => "") (build sampleAdds).reverse = some m2 →
      sameFilter m1 m2)) :=
  ⟨⟨build sampleAdds, List.forall₂_same.mpr (fun _ _ => ⟨rfl, List.Perm.refl _⟩),
      List.Perm.refl _⟩,
    ⟨build sampleAdds, List.forall₂_same.mpr (fun _ _ => ⟨rfl, List.Perm.refl _⟩),
      (List.reverse_perm _).symm⟩,
    ToBSON_keys_do_not_collide (fun _ => "") sampleAdds (build sampleAdds)
      (build sampleAdds).reverse
      ⟨build sampleAdds, List.forall₂_same.mpr (fun _ _ => ⟨rfl, List.Perm.refl _⟩),
        List.Perm.refl _⟩
      ⟨build sampleAdds, List.forall₂_same.mpr (fun _ _ => ⟨rfl, List.Perm.refl _⟩),
        (List.reverse_perm _).symm⟩⟩

/-- C27: the result of ToBSON maps exactly the fields that were passed to Add at least once,
for every order in which the maps are visited; a field all of whose fragments are omitted is
mapped to the empty sub-filter; ToBSON returns when no value is a `*time.Time`.  An Add with no
values under Gt, and an incomparable batch under Gt, Gte, Lt and Lte, render the field with the
empty sub-filter. -/
theorem ToBSON_keeps_every_field [SliceSorter] (lib : Value → String) (adds : List AddCall) (q1 : query)
    (h : Reordered (build adds) q1) :
    (∀ m, query.ToBSON lib q1 = some m →
      (∀ f, f ∈ m.map Prod.fst ↔ ∃ a ∈ adds, a.key = f) ∧
      (∀ f, (∃ a ∈ adds, a.key = f) →
        (∀ o, (∃ a ∈ adds, a.key = f ∧ a.op = o) →
          Operator.ToBSON lib o (valuesUnder adds f o) = some none) →
        get m f = some [])) ∧
    ((∀ a ∈ adds, ∀ v ∈ a.val, isTimePtr v = false) → ∃ m, query.ToBSON lib q1 = some m) ∧
    query.ToBSON lib (New.Add "age" OperatorGt []) = some [("age", [])] ∧
    query.ToBSON lib (build [⟨"age", OperatorGt, [.int 1, .str "a"]⟩,
      ⟨"age", OperatorGte, [.int 1, .str "a"]⟩, ⟨"age", OperatorLt, [.int 1, .str "a"]⟩,
      ⟨"age", OperatorLte, [.int 1, .str "a"]⟩, ⟨"name", OperatorEq, [.str "tom"]⟩]) =
      some [("age", []), ("name", [("$eq", .val (.str "tom"))])] := by
  obtain ⟨_, _, _, c1, t1⟩ := ToBSON_union_of_fragments lib adds q1 h
  refine ⟨?_, t1, rfl, rfl⟩
  intro m hm
  constructor
  · intro f
    obtain ⟨hn, _⟩ := c1 m hm f
    rw [← not_iff_not, ← get_eq_none, hn]
    push_neg
    rfl
  · intro f hused hnil
    obtain ⟨hn, hsub⟩ := c1 m hm f
    cases hg : get m f with
    | none =>
      obtain ⟨a, ha, hkey⟩ := hused
      exact absurd hkey (hn.mp hg a ha)
    | some sub =>
      have : sub = [] := by
        apply get_all_none
        intro k
        cases hk : get sub k with
        | none => rfl
        | some v =>
          obtain ⟨o, fr, hu, hfr, _⟩ := (hsub sub hg k v).mp hk
          rw [hnil o hu] at hfr
          simp at hfr
      rw [this]

theorem ToBSON_keeps_every_field_witness :
    Reordered (build sampleAdds) (build sampleAdds).reverse ∧
    ((∀ m, query.ToBSON (fun _ => "") (build sampleAdds).reverse = some m →
      (∀ f, f ∈ m.map Prod.fst ↔ ∃ a ∈ sampleAdds, a.key = f) ∧
      (∀ f, (∃ a ∈ sampleAdds, a.key = f) →
        (∀ o, (∃ a ∈ sampleAdds, a.key = f ∧ a.op = o) →
          Operator.ToBSON (fun _ => "") o (valuesUnder sampleAdds f o) = some none) →
        get m f = some [])) ∧
    ((∀ a ∈ sampleAdds, ∀ v ∈ a.val, isTimePtr v = false) →
      ∃ m, query.ToBSON (fun _ => "") (build sampleAdds).reverse = some m) ∧
    query.ToBSON (fun _ => "") (New.Add "age" OperatorGt []) = some [("age", [])] ∧
    query.ToBSON (fun _ => "") (build [⟨"age", OperatorGt, [.int 1, .str "a"]⟩,
      ⟨"age", OperatorGte, [.int 1, .str "a"]⟩, ⟨"age", OperatorLt, [.int 1, .str "a"]⟩,
      ⟨"age", OperatorLte, [.int 1, .str "a"]⟩, ⟨"name", OperatorEq, [.str "tom"]⟩]) =
      some [("age", []), ("name", [("$eq", .val (.str "tom"))])]) :=
  ⟨⟨build sampleAdds, List.forall₂_same.mpr (fun _ _ => ⟨rfl, List.Perm.refl _⟩),
      (List.reverse_perm _).symm⟩,
    ToBSON_keeps_every_field (fun _ => "") sampleAdds (build sampleAdds).reverse
      ⟨build sampleAdds, List.forall₂_same.mpr (fun _ _ => ⟨rfl, List.Perm.refl _⟩),
        (List.reverse_perm _).symm⟩⟩

end bsonbuilder

namespace controllers

open bsonbuilder

/-! ## The identifier rule and the fields it applies to -/

/-- C21 (counterexample): under the field `owner` the valid identifier
`58db2700cf2f6715b00021a7` is added, and rendered, as a string, not as an Identifier. -/
theorem QueryBSON_identifier_only_under_id :
    IsObjectIdHex "58db2700cf2f6715b00021a7" = true ∧
    addParam ⟨fun _ => "", fun _ => none, fun _ => none⟩ [] suffixes New "owner"
        "58db2700cf2f6715b00021a7"
      = New.Add "owner" OperatorEq [.str "58db2700cf2f6715b00021a7"] ∧
    QueryBSON ⟨fun _ => "", fun _ => none, fun _ => none⟩ { } []
        [("owner", ["58db2700cf2f6715b00021a7"])]
      = some [("owner", [("$eq", .val (.str "58db2700cf2f6715b00021a7"))])] ∧
    ¬ (∀ (lib : Lib) (convertors : List (String → String → Value))
        (table : List (String × Operator)) (q : query) (key val : String),
        IsObjectIdHex val = true →
        ∃ f, addParam lib convertors table q key val
          = q.Add f (splitKey table key).2 [ObjectIdHex val]) := by
  refine ⟨by decide, by decide, by decide, ?_⟩
  intro h
  obtain ⟨f, hf⟩ := h ⟨fun _ => "", fun _ => none, fun _ => none⟩ [] suffixes New "owner"
    "58db2700cf2f6715b00021a7" (by decide)
  have h1 : addParam ⟨fun _ => "", fun _ => none, fun _ => none⟩ [] suffixes New "owner"
      "58db2700cf2f6715b00021a7"
      = [("owner", [(OperatorEq, [.str "58db2700cf2f6715b00021a7"])])] := by decide
  have h2 : (splitKey suffixes "owner").2 = OperatorEq := by decide
  rw [h1, h2] at hf
  have h3 : New.Add f OperatorEq [ObjectIdHex "58db2700cf2f6715b00021a7"]
      = [(f, [(OperatorEq, [ObjectIdHex "58db2700cf2f6715b00021a7"])])] := by
    simp [query.Add, query.init, New, bsonbuilder.get, bsonbuilder.set]
  rw [h3] at hf
  simp [ObjectIdHex] at hf

/-- C21 (amended): for every raw value that is a valid 24-hex-character identifier, the value
`QueryBSON` adds is the Identifier when the suffix-stripped field is `id` or contains `.id`;
under every other field the value is the first success of integer, float, boolean, timestamp
and the custom convertors, and otherwise the raw string. -/
theorem QueryBSON_identifier_by_field (lib : Lib) (convertors : List (String → String → Value))
    (table : List (String × Operator)) (q : query) (key val : String)
    (hv : IsObjectIdHex val = true) :
    ((splitKey table key).1 = "id" →
      addParam lib convertors table q key val
        = q.Add "_id" (splitKey table key).2 [ObjectIdHex val]) ∧
    (Contains (splitKey table key).1 ".id" = true →
      addParam lib convertors table q key val
        = q.Add (Replace (splitKey table key).1 ".id" "._id") (splitKey table key).2
            [ObjectIdHex val]) ∧
    ((splitKey table key).1 ≠ "id" → Contains (splitKey table key).1 ".id" = false →
      addParam lib convertors table q key val
        = q.Add (splitKey table key).1 (splitKey table key).2
            [firstSuccess (attempts lib convertors (splitKey table key).1 val) val]) ∧
    (∃ hex, ObjectIdHex val = .objectId hex) := by
  refine ⟨?_, ?_, ?_, ⟨_, rfl⟩⟩
  · intro hk
    simp [addParam, idRule, hv, hk]
  · intro hk
    have hne : (splitKey table key).1 ≠ "id" := by
      intro e
      rw [e, Contains_id] at hk
      exact absurd hk (by simp)
    simp [addParam, idRule, hv, hk, hne]
  · intro hne hk
    rw [← coerce_eq_firstSuccess]
    simp [addParam, idRule, hk, hne]

theorem QueryBSON_identifier_by_field_witness :
    IsObjectIdHex "58db2700cf2f6715b00021a7" = true ∧
    (((splitKey suffixes "owner").1 = "id" →
      addParam ⟨fun _ => "", fun _ => none, fun _ => none⟩ [] suffixes New "owner"
          "58db2700cf2f6715b00021a7"
        = New.Add "_id" (splitKey suffixes "owner").2 [ObjectIdHex "58db2700cf2f6715b00021a7"]) ∧
    (Contains (splitKey suffixes "owner").1 ".id" = true →
      addParam ⟨fun _ => "", fun _ => none, fun _ => none⟩ [] suffixes New "owner"
          "58db2700cf2f6715b00021a7"
        = New.Add (Replace (splitKey suffixes "owner").1 ".id" "._id")
            (splitKey suffixes "owner").2 [ObjectIdHex "58db2700cf2f6715b00021a7"]) ∧
    ((splitKey suffixes "owner").1 ≠ "id" → Contains (splitKey suffixes "owner").1 ".id" = false →
      addParam ⟨fun _ => "", fun _ => none, fun _ => none⟩ [] suffixes New "owner"
          "58db2700cf2f6715b00021a7"
        = New.Add (splitKey suffixes "owner").1 (splitKey suffixes "owner").2
            [firstSuccess (attempts ⟨fun _ => "", fun _ => none, fun _ => none⟩ []
              (splitKey suffixes "owner").1 "58db2700cf2f6715b00021a7")
              "58db2700cf2f6715b00021a7"]) ∧
    (∃ hex, ObjectIdHex "58db2700cf2f6715b00021a7" = .objectId hex)) :=
  ⟨by decide,
    QueryBSON_identifier_by_field ⟨fun _ => "", fun _ => none, fun _ => none⟩ [] suffixes New
      "owner" "58db2700cf2f6715b00021a7" (by decide)⟩

/-! ## The keys `QueryBSON` can render -/

theorem addParam_Add (lib : Lib) (convertors : List (String → String → Value))
    (table : List (String × Operator)) (q : query) (key val : String) :
    ∃ a : AddCall, addParam lib convertors table q key val = q.Add a.key a.op a.val := by
  simp only [addParam]
  cases h : idRule q (splitKey table key).1 (splitKey table key).2 val with
  | none => exact ⟨⟨_, _, _⟩, rfl⟩
  | some q1 =>
    unfold idRule at h
    split_ifs at h
    · exact ⟨⟨_, _, _⟩, (Option.some.inj h).symm⟩
    · exact ⟨⟨_, _, _⟩, (Option.some.inj h).symm⟩

theorem build_snoc (adds : List AddCall) (a : AddCall) :
    build (adds ++ [a]) = (build adds).Add a.key a.op a.val := by
  simp [build, List.foldl_append]

theorem foldl_addParam_build (lib : Lib) (convertors : List (String → String → Value))
    (table : List (String × Operator)) (key : String) (vals : List String) :
    ∀ adds0 : List AddCall, ∃ adds,
      vals.foldl (fun q1 val => addParam lib convertors table q1 key val) (build adds0)
        = build adds := by
  induction vals with
  | nil => exact fun adds0 => ⟨adds0, rfl⟩
  | cons v vals ih =>
    intro adds0
    obtain ⟨a, ha⟩ := addParam_Add lib convertors table (build adds0) key v
    obtain ⟨adds, h⟩ := ih (adds0 ++ [a])
    refine ⟨adds, ?_⟩
    rw [List.foldl_cons, ha, ← build_snoc]
    exact h

theorem scanParams_build (lib : Lib) (keys : QueryKeys)
    (convertors : List (String → String → Value)) (params : List (String × List String)) :
    ∃ adds, scanParams lib keys convertors params = build adds := by
  have key : ∀ (params : List (String × List String)) (adds0 : List AddCall), ∃ adds,
      params.foldl
        (fun q kv =>
          if kv.1 = keys.page ∨ kv.1 = keys.limit ∨ kv.1 = keys.sort ∨ kv.1 = keys.order then q
          else kv.2.foldl (fun q1 val => addParam lib convertors suffixes q1 kv.1 val) q)
        (build adds0) = build adds := by
    intro params
    induction params with
    | nil => exact fun adds0 => ⟨adds0, rfl⟩
    | cons kv params ih =>
      intro adds0
      rw [List.foldl_cons]
      split_ifs
      · exact ih adds0
      · obtain ⟨adds1, h1⟩ := foldl_addParam_build lib convertors suffixes kv.1 kv.2 adds0
        rw [h1]
        exact ih adds1
  exact key params []

/-- C24 (code bug): `QueryBSON` knows no suffix `_exists`: the parameter `name_exists=false`
is taken as an equality on the field `name_exists` and renders `$eq: false` under the field
`name_exists`, where `TestQueryBSON` expects `$exists: false` under the field `name`; no
parameters make `QueryBSON` render a key `$exists`. -/
theorem QueryBSON_exists_not_rendered [SliceSorter] :
    splitKey suffixes "name_exists" = ("name_exists", OperatorEq) ∧
    QueryBSON ⟨fun _ => "", fun _ => none, fun _ => none⟩ { } [] [("name_exists", ["false"])]
      = some [("name_exists", [("$eq", .val (.bool false))])] ∧
    QueryBSON ⟨fun _ => "", fun _ => none, fun _ => none⟩ { } []
        [("parent._id_exists", ["true"])]
      = some [("parent._id_exists", [("$eq", .val (.bool true))])] ∧
    (∀ (lib : Lib) (keys : QueryKeys) (convertors : List (String → String → Value))
      (params : List (String × List String)) (m : M (M Elem)) (f : String) (sub : M Elem)
      (k : String) (e : Elem),
      QueryBSON lib keys convertors params = some m → get m f = some sub →
      get sub k = some e → k ≠ "$exists") := by
  refine ⟨by decide, rfl, rfl, ?_⟩
  intro lib keys convertors params m f sub k e hm hsub hk
  obtain ⟨adds, hadds⟩ := scanParams_build lib keys convertors params
  unfold QueryBSON at hm
  rw [hadds] at hm
  obtain ⟨_, _, _, c1, _⟩ := ToBSON_union_of_fragments lib.sprint adds (build adds)
    ⟨build adds, List.forall₂_same.mpr (fun _ _ => ⟨rfl, List.Perm.refl _⟩), List.Perm.refl _⟩
  obtain ⟨o, fr, _, hfr, hget⟩ := ((c1 m hm f).2 sub hsub k e).mp hk
  have ho := fragment_key lib.sprint o _ fr k e hfr hget
  intro hke
  have hn : opOfKey "$exists" = none := by decide
  rw [hke, hn] at ho
  exact absurd ho (by simp)

/-! ## The pattern of `_like` -/

theorem splitKey_like (field : String) :
    splitKey suffixes (field ++ "_like") = (field, OperatorLike) := by
  have hs : HasSuffix (field ++ "_like") "_like" = true := by
    simp [HasSuffix]
  have hm := splitKey_match (field ++ "_like") ("_like", OperatorLike) suffixes (by decide) hs
    (fun e1 he1 h1 => HasSuffix_unique _ e1 ("_like", OperatorLike) he1 (by decide) h1 hs)
  rw [hm]
  have ht := TrimSuffix_append (field ++ "_like") "_like" hs
  rw [String.data_append] at ht
  have : TrimSuffix (field ++ "_like") "_like" = field :=
    String.ext (List.append_cancel_right ht)
  simp [this]

/-- C25 (code bug): the value of a `_like` parameter goes through the coercion chain before
Like prints it, so the pattern is not always the text the user wrote: `name_like=007` renders
the pattern `7` and `name_like=+5` the pattern `5`, whatever the library functions return, and
`name_like=T` renders the pattern `true` (the float parser rejects `T`).  The doc comment of
`QueryBSON` promises a regular expression (`_like` to filter, RegExp supported); the pattern
is the raw text only for a value that no step of the chain takes. -/
theorem QueryBSON_like_pattern_coerced [SliceSorter] :
    (∀ lib : Lib, QueryBSON lib { } [] [("name_like", ["007"])]
      = some [("name", [("$regex", .regex "7")])]) ∧
    (∀ lib : Lib, QueryBSON lib { } [] [("name_like", ["+5"])]
      = some [("name", [("$regex", .regex "5")])]) ∧
    QueryBSON ⟨fun _ => "", fun _ => none, fun _ => none⟩ { } [] [("name_like", ["T"])]
      = some [("name", [("$regex", .regex "true")])] ∧
    QueryBSON ⟨fun _ => "", fun _ => none, fun _ => none⟩ { } [] [("name_like", ["black"])]
      = some [("name", [("$regex", .regex "black")])] ∧
    ¬ (∀ (lib : Lib) (keys : QueryKeys) (convertors : List (String → String → Value))
        (field v : String),
        QueryBSON lib keys convertors [(field ++ "_like", [v])]
          = some [(field, [("$regex", .regex v)])]) := by
  have h1 : ∀ lib : Lib, QueryBSON lib { } [] [("name_like", ["007"])]
      = some [("name", [("$regex", .regex "7")])] := fun _ => rfl
  refine ⟨h1, fun _ => rfl, rfl, rfl, ?_⟩
  intro h
  have h2 := h ⟨fun _ => "", fun _ => none, fun _ => none⟩ { } [] "name" "007"
  have h3 : ("name" ++ "_like" : String) = "name_like" := by decide
  rw [h3, h1] at h2
  exact absurd h2 (by decide)

/-- What `QueryBSON` renders for `<field>_like=v` in general, the key not being reserved and
the identifier rule not applying: a `$regex` under the field whose pattern is the printed
form of the value the coercion chain gives for `v`.  It is the raw text `v` when `v` parses as
no integer, float, boolean or timestamp and no convertor takes it, and the decimal form of
the integer when `v` parses as an integer. -/
theorem QueryBSON_like_pattern [SliceSorter] (lib : Lib) (keys : QueryKeys)
    (convertors : List (String → String → Value)) (field v : String)
    (hk : field ++ "_like" ≠ keys.page ∧ field ++ "_like" ≠ keys.limit ∧
      field ++ "_like" ≠ keys.sort ∧ field ++ "_like" ≠ keys.order)
    (hid : idRule New field OperatorLike v = none) :
    splitKey suffixes (field ++ "_like") = (field, OperatorLike) ∧
    QueryBSON lib keys convertors [(field ++ "_like", [v])]
      = some [(field, [("$regex",
          .regex (Sprint lib.sprint (firstSuccess (attempts lib convertors field v) v)))])] ∧
    (ParseInt v = none → lib.parseFloat v = none → ParseBool v = none →
      lib.parseTime v = none → (∀ c ∈ convertors, c field v = .null) →
      QueryBSON lib keys convertors [(field ++ "_like", [v])]
        = some [(field, [("$regex", .regex v)])]) ∧
    (∀ i, ParseInt v = some i →
      QueryBSON lib keys convertors [(field ++ "_like", [v])]
        = some [(field, [("$regex", .regex (toString i))])]) := by
  have hq : QueryBSON lib keys convertors [(field ++ "_like", [v])]
      = some [(field, [("$regex",
          .regex (Sprint lib.sprint (coerce lib convertors field v)))])] := by
    obtain ⟨k1, k2, k3, k4⟩ := hk
    have hs : scanParams lib keys convertors [(field ++ "_like", [v])]
        = New.Add field OperatorLike [coerce lib convertors field v] := by
      simp [scanParams, k1, k2, k3, k4, addParam, splitKey_like, hid]
    rw [QueryBSON, hs]
    simp [query.ToBSON, renderFields, renderOps, merge, MergeWithOverwrite, query.Add,
      query.init, New, bsonbuilder.get, bsonbuilder.set, Operator.ToBSON, OperatorEq,
      OperatorNe, OperatorGt, OperatorGte, OperatorLt, OperatorLte, OperatorLike]
  refine ⟨splitKey_like field, ?_, ?_, ?_⟩
  · rw [hq, coerce_eq_firstSuccess]
  · intro a b c d e
    have hc : convert convertors field v = none := by
      rw [convert_eq_findSome]
      simp only [List.findSome?_eq_none_iff, List.mem_map]
      rintro x ⟨c0, hc0, rfl⟩
      simp [e c0 hc0]
    rw [hq]
    simp [coerce, a, b, c, d, hc, Sprint]
  · intro i hi
    rw [hq]
    simp [coerce, hi, Sprint]

theorem QueryBSON_like_pattern_witness :
    (("name" : String) ++ "_like" ≠ ({ } : QueryKeys).page ∧
      ("name" : String) ++ "_like" ≠ ({ } : QueryKeys).limit ∧
      ("name" : String) ++ "_like" ≠ ({ } : QueryKeys).sort ∧
      ("name" : String) ++ "_like" ≠ ({ } : QueryKeys).order) ∧
    idRule New "name" OperatorLike "black" = none ∧
    (splitKey suffixes ("name" ++ "_like") = ("name", OperatorLike) ∧
    QueryBSON ⟨fun _ => "", fun _ => none, fun _ => none⟩ { } [] [("name" ++ "_like", ["black"])]
      = some [("name", [("$regex",
          .regex (Sprint (fun _ => "") (firstSuccess
            (attempts ⟨fun _ => "", fun _ => none, fun _ => none⟩ [] "name" "black")
            "black")))])] ∧
    (ParseInt "black" = none → (none : Option F64) = none → ParseBool "black" = none →
      (none : Option Int) = none →
      (∀ c ∈ ([] : List (String → String → Value)), c "name" "black" = .null) →
      QueryBSON ⟨fun _ => "", fun _ => none, fun _ => none⟩ { } []
          [("name" ++ "_like", ["black"])]
        = some [("name", [("$regex", .regex "black")])]) ∧
    (∀ i, ParseInt "black" = some i →
      QueryBSON ⟨fun _ => "", fun _ => none, fun _ => none⟩ { } []
          [("name" ++ "_like", ["black"])]
        = some [("name", [("$regex", .regex (toString i))])])) :=
  ⟨by decide, by decide,
    QueryBSON_like_pattern ⟨fun _ => "", fun _ => none, fun _ => none⟩ { } [] "name" "black"
      (by decide) (by decide)⟩

end controllers
